import Mathlib

/-!
Verification of the toric-scope lattice stratification engine.

This file gives a shallow embedding, in Lean, of the geometry kernel
(`convexHull.ts`), the stratum registry (`stratum.ts`) and the
stratification builder (`stratification.ts`) of the repository, and proves
the testable properties stated in the specification against that embedding.

Modelling conventions
* TypeScript `number` values that hold lattice data are embedded as `Int`
  (the spec restricts the core to integer lattice coordinates).
* `Math.atan2`-based polar-angle comparison is embedded exactly: for
  integer vectors, two angles are equal (up to the source's `1e-10`
  tolerance) precisely when the vectors point in the same direction, which
  is decided with cross products; distinct angles are ordered by the sign
  of the cross product inside one half-plane and by half-plane otherwise.
  Comparing `Math.sqrt` distances is embedded as comparing squared
  distances (the square root is strictly monotone).
* `Array.prototype.sort` (stable) is embedded by a stable sort with the
  decidable total preorder corresponding to the source comparator.
* `points.filter(p => p !== anchor)` removes exactly one array slot (the
  one holding the anchor reference); since the anchor scan keeps the first
  lexicographically-minimal element, this is `List.erase` (first
  occurrence by value).
* JS `Map` is embedded as an insertion-ordered association list where
  `set` overwrites in place; JS `Set` as an insertion-ordered list where
  `add` appends when the element is absent.  Mutation of a stratum object
  reachable from the registry is embedded as an in-place keyed update of
  the registry.
* Floating-point tolerances (`1e-10`) in `isPointOnSegment` compare
  integer-valued expressions, so `|cross| > 1e-10` is embedded as
  `cross ≠ 0`.
-/

namespace TS

/-- Lattice point with integer coordinates (`Point` in `convexHull.ts`). -/
structure Pt where
  x : Int
  y : Int
deriving DecidableEq

instance : Inhabited Pt := ⟨⟨0, 0⟩⟩

/-- Model of `crossProduct(O, A, B)` from `convexHull.ts`. -/
def crossProduct (O A B : Pt) : Int :=
  (A.x - O.x) * (B.y - O.y) - (A.y - O.y) * (B.x - O.x)

/-- Cross product of two displacement vectors (helper for the polar order). -/
def crossV (u v : Pt) : Int := u.x * v.y - u.y * v.x

/-- Displacement vector from `b` to `a`. -/
def ptSub (a b : Pt) : Pt := ⟨a.x - b.x, a.y - b.y⟩

/-- Squared Euclidean distance; the source compares `Math.sqrt` distances,
which orders identically. -/
def distSq (p q : Pt) : Int := (p.x - q.x) * (p.x - q.x) + (p.y - q.y) * (p.y - q.y)

/-- Half-plane class of a vector, ordered as the `Math.atan2` branch
`(-π, π]` orders it: angles in `(-π,0)`, then `0` (including the zero
vector, `atan2(0,0) = 0`), then `(0,π)`, then `π`. -/
def angClass (u : Pt) : Nat :=
  if u.y < 0 then 0
  else if u.y = 0 ∧ 0 ≤ u.x then 1
  else if 0 < u.y then 2
  else 3

/-- Exact model of `atan2` angle strict comparison for integer vectors. -/
def angLt (u v : Pt) : Prop :=
  angClass u < angClass v ∨ (angClass u = angClass v ∧ 0 < crossV u v)

/-- Exact model of `atan2` angle equality (the source's `1e-10` tie
tolerance) for integer vectors. -/
def angEq (u v : Pt) : Prop := angClass u = angClass v ∧ crossV u v = 0

/-- Model of the sort comparator in `convexHull`: order by polar angle
around `anchor`, break angle ties by distance from `anchor`. -/
def polarLe (anchor a b : Pt) : Prop :=
  angLt (ptSub a anchor) (ptSub b anchor) ∨
    (angEq (ptSub a anchor) (ptSub b anchor) ∧ distSq anchor a ≤ distSq anchor b)

instance (u v : Pt) : Decidable (angLt u v) := by unfold angLt; infer_instance

instance (u v : Pt) : Decidable (angEq u v) := by unfold angEq; infer_instance

instance (anchor a b : Pt) : Decidable (polarLe anchor a b) := by
  unfold polarLe; infer_instance

/-- One step of the anchor scan in `convexHull`: keep the point with the
lowest y-coordinate, ties broken by x-coordinate (strict comparisons, so
the first minimal element is kept). -/
def anchorStep (acc p : Pt) : Pt :=
  if p.y < acc.y ∨ (p.y = acc.y ∧ p.x < acc.x) then p else acc

/-- The anchor scan (`let anchor = points[0]; for (...) ...`). -/
def findAnchor (points : List Pt) : Pt := points.foldl anchorStep points.headI

/-- The inner `while` loop of the Graham scan: pop while the last two stack
points and the incoming point fail to make a strict counter-clockwise
turn.  The stack is kept top-first (the JS array end is the list head). -/
def popStep (p : Pt) : List Pt → List Pt
  | top :: secondTop :: rest =>
    if crossProduct secondTop top p ≤ 0 then popStep p (secondTop :: rest)
    else top :: secondTop :: rest
  | l => l

/-- One iteration of the Graham sweep: pop, then push the incoming point. -/
def scanStep (hull : List Pt) (p : Pt) : List Pt := p :: popStep p hull

/-- Model of `convexHull(points)` from `convexHull.ts` (Graham scan).
Inputs with fewer than 3 points are returned unchanged. -/
def convexHull (points : List Pt) : List Pt :=
  if points.length < 3 then points
  else
    let anchor := findAnchor points
    let sorted := List.insertionSort (polarLe anchor) (points.erase anchor)
    (sorted.foldl scanStep [anchor]).reverse

/-- Consecutive vertex pairs of a polygon with wrap-around
(`hull[i], hull[(i+1) % hull.length]`). -/
def cyclePairs (l : List Pt) : List (Pt × Pt) := l.zip (l.rotate 1)

/-- Model of `isPointInsidePolygon(point, polygon)`: strict interiority in
a CCW convex polygon, `false` for polygons with fewer than 3 vertices. -/
def isPointInsidePolygon (point : Pt) (polygon : List Pt) : Bool :=
  if polygon.length < 3 then false
  else (cyclePairs polygon).all fun cn => decide (0 < crossProduct cn.1 cn.2 point)

/-- The body of the Euclid `while (b !== 0)` loop used by the gcd helpers
in `convexHull.ts`, `stratification.ts` and `LatticeCanvas.tsx`, with an
explicit fuel bound so that the recursion is structural; the loop variable
strictly decreases, so `b + 1` rounds always suffice (`gcdLoop_eq_gcd`). -/
def gcdAux : Nat → Nat → Nat → Nat
  | 0, a, _ => a
  | fuel + 1, a, b => if b = 0 then a else gcdAux fuel b (a % b)

/-- The Euclid `while (b !== 0)` loop. -/
def gcdLoop (a b : Nat) : Nat := gcdAux (b + 1) a b

/-- The source gcd helper: take absolute values, then run Euclid's loop. -/
def jsGcd (dx dy : Int) : Nat := gcdLoop dx.natAbs dy.natAbs

/-- Model of `latticePointsOnSegment(p1, p2)`: the `g - 1` interior lattice
points stepped by `(dx/g, dy/g)`; the division is exact, so integer
division embeds the source's float division faithfully. -/
def latticePointsOnSegment (p1 p2 : Pt) : List Pt :=
  let dx := p2.x - p1.x
  let dy := p2.y - p1.y
  let g := jsGcd dx dy
  if g = 0 then []
  else
    let stepX := dx / (g : Int)
    let stepY := dy / (g : Int)
    (List.range (g - 1)).map fun (i : Nat) =>
      ⟨p1.x + ((i : Int) + 1) * stepX, p1.y + ((i : Int) + 1) * stepY⟩

/-- Model of `edgePointsOfPolygon(polygon)`. -/
def edgePointsOfPolygon (polygon : List Pt) : List Pt :=
  if polygon.length < 2 then []
  else (cyclePairs polygon).flatMap fun cn => latticePointsOnSegment cn.1 cn.2

/-- Model of `computePrimitiveNormal(v1, v2)` from `stratification.ts`. -/
def computePrimitiveNormal (v1 v2 : Pt) : Pt :=
  let nx := v2.y - v1.y
  let ny := -(v2.x - v1.x)
  let g := jsGcd nx ny
  if g = 0 then ⟨0, 0⟩ else ⟨nx / (g : Int), ny / (g : Int)⟩

/-- Model of the private `isPointOnSegment(point, v1, v2)` from
`stratification.ts`; all compared quantities are integers, so the `1e-10`
tolerance on the cross product is exactly `cross = 0`. -/
def isPointOnSegment (point v1 v2 : Pt) : Bool :=
  let cross := (v2.y - v1.y) * (point.x - v1.x) - (v2.x - v1.x) * (point.y - v1.y)
  if cross ≠ 0 then false
  else
    let dotP := (point.x - v1.x) * (v2.x - v1.x) + (point.y - v1.y) * (v2.y - v1.y)
    let squaredLength := (v2.x - v1.x) * (v2.x - v1.x) + (v2.y - v1.y) * (v2.y - v1.y)
    decide (0 ≤ dotP ∧ dotP ≤ squaredLength)

/-- Model of `calculateEdgeMultiplicity(v1, v2, monomial)` from
`LatticeCanvas.tsx`: absolute dot product of the primitive edge normal
with the vector from `v1` to the reference point. -/
def calculateEdgeMultiplicity (v1 v2 monomial : Pt) : Int :=
  let nx := v2.y - v1.y
  let ny := -(v2.x - v1.x)
  let g := jsGcd nx ny
  let primitiveNx := if g = 0 then 0 else nx / (g : Int)
  let primitiveNy := if g = 0 then 0 else ny / (g : Int)
  |primitiveNx * (monomial.x - v1.x) + primitiveNy * (monomial.y - v1.y)|

/-- Model of `pointKey(x, y)` from `stratification.ts`. -/
def pointKey (x y : Int) : String := toString x ++ "," ++ toString y

/-- Model of `vertexId(point)` from `stratification.ts`. -/
def vertexId (p : Pt) : String := "v_" ++ pointKey p.x p.y

/-- Model of `edgeId(v1, v2)` from `stratification.ts` (canonical
lexicographically-smaller-first endpoint ordering). -/
def edgeId (v1 v2 : Pt) : String :=
  if v1.x < v2.x ∨ (v1.x = v2.x ∧ v1.y < v2.y) then
    "e_" ++ pointKey v1.x v1.y ++ "_" ++ pointKey v2.x v2.y
  else
    "e_" ++ pointKey v2.x v2.y ++ "_" ++ pointKey v1.x v1.y

/-- Model of the inclusive integer grid of `enumerateLatticePoints`
(floor/ceil are the identity on integer bounds). -/
def intRangeIncl (lo hi : Int) : List Int :=
  if hi < lo then [] else (List.range ((hi - lo).toNat + 1)).map fun i => lo + (i : Int)

/-- Model of `enumerateLatticePoints(minX, maxX, minY, maxY)`. -/
def enumerateLatticePoints (minX maxX minY maxY : Int) : List Pt :=
  (intRangeIncl minX maxX).flatMap fun x =>
    (intRangeIncl minY maxY).map fun y => (⟨x, y⟩ : Pt)

/-- JS `Set.add`: append if absent, insertion order preserved. -/
def setAdd (s : List String) (k : String) : List String :=
  if k ∈ s then s else s ++ [k]

/-- JS `new Set(array)`: deduplicate keeping first occurrences. -/
def setOfList (l : List String) : List String := l.foldl setAdd []

/-- JS `Map.get`. -/
def mapGet {α : Type} : List (String × α) → String → Option α
  | [], _ => none
  | kv :: rest, k => if kv.1 = k then some kv.2 else mapGet rest k

/-- JS `Map.set`: overwrite in place when the key exists, else append. -/
def mapSet {α : Type} : List (String × α) → String → α → List (String × α)
  | [], k, v => [(k, v)]
  | kv :: rest, k, v => if kv.1 = k then (k, v) :: rest else kv :: mapSet rest k v

/-- Model of `VertexStratum` (dimension 0) from `stratum.ts`; the three
monomial sets and the two containment sets are insertion-ordered lists. -/
structure VertexStratum where
  id : String
  point : Pt
  vertexMonomials : List String
  edgeMonomials : List String
  interiorMonomials : List String
  substrata : List String
  superstrata : List String
deriving DecidableEq

/-- Model of `EdgeStratum` (dimension 1) from `stratum.ts`. -/
structure EdgeStratum where
  id : String
  vertices : String × String
  primitiveNormal : Pt
  vertexMonomials : List String
  edgeMonomials : List String
  interiorMonomials : List String
  substrata : List String
  superstrata : List String
deriving DecidableEq

/-- Model of `FaceStratum` (dimension 2) from `stratum.ts`. -/
structure FaceStratum where
  id : String
  hullVertices : List String
  vertexMonomials : List String
  edgeMonomials : List String
  interiorMonomials : List String
  substrata : List String
  superstrata : List String
deriving DecidableEq

/-- A stratum of any dimension (the `Stratum` interface with its
`dimension`-tagged variants, made a sum type). -/
inductive Stratum where
  | vertex : VertexStratum → Stratum
  | edge : EdgeStratum → Stratum
  | face : FaceStratum → Stratum
deriving DecidableEq

/-- The `dimension` field of a stratum. -/
def Stratum.dimension : Stratum → Nat
  | .vertex _ => 0
  | .edge _ => 1
  | .face _ => 2

/-- The `id` field of a stratum. -/
def Stratum.sid : Stratum → String
  | .vertex v => v.id
  | .edge e => e.id
  | .face f => f.id

/-- The `vertexMonomials` field of a stratum. -/
def Stratum.vertexMonomials : Stratum → List String
  | .vertex v => v.vertexMonomials
  | .edge e => e.vertexMonomials
  | .face f => f.vertexMonomials

/-- The `edgeMonomials` field of a stratum. -/
def Stratum.edgeMonomials : Stratum → List String
  | .vertex v => v.edgeMonomials
  | .edge e => e.edgeMonomials
  | .face f => f.edgeMonomials

/-- The `interiorMonomials` field of a stratum. -/
def Stratum.interiorMonomials : Stratum → List String
  | .vertex v => v.interiorMonomials
  | .edge e => e.interiorMonomials
  | .face f => f.interiorMonomials

/-- The `substrata` field of a stratum. -/
def Stratum.substrata : Stratum → List String
  | .vertex v => v.substrata
  | .edge e => e.substrata
  | .face f => f.substrata

/-- The `superstrata` field of a stratum. -/
def Stratum.superstrata : Stratum → List String
  | .vertex v => v.superstrata
  | .edge e => e.superstrata
  | .face f => f.superstrata

/-- Model of `StratumRegistry`: the three insertion-ordered id-keyed maps. -/
structure StratumRegistry where
  vertices : List (String × VertexStratum)
  edges : List (String × EdgeStratum)
  faces : List (String × FaceStratum)
deriving DecidableEq

/-- A fresh registry (`new StratumRegistry()` / `clear()`). -/
def emptyRegistry : StratumRegistry := ⟨[], [], []⟩

/-- Model of `StratumRegistry.addVertex`. -/
def addVertex (r : StratumRegistry) (v : VertexStratum) : StratumRegistry :=
  { r with vertices := mapSet r.vertices v.id v }

/-- Model of `StratumRegistry.addEdge`. -/
def addEdge (r : StratumRegistry) (e : EdgeStratum) : StratumRegistry :=
  { r with edges := mapSet r.edges e.id e }

/-- Model of `StratumRegistry.addFace`. -/
def addFace (r : StratumRegistry) (f : FaceStratum) : StratumRegistry :=
  { r with faces := mapSet r.faces f.id f }

/-- Model of `StratumRegistry.getStratum` (vertices, then edges, then
faces, mirroring the `||` chain). -/
def getStratum (r : StratumRegistry) (id : String) : Option Stratum :=
  match mapGet r.vertices id with
  | some v => some (.vertex v)
  | none =>
    match mapGet r.edges id with
    | some e => some (.edge e)
    | none =>
      match mapGet r.faces id with
      | some f => some (.face f)
      | none => none

/-- Model of `StratumRegistry.getVertex`. -/
def getVertex (r : StratumRegistry) (id : String) : Option VertexStratum :=
  mapGet r.vertices id

/-- Model of `StratumRegistry.getEdge`. -/
def getEdge (r : StratumRegistry) (id : String) : Option EdgeStratum :=
  mapGet r.edges id

/-- Model of `StratumRegistry.getFace`. -/
def getFace (r : StratumRegistry) (id : String) : Option FaceStratum :=
  mapGet r.faces id

/-- Model of `StratumRegistry.getAllVertices` (insertion order). -/
def getAllVertices (r : StratumRegistry) : List VertexStratum :=
  r.vertices.map (·.2)

/-- Model of `StratumRegistry.getAllEdges` (insertion order). -/
def getAllEdges (r : StratumRegistry) : List EdgeStratum :=
  r.edges.map (·.2)

/-- Model of `StratumRegistry.getAllFaces` (insertion order). -/
def getAllFaces (r : StratumRegistry) : List FaceStratum :=
  r.faces.map (·.2)

/-- Model of `StratumRegistry.getSubstrata` (resolve ids, silently dropping
unresolved ones). -/
def getSubstrata (r : StratumRegistry) (id : String) : List Stratum :=
  match getStratum r id with
  | none => []
  | some s => s.substrata.filterMap fun i => getStratum r i

/-- Model of `StratumRegistry.getSuperstrata`. -/
def getSuperstrata (r : StratumRegistry) (id : String) : List Stratum :=
  match getStratum r id with
  | none => []
  | some s => s.superstrata.filterMap fun i => getStratum r i

/-- Model of `StratumRegistry.getAllMonomials` (union of the three
monomial sets, via `new Set([...])`). -/
def getAllMonomials (r : StratumRegistry) (id : String) : List String :=
  match getStratum r id with
  | none => []
  | some s => setOfList (s.vertexMonomials ++ s.edgeMonomials ++ s.interiorMonomials)

/-- Model of `StratumRegistry.getTotalCount`. -/
def getTotalCount (r : StratumRegistry) : Nat :=
  r.vertices.length + r.edges.length + r.faces.length

/-- Serialized vertex stratum (`SerializedVertexStratum`). -/
structure SerializedVertexStratum where
  id : String
  point : Pt
  vertexMonomials : List String
  edgeMonomials : List String
  interiorMonomials : List String
  substrata : List String
  superstrata : List String
deriving DecidableEq

/-- Serialized edge stratum (`SerializedEdgeStratum`). -/
structure SerializedEdgeStratum where
  id : String
  vertices : String × String
  primitiveNormal : Pt
  vertexMonomials : List String
  edgeMonomials : List String
  interiorMonomials : List String
  substrata : List String
  superstrata : List String
deriving DecidableEq

/-- Serialized face stratum (`SerializedFaceStratum`). -/
structure SerializedFaceStratum where
  id : String
  hullVertices : List String
  vertexMonomials : List String
  edgeMonomials : List String
  interiorMonomials : List String
  substrata : List String
  superstrata : List String
deriving DecidableEq

/-- Serialized registry (`SerializedStratumRegistry`). -/
structure SerializedStratumRegistry where
  vertices : List SerializedVertexStratum
  edges : List SerializedEdgeStratum
  faces : List SerializedFaceStratum
deriving DecidableEq

/-- The vertex branch of `serializeStratum` (`Array.from` on a JS set is
the identity on the insertion-ordered list model). -/
def serializeVertexStratum (v : VertexStratum) : SerializedVertexStratum :=
  ⟨v.id, v.point, v.vertexMonomials, v.edgeMonomials, v.interiorMonomials,
    v.substrata, v.superstrata⟩

/-- The edge branch of `serializeStratum`. -/
def serializeEdgeStratum (e : EdgeStratum) : SerializedEdgeStratum :=
  ⟨e.id, e.vertices, e.primitiveNormal, e.vertexMonomials, e.edgeMonomials,
    e.interiorMonomials, e.substrata, e.superstrata⟩

/-- The face branch of `serializeStratum`. -/
def serializeFaceStratum (f : FaceStratum) : SerializedFaceStratum :=
  ⟨f.id, f.hullVertices, f.vertexMonomials, f.edgeMonomials,
    f.interiorMonomials, f.substrata, f.superstrata⟩

/-- Model of `deserializeVertexStratum` (`new Set(array)` is `setOfList`). -/
def deserializeVertexStratum (d : SerializedVertexStratum) : VertexStratum :=
  ⟨d.id, d.point, setOfList d.vertexMonomials, setOfList d.edgeMonomials,
    setOfList d.interiorMonomials, setOfList d.substrata, setOfList d.superstrata⟩

/-- Model of `deserializeEdgeStratum`. -/
def deserializeEdgeStratum (d : SerializedEdgeStratum) : EdgeStratum :=
  ⟨d.id, d.vertices, d.primitiveNormal, setOfList d.vertexMonomials,
    setOfList d.edgeMonomials, setOfList d.interiorMonomials,
    setOfList d.substrata, setOfList d.superstrata⟩

/-- Model of `deserializeFaceStratum`. -/
def deserializeFaceStratum (d : SerializedFaceStratum) : FaceStratum :=
  ⟨d.id, d.hullVertices, setOfList d.vertexMonomials, setOfList d.edgeMonomials,
    setOfList d.interiorMonomials, setOfList d.substrata, setOfList d.superstrata⟩

/-- Model of `StratumRegistry.toJSON`. -/
def toJSON (r : StratumRegistry) : SerializedStratumRegistry :=
  ⟨r.vertices.map fun kv => serializeVertexStratum kv.2,
    r.edges.map fun kv => serializeEdgeStratum kv.2,
    r.faces.map fun kv => serializeFaceStratum kv.2⟩

/-- Model of `StratumRegistry.fromJSON` (add all vertices, then all edges,
then all faces, in serialized order). -/
def fromJSON (data : SerializedStratumRegistry) : StratumRegistry :=
  let r1 := data.vertices.foldl (fun r d => addVertex r (deserializeVertexStratum d))
    emptyRegistry
  let r2 := data.edges.foldl (fun r d => addEdge r (deserializeEdgeStratum d)) r1
  data.faces.foldl (fun r d => addFace r (deserializeFaceStratum d)) r2

/-- The vertex stratum built in step 1 of
`createStratificationFromPolytope`. -/
def mkVertexStratum (p : Pt) : VertexStratum :=
  { id := vertexId p
    point := p
    vertexMonomials := [pointKey p.x p.y]
    edgeMonomials := []
    interiorMonomials := []
    substrata := []
    superstrata := [] }

/-- The edge stratum built in step 2 of `createStratificationFromPolytope`
(with its two `substrata` ids already added, as in the source). -/
def mkEdgeStratum (v1 v2 : Pt) : EdgeStratum :=
  { id := edgeId v1 v2
    vertices := (vertexId v1, vertexId v2)
    primitiveNormal := computePrimitiveNormal v1 v2
    vertexMonomials := setOfList [pointKey v1.x v1.y, pointKey v2.x v2.y]
    edgeMonomials := []
    interiorMonomials := []
    substrata := setAdd (setAdd [] (vertexId v1)) (vertexId v2)
    superstrata := [] }

/-- Mutation `vertex.superstrata.add(id)` on the registry's vertex object
keyed `vid` (no-op when the lookup fails, as in the source's `if`). -/
def addVertexSuper (r : StratumRegistry) (vid sid : String) : StratumRegistry :=
  match mapGet r.vertices vid with
  | none => r
  | some v =>
    let v2 := { v with superstrata := setAdd v.superstrata sid }
    { r with vertices := mapSet r.vertices vid v2 }

/-- Mutation `edge.superstrata.add(id)` on the registry's edge object. -/
def addEdgeSuper (r : StratumRegistry) (eid sid : String) : StratumRegistry :=
  match mapGet r.edges eid with
  | none => r
  | some e =>
    let e2 := { e with superstrata := setAdd e.superstrata sid }
    { r with edges := mapSet r.edges eid e2 }

/-- Mutation `face.interiorMonomials.add(key)` on the registry's face. -/
def addFaceInterior (r : StratumRegistry) (fid key : String) : StratumRegistry :=
  match mapGet r.faces fid with
  | none => r
  | some f =>
    let f2 := { f with interiorMonomials := setAdd f.interiorMonomials key }
    { r with faces := mapSet r.faces fid f2 }

/-- One iteration of step 2 of `createStratificationFromPolytope`: build
the edge stratum for a consecutive hull pair, wire containment both ways,
and record the edge id (the source's local `edgeStrata` array). -/
def edgeStep (acc : StratumRegistry × List String) (pr : Pt × Pt) :
    StratumRegistry × List String :=
  let edge := mkEdgeStratum pr.1 pr.2
  let r1 := addVertexSuper acc.1 (vertexId pr.1) edge.id
  let r2 := addVertexSuper r1 (vertexId pr.2) edge.id
  (addEdge r2 edge, acc.2 ++ [edge.id])

/-- One iteration of step 3 of `createStratificationFromPolytope`: find
the first hull edge the point lies on and add the point's key to that
edge's `edgeMonomials`. -/
def classifyEdgePoint (hull : List Pt) (r : StratumRegistry) (point : Pt) :
    StratumRegistry :=
  match (cyclePairs hull).find? (fun pr => isPointOnSegment point pr.1 pr.2) with
  | none => r
  | some pr =>
    match mapGet r.edges (edgeId pr.1 pr.2) with
    | none => r
    | some e =>
      let e2 := { e with edgeMonomials := setAdd e.edgeMonomials (pointKey point.x point.y) }
      { r with edges := mapSet r.edges (edgeId pr.1 pr.2) e2 }

/-- Model of `createStratificationFromPolytope(selectedPoints,
visibleLatticePoints)` from `stratification.ts`.  The source's mutations
of strata reachable from the registry are performed as keyed registry
updates; the face's `substrata` set is filled before the face is added,
which is observationally identical since the face object stays local until
`addFace`. -/
def createStratificationFromPolytope (selectedPoints visibleLatticePoints : List Pt) :
    StratumRegistry :=
  if selectedPoints.length < 3 then emptyRegistry
  else
    let hull := convexHull selectedPoints
    if hull.length < 3 then emptyRegistry
    else
      let r1 := hull.foldl (fun r p => addVertex r (mkVertexStratum p)) emptyRegistry
      let re := (cyclePairs hull).foldl edgeStep (r1, [])
      let edgeMonomialPoints := edgePointsOfPolygon hull
      let r3 := edgeMonomialPoints.foldl (classifyEdgePoint hull) re.1
      let face : FaceStratum :=
        { id := "f_0"
          hullVertices := hull.map vertexId
          vertexMonomials := setOfList (hull.map fun p => pointKey p.x p.y)
          edgeMonomials := setOfList (edgeMonomialPoints.map fun p => pointKey p.x p.y)
          interiorMonomials := []
          substrata := re.2.foldl setAdd []
          superstrata := [] }
      let r4 := re.2.foldl (fun r eid => addEdgeSuper r eid "f_0") r3
      let r5 := hull.foldl (fun r p => addVertexSuper r (vertexId p) "f_0") r4
      let r6 := addFace r5 face
      visibleLatticePoints.foldl (fun r p =>
        if isPointInsidePolygon p hull then addFaceInterior r "f_0" (pointKey p.x p.y)
        else r) r6

/-- Recomputation of one face's `interiorMonomials` inside
`updateMonomials`: resolve the hull vertices (dropping unresolved ids),
clear the set, then re-add the key of every visible point strictly inside
the hull. -/
def recomputeFaceInterior (r : StratumRegistry) (visible : List Pt)
    (f : FaceStratum) : FaceStratum :=
  let hullPoints := (f.hullVertices.filterMap fun i => mapGet r.vertices i).map (·.point)
  visible.foldl (fun acc p =>
    if isPointInsidePolygon p hullPoints then
      { acc with interiorMonomials := setAdd acc.interiorMonomials (pointKey p.x p.y) }
    else acc)
    { f with interiorMonomials := [] }

/-- Model of `updateMonomials(registry, visibleLatticePoints)` from
`stratification.ts`.  Each face object is mutated in place; faces only
read the (unchanged) vertex map and write their own entry, so the
sequential `forEach` is the keyed map below. -/
def updateMonomials (r : StratumRegistry) (visible : List Pt) : StratumRegistry :=
  if r.faces.isEmpty then r
  else { r with faces := r.faces.map fun kv => (kv.1, recomputeFaceInterior r visible kv.2) }

/-! Specification-side vocabulary used to state the claims. -/

/-- The point `p` lies strictly inside the segment from `a` to `b`:
collinear with the endpoints, and its projection on the segment direction
is strictly between them. -/
def StrictlyBetween (a b p : Pt) : Prop :=
  crossProduct a b p = 0 ∧
    0 < (p.x - a.x) * (b.x - a.x) + (p.y - a.y) * (b.y - a.y) ∧
    (p.x - a.x) * (b.x - a.x) + (p.y - a.y) * (b.y - a.y) < distSq a b

instance (a b p : Pt) : Decidable (StrictlyBetween a b p) := by
  unfold StrictlyBetween; infer_instance

/-- Cyclic indexing into a polygon's vertex list. -/
def cget (H : List Pt) (i : Nat) : Pt := H.getD (i % H.length) default

/-- A polygon with at least 3 vertices in strictly convex counter-clockwise
position: every vertex lies strictly to the left of every directed edge of
which it is not an endpoint.  This formalizes a non-degenerate hull. -/
def CCWConvexPosition (H : List Pt) : Prop :=
  3 ≤ H.length ∧
    ∀ i < H.length, ∀ j < H.length,
      j ≠ i → j ≠ (i + 1) % H.length →
        0 < crossProduct (cget H i) (cget H (i + 1)) (cget H j)

instance (H : List Pt) : Decidable (CCWConvexPosition H) := by
  unfold CCWConvexPosition; infer_instance

/-- Membership in the closed region bounded by a CCW convex polygon: the
point is on the non-negative side of every directed edge. -/
def inClosureOf (p : Pt) (H : List Pt) : Prop :=
  ∀ pr ∈ cyclePairs H, 0 ≤ crossProduct pr.1 pr.2 p

instance (p : Pt) (H : List Pt) : Decidable (inClosureOf p H) := by
  unfold inClosureOf; infer_instance

/-- Twice the signed (shoelace) area of a polygon given by its vertex
list. -/
def doubledSignedArea (P : List Pt) : Int :=
  ((cyclePairs P).map fun pr => pr.1.x * pr.2.y - pr.1.y * pr.2.x).sum

/-- Embedding of a lattice point into the rational plane, used to state
convex-hull membership. -/
def toQ2 (p : Pt) : ℚ × ℚ := ((p.x : ℚ), (p.y : ℚ))

/-- The set of rational points of a list of lattice points. -/
def q2Set (l : List Pt) : Set (ℚ × ℚ) := {z | ∃ p ∈ l, toQ2 p = z}

/-- A key is present in an association-list map. -/
def hasKey {α : Type} (m : List (String × α)) (k : String) : Prop :=
  ∃ v, mapGet m k = some v

/-- The JS `Set` representation invariant for a vertex stratum: all five
set-valued fields hold no duplicates. -/
def vsNodup (v : VertexStratum) : Prop :=
  v.vertexMonomials.Nodup ∧ v.edgeMonomials.Nodup ∧ v.interiorMonomials.Nodup ∧
    v.substrata.Nodup ∧ v.superstrata.Nodup

/-- The JS `Set` representation invariant for an edge stratum. -/
def esNodup (e : EdgeStratum) : Prop :=
  e.vertexMonomials.Nodup ∧ e.edgeMonomials.Nodup ∧ e.interiorMonomials.Nodup ∧
    e.substrata.Nodup ∧ e.superstrata.Nodup

/-- The JS `Set` representation invariant for a face stratum. -/
def fsNodup (f : FaceStratum) : Prop :=
  f.vertexMonomials.Nodup ∧ f.edgeMonomials.Nodup ∧ f.interiorMonomials.Nodup ∧
    f.substrata.Nodup ∧ f.superstrata.Nodup

/-- The JS `Map` representation invariant: each entry is keyed by its
stratum's id, keys are unique, and each value satisfies `P`. -/
def wfMap {α : Type} (m : List (String × α)) (idOf : α → String) (P : α → Prop) : Prop :=
  (∀ kv ∈ m, kv.1 = idOf kv.2 ∧ P kv.2) ∧ (m.map (·.1)).Nodup

/-- Well-formedness of a registry as produced by the builder: the three
maps are genuine JS maps keyed by ids and all sets are duplicate-free. -/
def wfRegistry (r : StratumRegistry) : Prop :=
  wfMap r.vertices (fun v => v.id) vsNodup ∧
    wfMap r.edges (fun e => e.id) esNodup ∧
    wfMap r.faces (fun f => f.id) fsNodup

/-- The order in which the anchor scan of `convexHull` compares points:
lowest y-coordinate first, ties broken by x-coordinate. -/
def lexLe (a b : Pt) : Prop := a.y < b.y ∨ (a.y = b.y ∧ a.x ≤ b.x)

instance (a b : Pt) : Decidable (lexLe a b) := by
  unfold lexLe; infer_instance

/-- A displacement vector pointing into the closed upper half plane, with
the degenerate horizontal direction pointing right: the shape of every
vector from the anchor to an input point. -/
def UpperVec (v : Pt) : Prop := 0 ≤ v.y ∧ (v.y = 0 → 0 ≤ v.x)

instance (v : Pt) : Decidable (UpperVec v) := by
  unfold UpperVec; infer_instance

/-- Sum of the triangle cross products of a fan with apex `A` over
consecutive points of a list. -/
def fanSum (A : Pt) : List Pt → Int
  | y1 :: y2 :: ys => crossProduct A y1 y2 + fanSum A (y2 :: ys)
  | _ => 0

end TS

namespace TS

/-! Basic facts about the embedded gcd. -/

theorem gcdAux_eq_gcd : ∀ fuel a b, b < fuel → gcdAux fuel a b = Nat.gcd a b := by
  intro fuel
  induction fuel with
  | zero => omega
  | succ n ih =>
    intro a b hb
    rw [gcdAux]
    by_cases h0 : b = 0
    · simp [h0]
    · rw [if_neg h0, ih b (a % b) (by have := Nat.mod_lt a (Nat.pos_of_ne_zero h0); omega),
        Nat.gcd_comm b (a % b), ← Nat.gcd_rec b a, Nat.gcd_comm b a]

theorem gcdLoop_eq_gcd (a b : Nat) : gcdLoop a b = Nat.gcd a b :=
  gcdAux_eq_gcd (b + 1) a b (by omega)

theorem jsGcd_eq_gcd (dx dy : Int) : jsGcd dx dy = Int.gcd dx dy := by
  unfold jsGcd Int.gcd
  exact gcdLoop_eq_gcd _ _

theorem jsGcd_dvd_left (dx dy : Int) : ((jsGcd dx dy : Nat) : Int) ∣ dx := by
  rw [jsGcd_eq_gcd]; exact Int.gcd_dvd_left

theorem jsGcd_dvd_right (dx dy : Int) : ((jsGcd dx dy : Nat) : Int) ∣ dy := by
  rw [jsGcd_eq_gcd]; exact Int.gcd_dvd_right

theorem jsGcd_eq_zero_iff (dx dy : Int) : jsGcd dx dy = 0 ↔ dx = 0 ∧ dy = 0 := by
  rw [jsGcd_eq_gcd]; exact Int.gcd_eq_zero_iff

theorem jsGcd_neg_neg (a b : Int) : jsGcd (-a) (-b) = jsGcd a b := by
  unfold jsGcd
  rw [Int.natAbs_neg, Int.natAbs_neg]

theorem Pt.ext_xy (a b : Pt) (hx : a.x = b.x) (hy : a.y = b.y) : a = b := by
  cases a; cases b; simp_all

/-- Unfolding of `calculateEdgeMultiplicity` in the non-degenerate case. -/
theorem calculateEdgeMultiplicity_eq_abs (v1 v2 m : Pt)
    (h : jsGcd (v2.y - v1.y) (-(v2.x - v1.x)) ≠ 0) :
    calculateEdgeMultiplicity v1 v2 m =
      |(v2.y - v1.y) / (jsGcd (v2.y - v1.y) (-(v2.x - v1.x)) : Int) * (m.x - v1.x) +
        -(v2.x - v1.x) / (jsGcd (v2.y - v1.y) (-(v2.x - v1.x)) : Int) * (m.y - v1.y)| := by
  simp only [calculateEdgeMultiplicity]
  rw [if_neg h, if_neg h]

theorem primdot_zero (g nx ny a b : Int) (hg : g ≠ 0) (hdx : g ∣ nx) (hdy : g ∣ ny)
    (hlin : nx * a + ny * b = 0) : nx / g * a + ny / g * b = 0 := by
  have h2 : g * (nx / g * a + ny / g * b) = nx * a + ny * b := by
    calc g * (nx / g * a + ny / g * b)
        = (g * (nx / g)) * a + (g * (ny / g)) * b := by ring
      _ = nx * a + ny * b := by rw [Int.mul_ediv_cancel' hdx, Int.mul_ediv_cancel' hdy]
  rw [hlin] at h2
  exact (mul_eq_zero.mp h2).resolve_left hg

theorem primdot_swap (g nx ny a b a' b' : Int) (hg : g ≠ 0) (hdx : g ∣ nx) (hdy : g ∣ ny)
    (ha : a - a' = -ny) (hb : b - b' = nx) :
    -nx / g * a' + -ny / g * b' = -(nx / g * a + ny / g * b) := by
  rw [Int.neg_ediv_of_dvd hdx, Int.neg_ediv_of_dvd hdy]
  have hperp : nx / g * (a - a') + ny / g * (b - b') = 0 := by
    rw [ha, hb]
    have h1 : g * (nx / g * -ny + ny / g * nx) = 0 := by
      calc g * (nx / g * -ny + ny / g * nx)
          = (g * (nx / g)) * -ny + (g * (ny / g)) * nx := by ring
        _ = 0 := by rw [Int.mul_ediv_cancel' hdx, Int.mul_ediv_cancel' hdy]; ring
    exact (mul_eq_zero.mp h1).resolve_left hg
  nlinarith [hperp]

/-- C8: for an edge with distinct lattice endpoints, the multiplicity of a
reference point on the supporting line is 0, and the multiplicity is
invariant under swapping the two endpoints. -/
theorem C8_edge_multiplicity (v1 v2 m : Pt) (h : v1 ≠ v2) :
    (crossProduct v1 v2 m = 0 → calculateEdgeMultiplicity v1 v2 m = 0) ∧
      calculateEdgeMultiplicity v1 v2 m = calculateEdgeMultiplicity v2 v1 m := by
  have hg0 : jsGcd (v2.y - v1.y) (-(v2.x - v1.x)) ≠ 0 := by
    rw [Ne, jsGcd_eq_zero_iff]
    rintro ⟨h1, h2⟩
    exact h (Pt.ext_xy _ _ (by omega) (by omega))
  have hg0' : jsGcd (v1.y - v2.y) (-(v1.x - v2.x)) ≠ 0 := by
    rw [Ne, jsGcd_eq_zero_iff]
    rintro ⟨h1, h2⟩
    exact h (Pt.ext_xy _ _ (by omega) (by omega))
  have hdx := jsGcd_dvd_left (v2.y - v1.y) (-(v2.x - v1.x))
  have hdy := jsGcd_dvd_right (v2.y - v1.y) (-(v2.x - v1.x))
  have hgz : ((jsGcd (v2.y - v1.y) (-(v2.x - v1.x)) : Nat) : Int) ≠ 0 := by
    simpa using hg0
  constructor
  · intro hcross
    rw [calculateEdgeMultiplicity_eq_abs v1 v2 m hg0]
    have hlin : (v2.y - v1.y) * (m.x - v1.x) + -(v2.x - v1.x) * (m.y - v1.y) = 0 := by
      have hc : crossProduct v1 v2 m
          = -((v2.y - v1.y) * (m.x - v1.x) + -(v2.x - v1.x) * (m.y - v1.y)) := by
        simp only [crossProduct]; ring
      omega
    rw [primdot_zero _ _ _ _ _ hgz hdx hdy hlin, abs_zero]
  · rw [calculateEdgeMultiplicity_eq_abs v1 v2 m hg0,
      calculateEdgeMultiplicity_eq_abs v2 v1 m hg0']
    have e1 : v1.y - v2.y = -(v2.y - v1.y) := by ring
    have e2 : -(v1.x - v2.x) = -(-(v2.x - v1.x)) := by ring
    rw [e1, e2, jsGcd_neg_neg]
    rw [primdot_swap _ _ _ (m.x - v1.x) (m.y - v1.y) (m.x - v2.x) (m.y - v2.y)
      hgz hdx hdy (by ring) (by ring), abs_neg]

/-- Witness for C8 at the edge (0,0)-(2,0) and reference point (1,0). -/
theorem C8_edge_multiplicity_witness :
    ((⟨0,0⟩ : Pt) ≠ ⟨2,0⟩) ∧
      ((crossProduct ⟨0,0⟩ ⟨2,0⟩ ⟨1,0⟩ = 0 →
          calculateEdgeMultiplicity ⟨0,0⟩ ⟨2,0⟩ ⟨1,0⟩ = 0) ∧
        calculateEdgeMultiplicity ⟨0,0⟩ ⟨2,0⟩ ⟨1,0⟩ =
          calculateEdgeMultiplicity ⟨2,0⟩ ⟨0,0⟩ ⟨1,0⟩) :=
  ⟨by decide, C8_edge_multiplicity _ _ _ (by decide)⟩

end TS

namespace TS

/-! Characterization of `latticePointsOnSegment` (claim C6). -/

theorem latticePointsOnSegment_self (a : Pt) : latticePointsOnSegment a a = [] := by
  simp only [latticePointsOnSegment, sub_self]
  rw [if_pos]
  rw [jsGcd_eq_gcd]
  simp [Int.gcd]

theorem latticePointsOnSegment_eq_map (a b : Pt)
    (h : jsGcd (b.x - a.x) (b.y - a.y) ≠ 0) :
    latticePointsOnSegment a b =
      (List.range (jsGcd (b.x - a.x) (b.y - a.y) - 1)).map (fun (i : Nat) =>
        (⟨a.x + ((i : Int) + 1) * ((b.x - a.x) / (jsGcd (b.x - a.x) (b.y - a.y) : Int)),
          a.y + ((i : Int) + 1) * ((b.y - a.y) / (jsGcd (b.x - a.x) (b.y - a.y) : Int))⟩ : Pt)) := by
  simp only [latticePointsOnSegment]
  rw [if_neg h]

theorem seg_sound_core (dx dy g sx sy k : Int)
    (hx : dx = g * sx) (hy : dy = g * sy) (hs : sx ≠ 0 ∨ sy ≠ 0)
    (hk1 : 1 ≤ k) (hk2 : k < g) :
    dx * (k * sy) - dy * (k * sx) = 0 ∧
      0 < k * sx * dx + k * sy * dy ∧
      k * sx * dx + k * sy * dy < dx * dx + dy * dy := by
  have hs2 : 0 < sx ^ 2 + sy ^ 2 := by
    rcases hs with h | h
    · have : 0 < sx ^ 2 := by positivity
      nlinarith [sq_nonneg sy]
    · have : 0 < sy ^ 2 := by positivity
      nlinarith [sq_nonneg sx]
  refine ⟨by rw [hx, hy]; ring, ?_, ?_⟩
  · have : k * sx * dx + k * sy * dy = k * (g * (sx ^ 2 + sy ^ 2)) := by
      rw [hx, hy]; ring
    rw [this]
    have hgpos : 0 < g := by omega
    positivity
  · have h1 : k * sx * dx + k * sy * dy = k * (g * (sx ^ 2 + sy ^ 2)) := by
      rw [hx, hy]; ring
    have h2 : dx * dx + dy * dy = g * (g * (sx ^ 2 + sy ^ 2)) := by
      rw [hx, hy]; ring
    rw [h1, h2]
    have hgpos : 0 < g := by omega
    have hM : 0 < g * (sx ^ 2 + sy ^ 2) := by positivity
    exact (mul_lt_mul_right hM).mpr hk2

theorem seg_complete_core (dx dy g sx sy ex ey : Int)
    (hg : 0 < g) (hx : dx = g * sx) (hy : dy = g * sy) (hcop : Int.gcd sx sy = 1)
    (hcross : dx * ey - dy * ex = 0)
    (hdot1 : 0 < ex * dx + ey * dy)
    (hdot2 : ex * dx + ey * dy < dx * dx + dy * dy) :
    ∃ k : Int, 1 ≤ k ∧ k < g ∧ ex = k * sx ∧ ey = k * sy := by
  have hpar : sx * ey - sy * ex = 0 := by
    have h1 : g * (sx * ey - sy * ex) = 0 := by
      linear_combination hcross - ey * hx + ex * hy
    exact (mul_eq_zero.mp h1).resolve_left (by omega)
  have hbez : (1 : Int) = sx * Int.gcdA sx sy + sy * Int.gcdB sx sy := by
    have h1 := Int.gcd_eq_gcd_ab sx sy
    rw [hcop] at h1
    exact_mod_cast h1
  set α := Int.gcdA sx sy with hα
  set β := Int.gcdB sx sy with hβ
  refine ⟨α * ex + β * ey, ?_, ?_, ?_, ?_⟩
  case _ =>
    have hkx : (α * ex + β * ey) * sx = ex := by linear_combination ex * hbez.symm + β * hpar
    have hky : (α * ex + β * ey) * sy = ey := by linear_combination ey * hbez.symm - α * hpar
    have hs2 : 0 < sx ^ 2 + sy ^ 2 := by
      rcases Int.gcd_pos_iff.mp (by omega : 0 < Int.gcd sx sy) with h | h
      · nlinarith [sq_nonneg sy, sq_nonneg sx, sq_abs sx, abs_pos.mpr h]
      · nlinarith [sq_nonneg sy, sq_nonneg sx, sq_abs sy, abs_pos.mpr h]
    have hdotk : ex * dx + ey * dy = (α * ex + β * ey) * (g * (sx ^ 2 + sy ^ 2)) := by
      rw [hx, hy]
      linear_combination (g * sx) * hkx.symm + (g * sy) * hky.symm
    rw [hdotk] at hdot1
    by_contra hk
    push_neg at hk
    have hk0 : α * ex + β * ey ≤ 0 := by omega
    have hM : 0 < g * (sx ^ 2 + sy ^ 2) := by positivity
    have hle := mul_le_mul_of_nonneg_right hk0 hM.le
    rw [zero_mul] at hle
    linarith
  case _ =>
    have hkx : (α * ex + β * ey) * sx = ex := by linear_combination ex * hbez.symm + β * hpar
    have hky : (α * ex + β * ey) * sy = ey := by linear_combination ey * hbez.symm - α * hpar
    have hs2 : 0 < sx ^ 2 + sy ^ 2 := by
      rcases Int.gcd_pos_iff.mp (by omega : 0 < Int.gcd sx sy) with h | h
      · nlinarith [sq_nonneg sy, sq_nonneg sx, sq_abs sx, abs_pos.mpr h]
      · nlinarith [sq_nonneg sy, sq_nonneg sx, sq_abs sy, abs_pos.mpr h]
    have hdotk : ex * dx + ey * dy = (α * ex + β * ey) * (g * (sx ^ 2 + sy ^ 2)) := by
      rw [hx, hy]
      linear_combination (g * sx) * hkx.symm + (g * sy) * hky.symm
    have hD : dx * dx + dy * dy = g * (g * (sx ^ 2 + sy ^ 2)) := by rw [hx, hy]; ring
    rw [hdotk, hD] at hdot2
    have hM : 0 < g * (sx ^ 2 + sy ^ 2) := by positivity
    exact lt_of_mul_lt_mul_right (by nlinarith) (le_of_lt hM)
  case _ => linear_combination ex * hbez - β * hpar
  case _ => linear_combination ey * hbez + α * hpar

end TS

namespace TS

theorem jsGcd_ne_zero_of_ne (a b : Pt) (hab : a ≠ b) :
    jsGcd (b.x - a.x) (b.y - a.y) ≠ 0 := by
  rw [Ne, jsGcd_eq_zero_iff]
  rintro ⟨h1, h2⟩
  exact hab (Pt.ext_xy _ _ (by omega) (by omega))

theorem mem_latticePointsOnSegment_iff (a b : Pt) (hab : a ≠ b) (p : Pt) :
    p ∈ latticePointsOnSegment a b ↔ StrictlyBetween a b p := by
  have hgn := jsGcd_ne_zero_of_ne a b hab
  have hgpos : (0 : Int) < ((jsGcd (b.x - a.x) (b.y - a.y) : Nat) : Int) := by
    exact_mod_cast Nat.pos_of_ne_zero hgn
  have hdvdx := jsGcd_dvd_left (b.x - a.x) (b.y - a.y)
  have hdvdy := jsGcd_dvd_right (b.x - a.x) (b.y - a.y)
  have hx : b.x - a.x = ((jsGcd (b.x - a.x) (b.y - a.y) : Nat) : Int) *
      ((b.x - a.x) / ((jsGcd (b.x - a.x) (b.y - a.y) : Nat) : Int)) :=
    (Int.mul_ediv_cancel' hdvdx).symm
  have hy : b.y - a.y = ((jsGcd (b.x - a.x) (b.y - a.y) : Nat) : Int) *
      ((b.y - a.y) / ((jsGcd (b.x - a.x) (b.y - a.y) : Nat) : Int)) :=
    (Int.mul_ediv_cancel' hdvdy).symm
  have hcop : Int.gcd ((b.x - a.x) / ((jsGcd (b.x - a.x) (b.y - a.y) : Nat) : Int))
      ((b.y - a.y) / ((jsGcd (b.x - a.x) (b.y - a.y) : Nat) : Int)) = 1 := by
    simp only [jsGcd_eq_gcd]
    exact Int.gcd_div_gcd_div_gcd (by rw [← jsGcd_eq_gcd]; exact Nat.pos_of_ne_zero hgn)
  have hs : (b.x - a.x) / ((jsGcd (b.x - a.x) (b.y - a.y) : Nat) : Int) ≠ 0 ∨
      (b.y - a.y) / ((jsGcd (b.x - a.x) (b.y - a.y) : Nat) : Int) ≠ 0 := by
    by_contra hz
    push_neg at hz
    rw [hz.1, hz.2] at hcop
    simp [Int.gcd] at hcop
  have hD : distSq a b = (b.x - a.x) * (b.x - a.x) + (b.y - a.y) * (b.y - a.y) := by
    simp only [distSq]; ring
  rw [latticePointsOnSegment_eq_map a b hgn]
  constructor
  · intro hp
    obtain ⟨i, hi, heq⟩ := List.mem_map.mp hp
    rw [List.mem_range] at hi
    have hpx : p.x = a.x + ((i : Int) + 1) *
        ((b.x - a.x) / ((jsGcd (b.x - a.x) (b.y - a.y) : Nat) : Int)) := by
      rw [← heq]
    have hpy : p.y = a.y + ((i : Int) + 1) *
        ((b.y - a.y) / ((jsGcd (b.x - a.x) (b.y - a.y) : Nat) : Int)) := by
      rw [← heq]
    have hk1 : (1 : Int) ≤ (i : Int) + 1 := by omega
    have hk2 : (i : Int) + 1 < ((jsGcd (b.x - a.x) (b.y - a.y) : Nat) : Int) := by omega
    obtain ⟨hc, hd1, hd2⟩ := seg_sound_core (b.x - a.x) (b.y - a.y)
      ((jsGcd (b.x - a.x) (b.y - a.y) : Nat) : Int)
      ((b.x - a.x) / ((jsGcd (b.x - a.x) (b.y - a.y) : Nat) : Int))
      ((b.y - a.y) / ((jsGcd (b.x - a.x) (b.y - a.y) : Nat) : Int))
      ((i : Int) + 1) hx hy hs hk1 hk2
    refine ⟨?_, ?_, ?_⟩
    · simp only [crossProduct]
      rw [hpx, hpy]
      linear_combination hc
    · have he : (p.x - a.x) * (b.x - a.x) + (p.y - a.y) * (b.y - a.y) =
          ((i : Int) + 1) * ((b.x - a.x) / ((jsGcd (b.x - a.x) (b.y - a.y) : Nat) : Int)) *
            (b.x - a.x) +
          ((i : Int) + 1) * ((b.y - a.y) / ((jsGcd (b.x - a.x) (b.y - a.y) : Nat) : Int)) *
            (b.y - a.y) := by
        rw [hpx, hpy]; ring
      rw [he]
      exact hd1
    · have he : (p.x - a.x) * (b.x - a.x) + (p.y - a.y) * (b.y - a.y) =
          ((i : Int) + 1) * ((b.x - a.x) / ((jsGcd (b.x - a.x) (b.y - a.y) : Nat) : Int)) *
            (b.x - a.x) +
          ((i : Int) + 1) * ((b.y - a.y) / ((jsGcd (b.x - a.x) (b.y - a.y) : Nat) : Int)) *
            (b.y - a.y) := by
        rw [hpx, hpy]; ring
      rw [he, hD]
      exact hd2
  · rintro ⟨hc, hd1, hd2⟩
    have hcross : (b.x - a.x) * (p.y - a.y) - (b.y - a.y) * (p.x - a.x) = 0 := by
      simp only [crossProduct] at hc
      linarith
    rw [hD] at hd2
    obtain ⟨k, hk1, hk2, hex, hey⟩ := seg_complete_core (b.x - a.x) (b.y - a.y)
      ((jsGcd (b.x - a.x) (b.y - a.y) : Nat) : Int)
      ((b.x - a.x) / ((jsGcd (b.x - a.x) (b.y - a.y) : Nat) : Int))
      ((b.y - a.y) / ((jsGcd (b.x - a.x) (b.y - a.y) : Nat) : Int))
      (p.x - a.x) (p.y - a.y) hgpos hx hy hcop hcross hd1 hd2
    apply List.mem_map.mpr
    refine ⟨(k - 1).toNat, List.mem_range.mpr (by omega), ?_⟩
    have hcast : (((k - 1).toNat : Nat) : Int) = k - 1 := by omega
    refine Pt.ext_xy _ _ ?_ ?_
    · show a.x + ((((k - 1).toNat : Nat) : Int) + 1) *
        ((b.x - a.x) / ((jsGcd (b.x - a.x) (b.y - a.y) : Nat) : Int)) = p.x
      rw [hcast]
      linear_combination -hex
    · show a.y + ((((k - 1).toNat : Nat) : Int) + 1) *
        ((b.y - a.y) / ((jsGcd (b.x - a.x) (b.y - a.y) : Nat) : Int)) = p.y
      rw [hcast]
      linear_combination -hey

end TS

namespace TS

/-- C6: for distinct lattice points `a` and `b`, `latticePointsOnSegment`
returns exactly the `gcd(|dx|,|dy|) - 1` lattice points strictly interior
to the segment, generated by stepping from `a` in increments of
`(b-a)/gcd`, never including either endpoint; for `a = b` it returns the
empty list. -/
theorem C6_latticePointsOnSegment (a b : Pt) :
    (a = b → latticePointsOnSegment a b = []) ∧
    (a ≠ b →
      latticePointsOnSegment a b =
        (List.range (jsGcd (b.x - a.x) (b.y - a.y) - 1)).map (fun (i : Nat) =>
          (⟨a.x + ((i : Int) + 1) * ((b.x - a.x) / (jsGcd (b.x - a.x) (b.y - a.y) : Int)),
            a.y + ((i : Int) + 1) * ((b.y - a.y) / (jsGcd (b.x - a.x) (b.y - a.y) : Int))⟩
              : Pt)) ∧
      (latticePointsOnSegment a b).length = jsGcd (b.x - a.x) (b.y - a.y) - 1 ∧
      (∀ p : Pt, p ∈ latticePointsOnSegment a b ↔ StrictlyBetween a b p) ∧
      a ∉ latticePointsOnSegment a b ∧ b ∉ latticePointsOnSegment a b) := by
  constructor
  · rintro rfl
    exact latticePointsOnSegment_self a
  · intro hab
    have hgn := jsGcd_ne_zero_of_ne a b hab
    refine ⟨latticePointsOnSegment_eq_map a b hgn, ?_, mem_latticePointsOnSegment_iff a b hab, ?_, ?_⟩
    · rw [latticePointsOnSegment_eq_map a b hgn, List.length_map, List.length_range]
    · intro hmem
      obtain ⟨_, hd1, _⟩ := (mem_latticePointsOnSegment_iff a b hab a).mp hmem
      simp only [sub_self, zero_mul, mul_zero, add_zero] at hd1
      exact lt_irrefl 0 hd1
    · intro hmem
      obtain ⟨_, _, hd2⟩ := (mem_latticePointsOnSegment_iff a b hab b).mp hmem
      simp only [distSq] at hd2
      have : (b.x - a.x) * (b.x - a.x) + (b.y - a.y) * (b.y - a.y) =
          (a.x - b.x) * (a.x - b.x) + (a.y - b.y) * (a.y - b.y) := by ring
      omega

/-- Witness for C6 on the segment from (0,0) to (2,2). -/
theorem C6_latticePointsOnSegment_witness :
    ((⟨0,0⟩ : Pt) ≠ ⟨2,2⟩) ∧
      (∀ p : Pt, p ∈ latticePointsOnSegment ⟨0,0⟩ ⟨2,2⟩ ↔ StrictlyBetween ⟨0,0⟩ ⟨2,2⟩ p) :=
  ⟨by decide, ((C6_latticePointsOnSegment ⟨0,0⟩ ⟨2,2⟩).2 (by decide)).2.2.1⟩

end TS

namespace TS

/-- C2: fewer than 3 selected points, or a convex hull that collapses to
fewer than 3 vertices, yields the empty registry (total count 0, no
strata of any dimension); the builder is a total function, so no
exception is raised on these inputs. -/
theorem C2_degenerate_empty (ps vs : List Pt)
    (h : ps.length < 3 ∨ (convexHull ps).length < 3) :
    createStratificationFromPolytope ps vs = emptyRegistry ∧
      getTotalCount (createStratificationFromPolytope ps vs) = 0 := by
  have hempty : createStratificationFromPolytope ps vs = emptyRegistry := by
    by_cases h1 : ps.length < 3
    · simp only [createStratificationFromPolytope, if_pos h1]
    · rcases h with h | h2
      · exact absurd h h1
      · simp only [createStratificationFromPolytope, if_neg h1]
        rw [if_pos h2]
  exact ⟨hempty, by rw [hempty]; rfl⟩

/-- Witness for C2 on three collinear points. -/
theorem C2_degenerate_empty_witness :
    (([⟨0,0⟩, ⟨1,1⟩, ⟨2,2⟩] : List Pt).length < 3 ∨
        (convexHull [⟨0,0⟩, ⟨1,1⟩, ⟨2,2⟩]).length < 3) ∧
      getTotalCount (createStratificationFromPolytope [⟨0,0⟩, ⟨1,1⟩, ⟨2,2⟩] []) = 0 :=
  ⟨by decide, (C2_degenerate_empty _ _ (by decide)).2⟩

end TS

namespace TS

/-- C9: on the square `{(0,0),(2,0),(2,2),(0,2)}` with a visible window
covering it, the builder produces exactly 4 vertex strata, 4 edge strata
whose primitive normals are the four unit vectors `(1,0),(0,1),(-1,0),
(0,-1)` in some rotation (here: rotation by 3), one face stratum, and the
face's interior monomials are exactly the key of the single interior
lattice point `(1,1)`. -/
theorem C9_square_scenario :
    (createStratificationFromPolytope [⟨0,0⟩, ⟨2,0⟩, ⟨2,2⟩, ⟨0,2⟩]
        (enumerateLatticePoints (-1) 3 (-1) 3)).vertices.length = 4 ∧
    (createStratificationFromPolytope [⟨0,0⟩, ⟨2,0⟩, ⟨2,2⟩, ⟨0,2⟩]
        (enumerateLatticePoints (-1) 3 (-1) 3)).edges.length = 4 ∧
    (createStratificationFromPolytope [⟨0,0⟩, ⟨2,0⟩, ⟨2,2⟩, ⟨0,2⟩]
        (enumerateLatticePoints (-1) 3 (-1) 3)).faces.length = 1 ∧
    (getAllEdges (createStratificationFromPolytope [⟨0,0⟩, ⟨2,0⟩, ⟨2,2⟩, ⟨0,2⟩]
        (enumerateLatticePoints (-1) 3 (-1) 3))).map (fun e => e.primitiveNormal) =
      ([⟨1,0⟩, ⟨0,1⟩, ⟨-1,0⟩, ⟨0,-1⟩] : List Pt).rotate 3 ∧
    (getAllFaces (createStratificationFromPolytope [⟨0,0⟩, ⟨2,0⟩, ⟨2,2⟩, ⟨0,2⟩]
        (enumerateLatticePoints (-1) 3 (-1) 3))).map (fun f => f.interiorMonomials) =
      [[pointKey 1 1]] := by
  refine ⟨by decide, by decide, by decide, by decide, by decide⟩

end TS

namespace TS

/-! Lemmas about the JS `Set` and `Map` models. -/

theorem mem_setAdd (s : List String) (a k : String) :
    k ∈ setAdd s a ↔ k ∈ s ∨ k = a := by
  simp only [setAdd]
  by_cases h : a ∈ s
  · rw [if_pos h]
    constructor
    · exact fun hk => Or.inl hk
    · rintro (hk | rfl) <;> assumption
  · rw [if_neg h]
    simp [List.mem_append]

theorem nodup_setAdd (s : List String) (a : String) (h : s.Nodup) :
    (setAdd s a).Nodup := by
  simp only [setAdd]
  by_cases ha : a ∈ s
  · rwa [if_pos ha]
  · rw [if_neg ha]
    simp [List.nodup_append, h, ha]

theorem nodup_foldl_setAdd (l : List String) (acc : List String) (h : acc.Nodup) :
    (l.foldl setAdd acc).Nodup := by
  induction l generalizing acc with
  | nil => exact h
  | cons a l ih => exact ih _ (nodup_setAdd _ _ h)

theorem nodup_setOfList (l : List String) : (setOfList l).Nodup :=
  nodup_foldl_setAdd l [] List.nodup_nil

theorem mem_foldl_setAdd (l : List String) (acc : List String) (k : String) :
    k ∈ l.foldl setAdd acc ↔ k ∈ acc ∨ k ∈ l := by
  induction l generalizing acc with
  | nil => simp
  | cons a l ih =>
    simp only [List.foldl_cons, ih, mem_setAdd, List.mem_cons]
    tauto

theorem mem_setOfList (l : List String) (k : String) :
    k ∈ setOfList l ↔ k ∈ l := by
  simp [setOfList, mem_foldl_setAdd]

theorem setAdd_not_mem (s : List String) (a : String) (h : a ∉ s) :
    setAdd s a = s ++ [a] := by
  simp [setAdd, h]

theorem foldl_setAdd_of_disjoint (l : List String) :
    ∀ acc : List String, l.Nodup → (∀ k ∈ l, k ∉ acc) →
      l.foldl setAdd acc = acc ++ l := by
  induction l with
  | nil => intro acc _ _; simp
  | cons a l ih =>
    intro acc hnd hdisj
    rw [List.foldl_cons, setAdd_not_mem acc a (hdisj a (by simp)),
      ih (acc ++ [a]) (List.Nodup.of_cons hnd) ?_, List.append_assoc,
      List.singleton_append]
    intro k hk
    simp only [List.mem_append, List.mem_singleton]
    rintro (hka | rfl)
    · exact hdisj k (by simp [hk]) hka
    · exact (List.nodup_cons.mp hnd).1 hk

theorem setOfList_eq_of_nodup (l : List String) (h : l.Nodup) : setOfList l = l := by
  simpa [setOfList] using foldl_setAdd_of_disjoint l [] h (by simp)

end TS

namespace TS

theorem mapGet_mapSet_self {α : Type} (m : List (String × α)) (k : String) (v : α) :
    mapGet (mapSet m k v) k = some v := by
  induction m with
  | nil => simp [mapSet, mapGet]
  | cons kv rest ih =>
    by_cases h : kv.1 = k
    · simp [mapSet, mapGet, h]
    · simp [mapSet, mapGet, h, ih]

theorem mapGet_mapSet_ne {α : Type} (m : List (String × α)) (k k' : String) (v : α)
    (h : k' ≠ k) : mapGet (mapSet m k v) k' = mapGet m k' := by
  induction m with
  | nil => simp [mapSet, mapGet, Ne.symm h]
  | cons kv rest ih =>
    by_cases hk : kv.1 = k
    · subst hk
      simp only [mapSet, if_pos rfl, mapGet]
      rw [if_neg (fun hh => h hh.symm), if_neg (fun hh => h hh.symm)]
    · simp only [mapSet, if_neg hk, mapGet]
      by_cases hk' : kv.1 = k'
      · rw [if_pos hk', if_pos hk']
      · rw [if_neg hk', if_neg hk', ih]

theorem mapGet_isSome_iff {α : Type} (m : List (String × α)) (k : String) :
    (∃ v, mapGet m k = some v) ↔ k ∈ m.map (·.1) := by
  induction m with
  | nil => simp [mapGet]
  | cons kv rest ih =>
    by_cases h : kv.1 = k
    · simp [mapGet, h]
    · simp only [mapGet, if_neg h, List.map_cons, List.mem_cons, ih]
      constructor
      · exact fun hv => Or.inr hv
      · rintro (rfl | hv)
        · exact absurd rfl h
        · exact hv

theorem keys_mapSet {α : Type} (m : List (String × α)) (k : String) (v : α) :
    (mapSet m k v).map (·.1) = if k ∈ m.map (·.1) then m.map (·.1) else m.map (·.1) ++ [k] := by
  induction m with
  | nil => simp [mapSet]
  | cons kv rest ih =>
    by_cases h : kv.1 = k
    · simp [mapSet, h]
    · simp only [mapSet, if_neg h, List.map_cons, ih]
      by_cases hk : k ∈ rest.map (·.1)
      · rw [if_pos hk, if_pos (by simp [hk])]
      · rw [if_neg hk, if_neg (by simp [hk, Ne.symm (h : kv.1 ≠ k)]), List.cons_append]

end TS

namespace TS

/-! Claim C10: the frame property of `updateMonomials`. -/

theorem interior_fold_spec (vsl : List Pt) (hp : List Pt) (acc : FaceStratum) :
    vsl.foldl (fun acc p =>
      if isPointInsidePolygon p hp then
        { acc with interiorMonomials := setAdd acc.interiorMonomials (pointKey p.x p.y) }
      else acc) acc =
    { acc with interiorMonomials :=
        (((vsl.filter (fun p => isPointInsidePolygon p hp)).map
          (fun p => pointKey p.x p.y)).foldl setAdd acc.interiorMonomials) } := by
  induction vsl generalizing acc with
  | nil => rfl
  | cons p vsl ih =>
    by_cases hip : isPointInsidePolygon p hp
    · have hfc : List.filter (fun q => isPointInsidePolygon q hp) (p :: vsl) =
          p :: List.filter (fun q => isPointInsidePolygon q hp) vsl :=
        List.filter_cons_of_pos hip
      rw [List.foldl_cons, if_pos hip, ih, hfc, List.map_cons, List.foldl_cons]
    · have hfc : List.filter (fun q => isPointInsidePolygon q hp) (p :: vsl) =
          List.filter (fun q => isPointInsidePolygon q hp) vsl :=
        List.filter_cons_of_neg (by simpa using hip)
      rw [List.foldl_cons, if_neg hip, ih, hfc]

theorem recomputeFaceInterior_spec (r : StratumRegistry) (vsl : List Pt) (f : FaceStratum) :
    recomputeFaceInterior r vsl f =
      { f with interiorMonomials :=
          (setOfList ((vsl.filter (fun p => isPointInsidePolygon p
            ((f.hullVertices.filterMap fun i => mapGet r.vertices i).map (·.point)))).map
            (fun p => pointKey p.x p.y))) } := by
  simp only [recomputeFaceInterior]
  rw [interior_fold_spec]
  rfl

/-- C10: `updateMonomials` replaces each face's `interiorMonomials` with
exactly the keys of the visible points strictly inside that face's
resolved hull, and leaves everything else unchanged: the vertex and edge
maps are untouched, and every face keeps its key and all fields other
than `interiorMonomials`. -/
theorem C10_updateMonomials_frame (r : StratumRegistry) (vs : List Pt) :
    (updateMonomials r vs).vertices = r.vertices ∧
    (updateMonomials r vs).edges = r.edges ∧
    (updateMonomials r vs).faces.map
        (fun kv => (kv.1, { kv.2 with interiorMonomials := ([] : List String) })) =
      r.faces.map (fun kv => (kv.1, { kv.2 with interiorMonomials := ([] : List String) })) ∧
    (updateMonomials r vs).faces = r.faces.map (fun kv =>
      (kv.1, { kv.2 with interiorMonomials :=
        (setOfList ((vs.filter (fun p => isPointInsidePolygon p
          ((kv.2.hullVertices.filterMap fun i => mapGet r.vertices i).map (·.point)))).map
          (fun p => pointKey p.x p.y))) })) ∧
    (∀ kv ∈ (updateMonomials r vs).faces, ∀ k : String,
      k ∈ kv.2.interiorMonomials ↔ ∃ p ∈ vs,
        isPointInsidePolygon p
          ((kv.2.hullVertices.filterMap fun i => mapGet r.vertices i).map (·.point)) ∧
        k = pointKey p.x p.y) := by
  by_cases hempty : r.faces.isEmpty
  · have hnil : r.faces = [] := List.isEmpty_iff.mp hempty
    simp [updateMonomials, hempty, hnil]
  · have hup : updateMonomials r vs =
        { r with faces := r.faces.map fun kv => (kv.1, recomputeFaceInterior r vs kv.2) } := by
      simp [updateMonomials, hempty]
    rw [hup]
    refine ⟨rfl, rfl, ?_, ?_, ?_⟩
    · simp only [List.map_map]
      apply List.map_congr_left
      intro kv _
      simp only [Function.comp_apply, recomputeFaceInterior_spec]
    · apply List.map_congr_left
      intro kv _
      rw [recomputeFaceInterior_spec]
    · intro kv hkv k
      simp only [List.mem_map] at hkv
      obtain ⟨kv0, hkv0, hkveq⟩ := hkv
      subst hkveq
      rw [recomputeFaceInterior_spec]
      simp only [mem_setOfList, List.mem_map, List.mem_filter]
      constructor
      · rintro ⟨p, ⟨hpvs, hpin⟩, rfl⟩
        exact ⟨p, hpvs, by simpa using hpin, rfl⟩
      · rintro ⟨p, hpvs, hpin, rfl⟩
        exact ⟨p, ⟨hpvs, by simpa using hpin⟩, rfl⟩

end TS

namespace TS

/-! Machinery for reasoning about the registry maps. -/

theorem mapGet_mem {α : Type} (m : List (String × α)) (k : String) (v : α)
    (h : mapGet m k = some v) : (k, v) ∈ m := by
  induction m with
  | nil => simp [mapGet] at h
  | cons kv rest ih =>
    by_cases hk : kv.1 = k
    · rw [mapGet, if_pos hk] at h
      have hkv : kv = (k, v) := by
        cases kv
        simp_all
      rw [← hkv]
      exact List.mem_cons_self _ _
    · rw [mapGet, if_neg hk] at h
      exact List.mem_cons_of_mem _ (ih h)

theorem mem_mapSet {α : Type} (m : List (String × α)) (k : String) (v : α) (kv' : String × α)
    (h : kv' ∈ mapSet m k v) : kv' ∈ m ∨ kv' = (k, v) := by
  induction m with
  | nil => simp [mapSet] at h; exact Or.inr h
  | cons kv rest ih =>
    by_cases hk : kv.1 = k
    · rw [mapSet, if_pos hk] at h
      rcases List.mem_cons.mp h with rfl | hm
      · exact Or.inr rfl
      · exact Or.inl (List.mem_cons_of_mem _ hm)
    · rw [mapSet, if_neg hk] at h
      rcases List.mem_cons.mp h with rfl | hm
      · exact Or.inl (List.mem_cons_self _ _)
      · rcases ih hm with hm' | hm'
        · exact Or.inl (List.mem_cons_of_mem _ hm')
        · exact Or.inr hm'

theorem hasKey_mapSet_self {α : Type} (m : List (String × α)) (k : String) (v : α) :
    hasKey (mapSet m k v) k :=
  ⟨v, mapGet_mapSet_self m k v⟩

theorem hasKey_mapSet_of_hasKey {α : Type} (m : List (String × α)) (k k' : String) (v : α)
    (h : hasKey m k') : hasKey (mapSet m k v) k' := by
  by_cases hk : k' = k
  · subst hk; exact hasKey_mapSet_self m k' v
  · obtain ⟨w, hw⟩ := h
    exact ⟨w, by rwa [mapGet_mapSet_ne _ _ _ _ hk]⟩

theorem mapSet_not_hasKey {α : Type} (m : List (String × α)) (k : String) (v : α)
    (h : ¬hasKey m k) : mapSet m k v = m ++ [(k, v)] := by
  induction m with
  | nil => simp [mapSet]
  | cons kv rest ih =>
    by_cases hk : kv.1 = k
    · exact absurd ⟨kv.2, by rw [mapGet, if_pos hk]⟩ h
    · rw [mapSet, if_neg hk, ih (fun ⟨w, hw⟩ => h ⟨w, by rwa [mapGet, if_neg hk]⟩),
        List.cons_append]

theorem hasKey_iff_mem_keys {α : Type} (m : List (String × α)) (k : String) :
    hasKey m k ↔ k ∈ m.map (·.1) :=
  mapGet_isSome_iff m k

theorem nodup_keys_mapSet {α : Type} (m : List (String × α)) (k : String) (v : α)
    (h : (m.map (·.1)).Nodup) : ((mapSet m k v).map (·.1)).Nodup := by
  rw [keys_mapSet]
  by_cases hk : k ∈ m.map (·.1)
  · rwa [if_pos hk]
  · rw [if_neg hk]
    simp [List.nodup_append, h, hk]

/-- Resolution of a stratum id succeeds as soon as the id is a key of one
of the three maps. -/
theorem getStratum_of_hasKey (r : StratumRegistry) (id : String)
    (h : hasKey r.vertices id ∨ hasKey r.edges id ∨ hasKey r.faces id) :
    ∃ t, getStratum r id = some t := by
  unfold getStratum
  rcases hv : mapGet r.vertices id with _ | v
  · rcases he : mapGet r.edges id with _ | e
    · rcases hf : mapGet r.faces id with _ | f
      · rcases h with ⟨v, hv'⟩ | ⟨e, he'⟩ | ⟨f, hf'⟩
        · rw [hv] at hv'; cases hv'
        · rw [he] at he'; cases he'
        · rw [hf] at hf'; cases hf'
      · exact ⟨.face f, rfl⟩
    · exact ⟨.edge e, rfl⟩
  · exact ⟨.vertex v, rfl⟩

theorem getStratum_cases (r : StratumRegistry) (id : String) (s : Stratum)
    (h : getStratum r id = some s) :
    (∃ kv ∈ r.vertices, s = Stratum.vertex kv.2) ∨
    (∃ kv ∈ r.edges, s = Stratum.edge kv.2) ∨
    (∃ kv ∈ r.faces, s = Stratum.face kv.2) := by
  unfold getStratum at h
  rcases hv : mapGet r.vertices id with _ | v <;> rw [hv] at h
  · rcases he : mapGet r.edges id with _ | e <;> rw [he] at h
    · rcases hf : mapGet r.faces id with _ | f <;> rw [hf] at h
      · cases h
      · cases h
        exact Or.inr (Or.inr ⟨(id, f), mapGet_mem _ _ _ hf, rfl⟩)
    · cases h
      exact Or.inr (Or.inl ⟨(id, e), mapGet_mem _ _ _ he, rfl⟩)
  · cases h
    exact Or.inl ⟨(id, v), mapGet_mem _ _ _ hv, rfl⟩

end TS

namespace TS

/-! Effects of the builder's registry operations on each map. -/

theorem addVertex_edges (r : StratumRegistry) (v : VertexStratum) :
    (addVertex r v).edges = r.edges := rfl

theorem addVertex_faces (r : StratumRegistry) (v : VertexStratum) :
    (addVertex r v).faces = r.faces := rfl

theorem addEdge_vertices (r : StratumRegistry) (e : EdgeStratum) :
    (addEdge r e).vertices = r.vertices := rfl

theorem addEdge_faces (r : StratumRegistry) (e : EdgeStratum) :
    (addEdge r e).faces = r.faces := rfl

theorem addFace_vertices (r : StratumRegistry) (f : FaceStratum) :
    (addFace r f).vertices = r.vertices := rfl

theorem addFace_edges (r : StratumRegistry) (f : FaceStratum) :
    (addFace r f).edges = r.edges := rfl

theorem addVertexSuper_edges (r : StratumRegistry) (vid sid : String) :
    (addVertexSuper r vid sid).edges = r.edges := by
  unfold addVertexSuper
  cases mapGet r.vertices vid <;> rfl

theorem addVertexSuper_faces (r : StratumRegistry) (vid sid : String) :
    (addVertexSuper r vid sid).faces = r.faces := by
  unfold addVertexSuper
  cases mapGet r.vertices vid <;> rfl

theorem addEdgeSuper_vertices (r : StratumRegistry) (eid sid : String) :
    (addEdgeSuper r eid sid).vertices = r.vertices := by
  unfold addEdgeSuper
  cases mapGet r.edges eid <;> rfl

theorem addEdgeSuper_faces (r : StratumRegistry) (eid sid : String) :
    (addEdgeSuper r eid sid).faces = r.faces := by
  unfold addEdgeSuper
  cases mapGet r.edges eid <;> rfl

theorem addFaceInterior_vertices (r : StratumRegistry) (fid key : String) :
    (addFaceInterior r fid key).vertices = r.vertices := by
  unfold addFaceInterior
  cases mapGet r.faces fid <;> rfl

theorem addFaceInterior_edges (r : StratumRegistry) (fid key : String) :
    (addFaceInterior r fid key).edges = r.edges := by
  unfold addFaceInterior
  cases mapGet r.faces fid <;> rfl

theorem classifyEdgePoint_eq_of_none (hull : List Pt) (r : StratumRegistry) (p : Pt)
    (hfind : (cyclePairs hull).find? (fun pr => isPointOnSegment p pr.1 pr.2) = none) :
    classifyEdgePoint hull r p = r := by
  simp only [classifyEdgePoint, hfind]

theorem classifyEdgePoint_eq_of_miss (hull : List Pt) (r : StratumRegistry) (p : Pt)
    (pr : Pt × Pt)
    (hfind : (cyclePairs hull).find? (fun pr => isPointOnSegment p pr.1 pr.2) = some pr)
    (he : mapGet r.edges (edgeId pr.1 pr.2) = none) :
    classifyEdgePoint hull r p = r := by
  simp only [classifyEdgePoint, hfind, he]

theorem classifyEdgePoint_eq_of_hit (hull : List Pt) (r : StratumRegistry) (p : Pt)
    (pr : Pt × Pt) (e : EdgeStratum)
    (hfind : (cyclePairs hull).find? (fun pr => isPointOnSegment p pr.1 pr.2) = some pr)
    (he : mapGet r.edges (edgeId pr.1 pr.2) = some e) :
    classifyEdgePoint hull r p =
      { r with edges := (mapSet r.edges (edgeId pr.1 pr.2)
          ({ e with edgeMonomials := setAdd e.edgeMonomials (pointKey p.x p.y) })) } := by
  simp only [classifyEdgePoint, hfind, he]

theorem classifyEdgePoint_vertices (hull : List Pt) (r : StratumRegistry) (p : Pt) :
    (classifyEdgePoint hull r p).vertices = r.vertices := by
  rcases hfind : (cyclePairs hull).find? (fun pr => isPointOnSegment p pr.1 pr.2) with _ | pr
  · rw [classifyEdgePoint_eq_of_none hull r p hfind]
  · rcases he : mapGet r.edges (edgeId pr.1 pr.2) with _ | e
    · rw [classifyEdgePoint_eq_of_miss hull r p pr hfind he]
    · rw [classifyEdgePoint_eq_of_hit hull r p pr e hfind he]

theorem classifyEdgePoint_faces (hull : List Pt) (r : StratumRegistry) (p : Pt) :
    (classifyEdgePoint hull r p).faces = r.faces := by
  rcases hfind : (cyclePairs hull).find? (fun pr => isPointOnSegment p pr.1 pr.2) with _ | pr
  · rw [classifyEdgePoint_eq_of_none hull r p hfind]
  · rcases he : mapGet r.edges (edgeId pr.1 pr.2) with _ | e
    · rw [classifyEdgePoint_eq_of_miss hull r p pr hfind he]
    · rw [classifyEdgePoint_eq_of_hit hull r p pr e hfind he]

theorem mem_vertices_addVertex (r : StratumRegistry) (v : VertexStratum)
    (kv : String × VertexStratum) (h : kv ∈ (addVertex r v).vertices) :
    kv ∈ r.vertices ∨ kv = (v.id, v) :=
  mem_mapSet _ _ _ _ h

theorem mem_edges_addEdge (r : StratumRegistry) (e : EdgeStratum)
    (kv : String × EdgeStratum) (h : kv ∈ (addEdge r e).edges) :
    kv ∈ r.edges ∨ kv = (e.id, e) :=
  mem_mapSet _ _ _ _ h

theorem mem_faces_addFace (r : StratumRegistry) (f : FaceStratum)
    (kv : String × FaceStratum) (h : kv ∈ (addFace r f).faces) :
    kv ∈ r.faces ∨ kv = (f.id, f) :=
  mem_mapSet _ _ _ _ h

theorem mem_vertices_addVertexSuper (r : StratumRegistry) (vid sid : String)
    (kv : String × VertexStratum) (h : kv ∈ (addVertexSuper r vid sid).vertices) :
    kv ∈ r.vertices ∨ ∃ v, mapGet r.vertices vid = some v ∧
      kv = (vid, { v with superstrata := setAdd v.superstrata sid }) := by
  unfold addVertexSuper at h
  rcases hv : mapGet r.vertices vid with _ | v <;> rw [hv] at h
  · exact Or.inl h
  · rcases mem_mapSet _ _ _ _ h with hm | rfl
    · exact Or.inl hm
    · exact Or.inr ⟨v, rfl, rfl⟩

theorem mem_edges_addEdgeSuper (r : StratumRegistry) (eid sid : String)
    (kv : String × EdgeStratum) (h : kv ∈ (addEdgeSuper r eid sid).edges) :
    kv ∈ r.edges ∨ ∃ e, mapGet r.edges eid = some e ∧
      kv = (eid, { e with superstrata := setAdd e.superstrata sid }) := by
  unfold addEdgeSuper at h
  rcases he : mapGet r.edges eid with _ | e <;> rw [he] at h
  · exact Or.inl h
  · rcases mem_mapSet _ _ _ _ h with hm | rfl
    · exact Or.inl hm
    · exact Or.inr ⟨e, rfl, rfl⟩

theorem mem_faces_addFaceInterior (r : StratumRegistry) (fid key : String)
    (kv : String × FaceStratum) (h : kv ∈ (addFaceInterior r fid key).faces) :
    kv ∈ r.faces ∨ ∃ f, mapGet r.faces fid = some f ∧
      kv = (fid, { f with interiorMonomials := setAdd f.interiorMonomials key }) := by
  unfold addFaceInterior at h
  rcases hf : mapGet r.faces fid with _ | f <;> rw [hf] at h
  · exact Or.inl h
  · rcases mem_mapSet _ _ _ _ h with hm | rfl
    · exact Or.inl hm
    · exact Or.inr ⟨f, rfl, rfl⟩

theorem mem_edges_classifyEdgePoint (hull : List Pt) (r : StratumRegistry) (p : Pt)
    (kv : String × EdgeStratum) (h : kv ∈ (classifyEdgePoint hull r p).edges) :
    kv ∈ r.edges ∨ ∃ eid e, mapGet r.edges eid = some e ∧
      kv = (eid, { e with edgeMonomials := setAdd e.edgeMonomials (pointKey p.x p.y) }) := by
  rcases hfind : (cyclePairs hull).find? (fun pr => isPointOnSegment p pr.1 pr.2) with _ | pr
  · rw [classifyEdgePoint_eq_of_none hull r p hfind] at h
    exact Or.inl h
  · rcases he : mapGet r.edges (edgeId pr.1 pr.2) with _ | e
    · rw [classifyEdgePoint_eq_of_miss hull r p pr hfind he] at h
      exact Or.inl h
    · rw [classifyEdgePoint_eq_of_hit hull r p pr e hfind he] at h
      rcases mem_mapSet _ _ _ _ h with hm | rfl
      · exact Or.inl hm
      · exact Or.inr ⟨edgeId pr.1 pr.2, e, he, rfl⟩

theorem hasKey_vertices_addVertexSuper (r : StratumRegistry) (vid sid k : String)
    (h : hasKey r.vertices k) : hasKey (addVertexSuper r vid sid).vertices k := by
  unfold addVertexSuper
  rcases hv : mapGet r.vertices vid with _ | v
  · exact h
  · exact hasKey_mapSet_of_hasKey _ _ _ _ h

theorem hasKey_edges_addEdgeSuper (r : StratumRegistry) (eid sid k : String)
    (h : hasKey r.edges k) : hasKey (addEdgeSuper r eid sid).edges k := by
  unfold addEdgeSuper
  rcases he : mapGet r.edges eid with _ | e
  · exact h
  · exact hasKey_mapSet_of_hasKey _ _ _ _ h

theorem hasKey_faces_addFaceInterior (r : StratumRegistry) (fid key k : String)
    (h : hasKey r.faces k) : hasKey (addFaceInterior r fid key).faces k := by
  unfold addFaceInterior
  rcases hf : mapGet r.faces fid with _ | f
  · exact h
  · exact hasKey_mapSet_of_hasKey _ _ _ _ h

theorem hasKey_edges_classifyEdgePoint (hull : List Pt) (r : StratumRegistry) (p : Pt)
    (k : String) (h : hasKey r.edges k) : hasKey (classifyEdgePoint hull r p).edges k := by
  rcases hfind : (cyclePairs hull).find? (fun pr => isPointOnSegment p pr.1 pr.2) with _ | pr
  · rw [classifyEdgePoint_eq_of_none hull r p hfind]
    exact h
  · rcases he : mapGet r.edges (edgeId pr.1 pr.2) with _ | e
    · rw [classifyEdgePoint_eq_of_miss hull r p pr hfind he]
      exact h
    · rw [classifyEdgePoint_eq_of_hit hull r p pr e hfind he]
      exact hasKey_mapSet_of_hasKey _ _ _ _ h

theorem mem_cyclePairs (l : List Pt) (pr : Pt × Pt) (h : pr ∈ cyclePairs l) :
    pr.1 ∈ l ∧ pr.2 ∈ l := by
  unfold cyclePairs at h
  have h2 := List.of_mem_zip h
  exact ⟨h2.1, (List.mem_rotate).mp h2.2⟩

end TS

namespace TS

/-! Stage lemmas for the builder's folds. -/

theorem vertexFold_edges (l : List Pt) (r0 : StratumRegistry) :
    (l.foldl (fun r p => addVertex r (mkVertexStratum p)) r0).edges = r0.edges := by
  induction l generalizing r0 with
  | nil => rfl
  | cons p l ih => rw [List.foldl_cons, ih, addVertex_edges]

theorem vertexFold_faces (l : List Pt) (r0 : StratumRegistry) :
    (l.foldl (fun r p => addVertex r (mkVertexStratum p)) r0).faces = r0.faces := by
  induction l generalizing r0 with
  | nil => rfl
  | cons p l ih => rw [List.foldl_cons, ih, addVertex_faces]

theorem vertexFold_hasKey_mono (l : List Pt) (r0 : StratumRegistry) (k : String)
    (h : hasKey r0.vertices k) :
    hasKey ((l.foldl (fun r p => addVertex r (mkVertexStratum p)) r0)).vertices k := by
  induction l generalizing r0 with
  | nil => exact h
  | cons p l ih => exact ih _ (hasKey_mapSet_of_hasKey _ _ _ _ h)

theorem vertexFold_hasKey (l : List Pt) (r0 : StratumRegistry) (p : Pt) (hp : p ∈ l) :
    hasKey ((l.foldl (fun r p => addVertex r (mkVertexStratum p)) r0)).vertices
      (vertexId p) := by
  induction l generalizing r0 with
  | nil => cases hp
  | cons q l ih =>
    rcases List.mem_cons.mp hp with rfl | hp'
    · exact vertexFold_hasKey_mono l _ _ (hasKey_mapSet_self _ _ _)
    · exact ih _ hp'

theorem vertexFold_mem (l : List Pt) (r0 : StratumRegistry)
    (kv : String × VertexStratum)
    (h : kv ∈ ((l.foldl (fun r p => addVertex r (mkVertexStratum p)) r0)).vertices) :
    kv ∈ r0.vertices ∨ ∃ p ∈ l, kv = (vertexId p, mkVertexStratum p) := by
  induction l generalizing r0 with
  | nil => exact Or.inl h
  | cons q l ih =>
    rcases ih _ h with hm | ⟨p, hp, rfl⟩
    · rcases mem_vertices_addVertex _ _ _ hm with hm' | rfl
      · exact Or.inl hm'
      · exact Or.inr ⟨q, by simp, rfl⟩
    · exact Or.inr ⟨p, List.mem_cons_of_mem _ hp, rfl⟩

theorem edgeFold_snd (l : List (Pt × Pt)) (acc : StratumRegistry × List String) :
    (l.foldl edgeStep acc).2 = acc.2 ++ l.map (fun pr => edgeId pr.1 pr.2) := by
  induction l generalizing acc with
  | nil => simp
  | cons pr l ih =>
    rw [List.foldl_cons, ih, List.map_cons]
    show (acc.2 ++ [edgeId pr.1 pr.2]) ++ _ = _
    rw [List.append_assoc, List.singleton_append]

theorem edgeFold_faces (l : List (Pt × Pt)) (acc : StratumRegistry × List String) :
    (l.foldl edgeStep acc).1.faces = acc.1.faces := by
  induction l generalizing acc with
  | nil => rfl
  | cons pr l ih =>
    rw [List.foldl_cons, ih]
    show (addEdge _ _).faces = _
    rw [addEdge_faces, addVertexSuper_faces, addVertexSuper_faces]

theorem edgeFold_vertices_hasKey_mono (l : List (Pt × Pt))
    (acc : StratumRegistry × List String) (k : String) (h : hasKey acc.1.vertices k) :
    hasKey ((l.foldl edgeStep acc)).1.vertices k := by
  induction l generalizing acc with
  | nil => exact h
  | cons pr l ih =>
    apply ih
    show hasKey (addEdge _ _).vertices k
    rw [addEdge_vertices]
    exact hasKey_vertices_addVertexSuper _ _ _ _ (hasKey_vertices_addVertexSuper _ _ _ _ h)

theorem edgeFold_edges_hasKey_mono (l : List (Pt × Pt))
    (acc : StratumRegistry × List String) (k : String) (h : hasKey acc.1.edges k) :
    hasKey ((l.foldl edgeStep acc)).1.edges k := by
  induction l generalizing acc with
  | nil => exact h
  | cons pr l ih =>
    apply ih
    refine hasKey_mapSet_of_hasKey _ _ _ _ ?_
    rw [addVertexSuper_edges, addVertexSuper_edges]
    exact h

theorem edgeFold_hasKey_edge (l : List (Pt × Pt)) (acc : StratumRegistry × List String)
    (pr : Pt × Pt) (h : pr ∈ l) :
    hasKey ((l.foldl edgeStep acc)).1.edges (edgeId pr.1 pr.2) := by
  induction l generalizing acc with
  | nil => cases h
  | cons q l ih =>
    rcases List.mem_cons.mp h with rfl | h'
    · exact edgeFold_edges_hasKey_mono l _ _ (hasKey_mapSet_self _ _ _)
    · exact ih _ h'

theorem classifyFold_vertices (hull : List Pt) (l : List Pt) (r : StratumRegistry) :
    (l.foldl (classifyEdgePoint hull) r).vertices = r.vertices := by
  induction l generalizing r with
  | nil => rfl
  | cons p l ih => rw [List.foldl_cons, ih, classifyEdgePoint_vertices]

theorem classifyFold_faces (hull : List Pt) (l : List Pt) (r : StratumRegistry) :
    (l.foldl (classifyEdgePoint hull) r).faces = r.faces := by
  induction l generalizing r with
  | nil => rfl
  | cons p l ih => rw [List.foldl_cons, ih, classifyEdgePoint_faces]

theorem classifyFold_edges_hasKey_mono (hull : List Pt) (l : List Pt) (r : StratumRegistry)
    (k : String) (h : hasKey r.edges k) :
    hasKey ((l.foldl (classifyEdgePoint hull) r)).edges k := by
  induction l generalizing r with
  | nil => exact h
  | cons p l ih => exact ih _ (hasKey_edges_classifyEdgePoint _ _ _ _ h)

theorem ueFold_vertices (l : List String) (r : StratumRegistry) :
    (l.foldl (fun r eid => addEdgeSuper r eid "f_0") r).vertices = r.vertices := by
  induction l generalizing r with
  | nil => rfl
  | cons eid l ih => rw [List.foldl_cons, ih, addEdgeSuper_vertices]

theorem ueFold_faces (l : List String) (r : StratumRegistry) :
    (l.foldl (fun r eid => addEdgeSuper r eid "f_0") r).faces = r.faces := by
  induction l generalizing r with
  | nil => rfl
  | cons eid l ih => rw [List.foldl_cons, ih, addEdgeSuper_faces]

theorem ueFold_edges_hasKey_mono (l : List String) (r : StratumRegistry) (k : String)
    (h : hasKey r.edges k) :
    hasKey ((l.foldl (fun r eid => addEdgeSuper r eid "f_0") r)).edges k := by
  induction l generalizing r with
  | nil => exact h
  | cons eid l ih => exact ih _ (hasKey_edges_addEdgeSuper _ _ _ _ h)

theorem uvFold_edges (l : List Pt) (r : StratumRegistry) :
    (l.foldl (fun r p => addVertexSuper r (vertexId p) "f_0") r).edges = r.edges := by
  induction l generalizing r with
  | nil => rfl
  | cons p l ih => rw [List.foldl_cons, ih, addVertexSuper_edges]

theorem uvFold_faces (l : List Pt) (r : StratumRegistry) :
    (l.foldl (fun r p => addVertexSuper r (vertexId p) "f_0") r).faces = r.faces := by
  induction l generalizing r with
  | nil => rfl
  | cons p l ih => rw [List.foldl_cons, ih, addVertexSuper_faces]

theorem uvFold_vertices_hasKey_mono (l : List Pt) (r : StratumRegistry) (k : String)
    (h : hasKey r.vertices k) :
    hasKey ((l.foldl (fun r p => addVertexSuper r (vertexId p) "f_0") r)).vertices k := by
  induction l generalizing r with
  | nil => exact h
  | cons p l ih => exact ih _ (hasKey_vertices_addVertexSuper _ _ _ _ h)

theorem intFold_vertices (hull : List Pt) (l : List Pt) (r : StratumRegistry) :
    (l.foldl (fun r p => if isPointInsidePolygon p hull then
      addFaceInterior r "f_0" (pointKey p.x p.y) else r) r).vertices = r.vertices := by
  induction l generalizing r with
  | nil => rfl
  | cons p l ih =>
    rw [List.foldl_cons, ih]
    by_cases hin : isPointInsidePolygon p hull
    · rw [if_pos hin, addFaceInterior_vertices]
    · rw [if_neg hin]

theorem intFold_edges (hull : List Pt) (l : List Pt) (r : StratumRegistry) :
    (l.foldl (fun r p => if isPointInsidePolygon p hull then
      addFaceInterior r "f_0" (pointKey p.x p.y) else r) r).edges = r.edges := by
  induction l generalizing r with
  | nil => rfl
  | cons p l ih =>
    rw [List.foldl_cons, ih]
    by_cases hin : isPointInsidePolygon p hull
    · rw [if_pos hin, addFaceInterior_edges]
    · rw [if_neg hin]

theorem intFold_faces_hasKey_mono (hull : List Pt) (l : List Pt) (r : StratumRegistry)
    (k : String) (h : hasKey r.faces k) :
    hasKey ((l.foldl (fun r p => if isPointInsidePolygon p hull then
      addFaceInterior r "f_0" (pointKey p.x p.y) else r) r)).faces k := by
  induction l generalizing r with
  | nil => exact h
  | cons p l ih =>
    rw [List.foldl_cons]
    apply ih
    by_cases hin : isPointInsidePolygon p hull
    · rw [if_pos hin]
      exact hasKey_faces_addFaceInterior _ _ _ _ h
    · rwa [if_neg hin]

end TS

namespace TS

/-! Containment-content invariants for the builder's stages. -/

theorem vertexFold_vertices_empty (l : List Pt) (r0 : StratumRegistry)
    (h : ∀ kv ∈ r0.vertices, kv.2.substrata = [] ∧ kv.2.superstrata = [])
    (kv : String × VertexStratum)
    (hkv : kv ∈ ((l.foldl (fun r p => addVertex r (mkVertexStratum p)) r0)).vertices) :
    kv.2.substrata = [] ∧ kv.2.superstrata = [] := by
  rcases vertexFold_mem l r0 kv hkv with hm | ⟨p, _, rfl⟩
  · exact h kv hm
  · exact ⟨rfl, rfl⟩

theorem super_inv_addVertexSuper (P : String → Prop) (r : StratumRegistry)
    (vid sid : String) (hsid : P sid)
    (h : ∀ kv ∈ r.vertices, kv.2.substrata = [] ∧ ∀ s ∈ kv.2.superstrata, P s)
    (kv : String × VertexStratum) (hkv : kv ∈ (addVertexSuper r vid sid).vertices) :
    kv.2.substrata = [] ∧ ∀ s ∈ kv.2.superstrata, P s := by
  rcases mem_vertices_addVertexSuper _ _ _ _ hkv with hm | ⟨v, hv, rfl⟩
  · exact h kv hm
  · refine ⟨(h (vid, v) (mapGet_mem _ _ _ hv)).1, ?_⟩
    intro s hs
    rcases (mem_setAdd _ _ _).mp hs with h' | rfl
    · exact (h (vid, v) (mapGet_mem _ _ _ hv)).2 s h'
    · exact hsid

theorem edgeFold_vertices_inv (P : String → Prop) (l : List (Pt × Pt))
    (hl : ∀ pr ∈ l, P (edgeId pr.1 pr.2)) (acc : StratumRegistry × List String)
    (h : ∀ kv ∈ acc.1.vertices, kv.2.substrata = [] ∧ ∀ s ∈ kv.2.superstrata, P s) :
    ∀ kv ∈ ((l.foldl edgeStep acc)).1.vertices,
      kv.2.substrata = [] ∧ ∀ s ∈ kv.2.superstrata, P s := by
  induction l generalizing acc with
  | nil => exact h
  | cons pr l ih =>
    refine ih (fun q hq => hl q (List.mem_cons_of_mem _ hq)) _ ?_
    intro kv hkv
    have hkv' : kv ∈ (addVertexSuper (addVertexSuper acc.1 (vertexId pr.1)
        (mkEdgeStratum pr.1 pr.2).id) (vertexId pr.2) (mkEdgeStratum pr.1 pr.2).id).vertices :=
      hkv
    exact super_inv_addVertexSuper P _ _ _ (hl pr (List.mem_cons_self _ _))
      (super_inv_addVertexSuper P _ _ _ (hl pr (List.mem_cons_self _ _)) h) kv hkv'

theorem uvFold_vertices_inv (P : String → Prop) (hf : P "f_0") (l : List Pt)
    (r : StratumRegistry)
    (h : ∀ kv ∈ r.vertices, kv.2.substrata = [] ∧ ∀ s ∈ kv.2.superstrata, P s) :
    ∀ kv ∈ ((l.foldl (fun r p => addVertexSuper r (vertexId p) "f_0") r)).vertices,
      kv.2.substrata = [] ∧ ∀ s ∈ kv.2.superstrata, P s := by
  induction l generalizing r with
  | nil => exact h
  | cons p l ih =>
    exact ih _ (fun kv hkv => super_inv_addVertexSuper P _ _ _ hf h kv hkv)

theorem edgeFold_edges_inv (Pv : String → Prop) (l : List (Pt × Pt))
    (hl : ∀ pr ∈ l, Pv (vertexId pr.1) ∧ Pv (vertexId pr.2))
    (acc : StratumRegistry × List String)
    (h : ∀ kv ∈ acc.1.edges, (∀ s ∈ kv.2.substrata, Pv s) ∧ kv.2.superstrata = []) :
    ∀ kv ∈ ((l.foldl edgeStep acc)).1.edges,
      (∀ s ∈ kv.2.substrata, Pv s) ∧ kv.2.superstrata = [] := by
  induction l generalizing acc with
  | nil => exact h
  | cons pr l ih =>
    refine ih (fun q hq => hl q (List.mem_cons_of_mem _ hq)) _ ?_
    intro kv hkv
    rcases mem_mapSet _ _ _ _ hkv with hm | rfl
    · rw [addVertexSuper_edges, addVertexSuper_edges] at hm
      exact h kv hm
    · refine ⟨?_, rfl⟩
      intro s hs
      rcases (mem_setAdd _ _ _).mp hs with hs' | rfl
      · rcases (mem_setAdd _ _ _).mp hs' with hs'' | rfl
        · cases hs''
        · exact (hl pr (List.mem_cons_self _ _)).1
      · exact (hl pr (List.mem_cons_self _ _)).2

theorem classifyFold_edges_inv (Pv : String → Prop) (Pe : String → Prop)
    (hull : List Pt) (l : List Pt) (r : StratumRegistry)
    (h : ∀ kv ∈ r.edges, (∀ s ∈ kv.2.substrata, Pv s) ∧ (∀ s ∈ kv.2.superstrata, Pe s)) :
    ∀ kv ∈ ((l.foldl (classifyEdgePoint hull) r)).edges,
      (∀ s ∈ kv.2.substrata, Pv s) ∧ (∀ s ∈ kv.2.superstrata, Pe s) := by
  induction l generalizing r with
  | nil => exact h
  | cons p l ih =>
    refine ih _ ?_
    intro kv hkv
    rcases mem_edges_classifyEdgePoint hull r p kv hkv with hm | ⟨eid, e, he, rfl⟩
    · exact h kv hm
    · exact ⟨(h (eid, e) (mapGet_mem _ _ _ he)).1, (h (eid, e) (mapGet_mem _ _ _ he)).2⟩

theorem ueFold_edges_inv (Pv : String → Prop) (Pe : String → Prop) (hf : Pe "f_0")
    (l : List String) (r : StratumRegistry)
    (h : ∀ kv ∈ r.edges, (∀ s ∈ kv.2.substrata, Pv s) ∧ (∀ s ∈ kv.2.superstrata, Pe s)) :
    ∀ kv ∈ ((l.foldl (fun r eid => addEdgeSuper r eid "f_0") r)).edges,
      (∀ s ∈ kv.2.substrata, Pv s) ∧ (∀ s ∈ kv.2.superstrata, Pe s) := by
  induction l generalizing r with
  | nil => exact h
  | cons eid l ih =>
    refine ih _ ?_
    intro kv hkv
    rcases mem_edges_addEdgeSuper r eid "f_0" kv hkv with hm | ⟨e, he, rfl⟩
    · exact h kv hm
    · refine ⟨(h (eid, e) (mapGet_mem _ _ _ he)).1, ?_⟩
      intro s hs
      rcases (mem_setAdd _ _ _).mp hs with hs' | rfl
      · exact (h (eid, e) (mapGet_mem _ _ _ he)).2 s hs'
      · exact hf

theorem intFold_faces_inv (Pf : String → Prop) (hull : List Pt) (l : List Pt)
    (r : StratumRegistry)
    (h : ∀ kv ∈ r.faces, (∀ s ∈ kv.2.substrata, Pf s) ∧ kv.2.superstrata = []) :
    ∀ kv ∈ ((l.foldl (fun r p => if isPointInsidePolygon p hull then
        addFaceInterior r "f_0" (pointKey p.x p.y) else r) r)).faces,
      (∀ s ∈ kv.2.substrata, Pf s) ∧ kv.2.superstrata = [] := by
  induction l generalizing r with
  | nil => exact h
  | cons p l ih =>
    refine ih _ ?_
    intro kv hkv
    by_cases hin : isPointInsidePolygon p hull
    · have hkv2 : kv ∈ (addFaceInterior r "f_0" (pointKey p.x p.y)).faces := by
        simpa [hin] using hkv
      rcases mem_faces_addFaceInterior _ _ _ _ hkv2 with hm | ⟨f, hf, rfl⟩
      · exact h kv hm
      · exact ⟨(h ("f_0", f) (mapGet_mem _ _ _ hf)).1, (h ("f_0", f) (mapGet_mem _ _ _ hf)).2⟩
    · have hkv2 : kv ∈ r.faces := by simpa [hin] using hkv
      exact h kv hkv2

end TS

namespace TS

/-- Containment ids of every stratum in the built registry resolve.  The
stage values are taken as parameters constrained by defining equations so
that the lemma applies directly to the unfolded builder. -/
theorem built_no_orphans (hull vs : List Pt)
    (r1 : StratumRegistry) (re : StratumRegistry × List String)
    (r3 : StratumRegistry) (face : FaceStratum) (r4 r5 r6 r7 : StratumRegistry)
    (hr1 : r1 = hull.foldl (fun r p => addVertex r (mkVertexStratum p)) emptyRegistry)
    (hre : re = (cyclePairs hull).foldl edgeStep (r1, []))
    (hr3 : r3 = (edgePointsOfPolygon hull).foldl (classifyEdgePoint hull) re.1)
    (hface : face =
      { id := "f_0"
        hullVertices := hull.map vertexId
        vertexMonomials := setOfList (hull.map fun p => pointKey p.x p.y)
        edgeMonomials := setOfList ((edgePointsOfPolygon hull).map fun p => pointKey p.x p.y)
        interiorMonomials := []
        substrata := re.2.foldl setAdd []
        superstrata := [] })
    (hr4 : r4 = re.2.foldl (fun r eid => addEdgeSuper r eid "f_0") r3)
    (hr5 : r5 = hull.foldl (fun r p => addVertexSuper r (vertexId p) "f_0") r4)
    (hr6 : r6 = addFace r5 face)
    (hr7 : r7 = vs.foldl (fun r p => if isPointInsidePolygon p hull then
      addFaceInterior r "f_0" (pointKey p.x p.y) else r) r6)
    (sid : String) (s : Stratum) (h : getStratum r7 sid = some s) :
    (∀ i ∈ s.substrata, ∃ t, getStratum r7 i = some t) ∧
    (∀ i ∈ s.superstrata, ∃ t, getStratum r7 i = some t) := by
  have hv5 : r5.vertices = (hull.foldl (fun r p => addVertexSuper r (vertexId p) "f_0")
      r4).vertices := by rw [hr5]
  have hv7 : r7.vertices = r5.vertices := by
    rw [hr7, intFold_vertices, hr6, addFace_vertices]
  have hv4 : r4.vertices = re.1.vertices := by
    rw [hr4, ueFold_vertices, hr3, classifyFold_vertices]
  have he7 : r7.edges = r4.edges := by
    rw [hr7, intFold_edges, hr6, addFace_edges, hr5, uvFold_edges]
  have hf5 : r5.faces = ([] : List (String × FaceStratum)) := by
    rw [hr5, uvFold_faces, hr4, ueFold_faces, hr3, classifyFold_faces, hre, edgeFold_faces]
    show r1.faces = []
    rw [hr1, vertexFold_faces]
    rfl
  have hres_v : ∀ p ∈ hull, hasKey r7.vertices (vertexId p) := by
    intro p hp
    rw [hv7, hv5]
    apply uvFold_vertices_hasKey_mono
    rw [hv4, hre]
    apply edgeFold_vertices_hasKey_mono
    show hasKey (r1.vertices) (vertexId p)
    rw [hr1]
    exact vertexFold_hasKey _ _ p hp
  have hres_e : ∀ pr ∈ cyclePairs hull, hasKey r7.edges (edgeId pr.1 pr.2) := by
    intro pr hpr
    rw [he7, hr4]
    apply ueFold_edges_hasKey_mono
    rw [hr3]
    apply classifyFold_edges_hasKey_mono
    rw [hre]
    exact edgeFold_hasKey_edge _ _ pr hpr
  have hres_f : hasKey r7.faces "f_0" := by
    rw [hr7]
    apply intFold_faces_hasKey_mono
    rw [hr6]
    show hasKey (mapSet r5.faces face.id face) "f_0"
    rw [hface]
    exact hasKey_mapSet_self _ _ _
  have hresolve : ∀ i : String,
      ((∃ p ∈ hull, i = vertexId p) ∨ (∃ pr ∈ cyclePairs hull, i = edgeId pr.1 pr.2) ∨
        i = "f_0") → ∃ t, getStratum r7 i = some t := by
    intro i hi
    apply getStratum_of_hasKey
    rcases hi with ⟨p, hp, rfl⟩ | ⟨pr, hpr, rfl⟩ | rfl
    · exact Or.inl (hres_v p hp)
    · exact Or.inr (Or.inl (hres_e pr hpr))
    · exact Or.inr (Or.inr hres_f)
  have hQv : ∀ kv ∈ r7.vertices, kv.2.substrata = [] ∧ ∀ s' ∈ kv.2.superstrata,
      ((∃ pr ∈ cyclePairs hull, s' = edgeId pr.1 pr.2) ∨ s' = "f_0") := by
    rw [hv7, hv5]
    apply uvFold_vertices_inv _ (Or.inr rfl)
    rw [hv4, hre]
    apply edgeFold_vertices_inv _ _ (fun pr hpr => Or.inl ⟨pr, hpr, rfl⟩)
    intro kv hkv
    have hkv1 : kv ∈ r1.vertices := hkv
    rw [hr1] at hkv1
    have := vertexFold_vertices_empty hull emptyRegistry (by intro kv h'; cases h') kv hkv1
    refine ⟨this.1, ?_⟩
    rw [this.2]
    intro s' hs'
    cases hs'
  have hQe : ∀ kv ∈ r7.edges, (∀ s' ∈ kv.2.substrata, ∃ p ∈ hull, s' = vertexId p) ∧
      (∀ s' ∈ kv.2.superstrata, s' = "f_0") := by
    rw [he7, hr4]
    refine ueFold_edges_inv (fun s' => ∃ p ∈ hull, s' = vertexId p)
      (fun s' => s' = "f_0") rfl _ _ ?_
    rw [hr3]
    apply classifyFold_edges_inv
    intro kv hkv
    have hkv1 : kv ∈ ((cyclePairs hull).foldl edgeStep (r1, [])).1.edges := by
      rw [← hre]; exact hkv
    have hbase : ∀ kv' ∈ (r1, ([] : List String)).1.edges,
        (∀ s' ∈ kv'.2.substrata, ∃ p ∈ hull, s' = vertexId p) ∧
          kv'.2.superstrata = [] := by
      intro kv' hkv'
      have : kv' ∈ r1.edges := hkv'
      rw [hr1, vertexFold_edges] at this
      cases this
    have := edgeFold_edges_inv _ _ (fun pr hpr =>
      ⟨⟨pr.1, (mem_cyclePairs hull pr hpr).1, rfl⟩, ⟨pr.2, (mem_cyclePairs hull pr hpr).2, rfl⟩⟩)
      (r1, []) hbase kv hkv1
    refine ⟨this.1, ?_⟩
    rw [this.2]
    intro s' hs'
    cases hs'
  have hQf : ∀ kv ∈ r7.faces, (∀ s' ∈ kv.2.substrata,
      ∃ pr ∈ cyclePairs hull, s' = edgeId pr.1 pr.2) ∧ kv.2.superstrata = [] := by
    rw [hr7]
    apply intFold_faces_inv
    intro kv hkv
    have hkv6 : kv ∈ (addFace r5 face).faces := by rw [← hr6]; exact hkv
    have hfaces : (addFace r5 face).faces = [(face.id, face)] := by
      show mapSet r5.faces face.id face = _
      rw [hf5]
      rfl
    rw [hfaces] at hkv6
    rcases List.mem_singleton.mp hkv6 with rfl
    constructor
    · intro s' hs'
      have hsub : face.substrata = re.2.foldl setAdd [] := by rw [hface]
      rw [hsub] at hs'
      rcases (mem_foldl_setAdd _ _ _).mp hs' with h' | h'
      · cases h'
      · have hsnd : re.2 = (cyclePairs hull).map (fun pr => edgeId pr.1 pr.2) := by
          rw [hre, edgeFold_snd]
          rfl
        rw [hsnd] at h'
        obtain ⟨pr, hpr, rfl⟩ := List.mem_map.mp h'
        exact ⟨pr, hpr, rfl⟩
    · rw [hface]
  rcases getStratum_cases r7 sid s h with ⟨kv, hkv, rfl⟩ | ⟨kv, hkv, rfl⟩ | ⟨kv, hkv, rfl⟩
  · obtain ⟨hsub, hsup⟩ := hQv kv hkv
    constructor
    · intro i hi
      rw [Stratum.substrata, hsub] at hi
      cases hi
    · intro i hi
      rw [Stratum.superstrata] at hi
      rcases hsup i hi with ⟨pr, hpr, rfl⟩ | rfl
      · exact hresolve _ (Or.inr (Or.inl ⟨pr, hpr, rfl⟩))
      · exact hresolve _ (Or.inr (Or.inr rfl))
  · obtain ⟨hsub, hsup⟩ := hQe kv hkv
    constructor
    · intro i hi
      rw [Stratum.substrata] at hi
      obtain ⟨p, hp, rfl⟩ := hsub i hi
      exact hresolve _ (Or.inl ⟨p, hp, rfl⟩)
    · intro i hi
      rw [Stratum.superstrata] at hi
      rw [hsup i hi]
      exact hresolve _ (Or.inr (Or.inr rfl))
  · obtain ⟨hsub, hsup⟩ := hQf kv hkv
    constructor
    · intro i hi
      rw [Stratum.substrata] at hi
      obtain ⟨pr, hpr, rfl⟩ := hsub i hi
      exact hresolve _ (Or.inr (Or.inl ⟨pr, hpr, rfl⟩))
    · intro i hi
      rw [Stratum.superstrata, hsup] at hi
      cases hi

end TS

namespace TS

theorem getStratum_empty (sid : String) : getStratum emptyRegistry sid = none := rfl

/-- C7: a registry built by `createStratificationFromPolytope` holds no
orphaned containment references: every id in any stratum's `substrata` or
`superstrata` resolves via `getStratum` to a stratum of the same
registry. -/
theorem C7_no_orphans (ps vs : List Pt) (sid : String) (s : Stratum)
    (h : getStratum (createStratificationFromPolytope ps vs) sid = some s) :
    (∀ i ∈ s.substrata, ∃ t, getStratum (createStratificationFromPolytope ps vs) i = some t) ∧
    (∀ i ∈ s.superstrata, ∃ t, getStratum (createStratificationFromPolytope ps vs) i = some t) := by
  by_cases h1 : ps.length < 3
  · rw [show createStratificationFromPolytope ps vs = emptyRegistry by
      simp only [createStratificationFromPolytope, if_pos h1]] at h
    rw [getStratum_empty] at h
    cases h
  · by_cases h2 : (convexHull ps).length < 3
    · rw [show createStratificationFromPolytope ps vs = emptyRegistry by
        simp only [createStratificationFromPolytope, if_neg h1]
        rw [if_pos h2]] at h
      rw [getStratum_empty] at h
      cases h
    · simp only [createStratificationFromPolytope, if_neg h1, if_neg h2] at h ⊢
      exact built_no_orphans (convexHull ps) vs _ _ _ _ _ _ _ _ rfl rfl rfl rfl rfl rfl
        rfl rfl sid s h

/-- Witness for C7: the vertex stratum at (0,0) of the unit-square
stratification resolves, and its containment references resolve. -/
theorem C7_no_orphans_witness :
    (getStratum (createStratificationFromPolytope [⟨0,0⟩, ⟨1,0⟩, ⟨1,1⟩, ⟨0,1⟩] [])
        "v_0,0" =
      some (Stratum.vertex
        { id := "v_0,0", point := ⟨0,0⟩, vertexMonomials := ["0,0"],
          edgeMonomials := [], interiorMonomials := [],
          substrata := [], superstrata := ["e_0,0_1,0", "e_0,0_0,1", "f_0"] })) ∧
    ((∀ i ∈ (Stratum.vertex
        { id := "v_0,0", point := ⟨0,0⟩, vertexMonomials := ["0,0"],
          edgeMonomials := [], interiorMonomials := [],
          substrata := [], superstrata := ["e_0,0_1,0", "e_0,0_0,1", "f_0"] }
          : Stratum).substrata,
        ∃ t, getStratum (createStratificationFromPolytope [⟨0,0⟩, ⟨1,0⟩, ⟨1,1⟩, ⟨0,1⟩] [])
          i = some t) ∧
      (∀ i ∈ (Stratum.vertex
        { id := "v_0,0", point := ⟨0,0⟩, vertexMonomials := ["0,0"],
          edgeMonomials := [], interiorMonomials := [],
          substrata := [], superstrata := ["e_0,0_1,0", "e_0,0_0,1", "f_0"] }
          : Stratum).superstrata,
        ∃ t, getStratum (createStratificationFromPolytope [⟨0,0⟩, ⟨1,0⟩, ⟨1,1⟩, ⟨0,1⟩] [])
          i = some t)) :=
  ⟨by decide, C7_no_orphans [⟨0,0⟩, ⟨1,0⟩, ⟨1,1⟩, ⟨0,1⟩] [] "v_0,0"
    (Stratum.vertex
      { id := "v_0,0", point := ⟨0,0⟩, vertexMonomials := ["0,0"],
        edgeMonomials := [], interiorMonomials := [],
        substrata := [], superstrata := ["e_0,0_1,0", "e_0,0_0,1", "f_0"] })
    (by decide)⟩

end TS

namespace TS

/-! Serialization round-trip (claim C3). -/

theorem deser_ser_vertex (v : VertexStratum) (h : vsNodup v) :
    deserializeVertexStratum (serializeVertexStratum v) = v := by
  obtain ⟨h1, h2, h3, h4, h5⟩ := h
  simp only [deserializeVertexStratum, serializeVertexStratum,
    setOfList_eq_of_nodup _ h1, setOfList_eq_of_nodup _ h2, setOfList_eq_of_nodup _ h3,
    setOfList_eq_of_nodup _ h4, setOfList_eq_of_nodup _ h5]

theorem deser_ser_edge (e : EdgeStratum) (h : esNodup e) :
    deserializeEdgeStratum (serializeEdgeStratum e) = e := by
  obtain ⟨h1, h2, h3, h4, h5⟩ := h
  simp only [deserializeEdgeStratum, serializeEdgeStratum,
    setOfList_eq_of_nodup _ h1, setOfList_eq_of_nodup _ h2, setOfList_eq_of_nodup _ h3,
    setOfList_eq_of_nodup _ h4, setOfList_eq_of_nodup _ h5]

theorem deser_ser_face (f : FaceStratum) (h : fsNodup f) :
    deserializeFaceStratum (serializeFaceStratum f) = f := by
  obtain ⟨h1, h2, h3, h4, h5⟩ := h
  simp only [deserializeFaceStratum, serializeFaceStratum,
    setOfList_eq_of_nodup _ h1, setOfList_eq_of_nodup _ h2, setOfList_eq_of_nodup _ h3,
    setOfList_eq_of_nodup _ h4, setOfList_eq_of_nodup _ h5]

theorem foldl_congr_mem {α β : Type} (l : List β) (f g : α → β → α) (a : α)
    (h : ∀ b ∈ l, ∀ x, f x b = g x b) : l.foldl f a = l.foldl g a := by
  induction l generalizing a with
  | nil => rfl
  | cons b l ih =>
    rw [List.foldl_cons, List.foldl_cons, h b (List.mem_cons_self _ _)]
    exact ih _ (fun b' hb' x => h b' (List.mem_cons_of_mem _ hb') x)

theorem reconstructV (m : List (String × VertexStratum)) (r0 : StratumRegistry)
    (hids : ∀ kv ∈ m, kv.1 = kv.2.id)
    (hkeys : (m.map (·.1)).Nodup)
    (hdisj : ∀ kv ∈ m, ¬hasKey r0.vertices kv.1) :
    m.foldl (fun r kv => addVertex r kv.2) r0 = { r0 with vertices := r0.vertices ++ m } := by
  induction m generalizing r0 with
  | nil => simp
  | cons kv m ih =>
    rw [List.foldl_cons]
    have hstep : addVertex r0 kv.2 = { r0 with vertices := r0.vertices ++ [kv] } := by
      show { r0 with vertices := mapSet r0.vertices kv.2.id kv.2 } = _
      rw [← hids kv (List.mem_cons_self _ _),
        mapSet_not_hasKey _ _ _ (hdisj kv (List.mem_cons_self _ _))]
    have hnd : kv.1 ∉ m.map (·.1) ∧ (m.map (·.1)).Nodup := by
      rw [List.map_cons] at hkeys
      exact List.nodup_cons.mp hkeys
    rw [hstep, ih _ (fun kv' hkv' => hids kv' (List.mem_cons_of_mem _ hkv')) hnd.2 ?_,
      List.append_assoc, List.singleton_append]
    intro kv' hkv' hk
    have hmem := (hasKey_iff_mem_keys _ _).mp hk
    rw [List.map_append] at hmem
    rcases List.mem_append.mp hmem with hm | hm
    · exact hdisj kv' (List.mem_cons_of_mem _ hkv') ((hasKey_iff_mem_keys _ _).mpr hm)
    · simp only [List.map_cons, List.map_nil, List.mem_singleton] at hm
      exact hnd.1 (hm ▸ List.mem_map_of_mem (fun x => x.1) hkv')

theorem reconstructE (m : List (String × EdgeStratum)) (r0 : StratumRegistry)
    (hids : ∀ kv ∈ m, kv.1 = kv.2.id)
    (hkeys : (m.map (·.1)).Nodup)
    (hdisj : ∀ kv ∈ m, ¬hasKey r0.edges kv.1) :
    m.foldl (fun r kv => addEdge r kv.2) r0 = { r0 with edges := r0.edges ++ m } := by
  induction m generalizing r0 with
  | nil => simp
  | cons kv m ih =>
    rw [List.foldl_cons]
    have hstep : addEdge r0 kv.2 = { r0 with edges := r0.edges ++ [kv] } := by
      show { r0 with edges := mapSet r0.edges kv.2.id kv.2 } = _
      rw [← hids kv (List.mem_cons_self _ _),
        mapSet_not_hasKey _ _ _ (hdisj kv (List.mem_cons_self _ _))]
    have hnd : kv.1 ∉ m.map (·.1) ∧ (m.map (·.1)).Nodup := by
      rw [List.map_cons] at hkeys
      exact List.nodup_cons.mp hkeys
    rw [hstep, ih _ (fun kv' hkv' => hids kv' (List.mem_cons_of_mem _ hkv')) hnd.2 ?_,
      List.append_assoc, List.singleton_append]
    intro kv' hkv' hk
    have hmem := (hasKey_iff_mem_keys _ _).mp hk
    rw [List.map_append] at hmem
    rcases List.mem_append.mp hmem with hm | hm
    · exact hdisj kv' (List.mem_cons_of_mem _ hkv') ((hasKey_iff_mem_keys _ _).mpr hm)
    · simp only [List.map_cons, List.map_nil, List.mem_singleton] at hm
      exact hnd.1 (hm ▸ List.mem_map_of_mem (fun x => x.1) hkv')

theorem reconstructF (m : List (String × FaceStratum)) (r0 : StratumRegistry)
    (hids : ∀ kv ∈ m, kv.1 = kv.2.id)
    (hkeys : (m.map (·.1)).Nodup)
    (hdisj : ∀ kv ∈ m, ¬hasKey r0.faces kv.1) :
    m.foldl (fun r kv => addFace r kv.2) r0 = { r0 with faces := r0.faces ++ m } := by
  induction m generalizing r0 with
  | nil => simp
  | cons kv m ih =>
    rw [List.foldl_cons]
    have hstep : addFace r0 kv.2 = { r0 with faces := r0.faces ++ [kv] } := by
      show { r0 with faces := mapSet r0.faces kv.2.id kv.2 } = _
      rw [← hids kv (List.mem_cons_self _ _),
        mapSet_not_hasKey _ _ _ (hdisj kv (List.mem_cons_self _ _))]
    have hnd : kv.1 ∉ m.map (·.1) ∧ (m.map (·.1)).Nodup := by
      rw [List.map_cons] at hkeys
      exact List.nodup_cons.mp hkeys
    rw [hstep, ih _ (fun kv' hkv' => hids kv' (List.mem_cons_of_mem _ hkv')) hnd.2 ?_,
      List.append_assoc, List.singleton_append]
    intro kv' hkv' hk
    have hmem := (hasKey_iff_mem_keys _ _).mp hk
    rw [List.map_append] at hmem
    rcases List.mem_append.mp hmem with hm | hm
    · exact hdisj kv' (List.mem_cons_of_mem _ hkv') ((hasKey_iff_mem_keys _ _).mpr hm)
    · simp only [List.map_cons, List.map_nil, List.mem_singleton] at hm
      exact hnd.1 (hm ▸ List.mem_map_of_mem (fun x => x.1) hkv')

theorem JSONedgeFold_vertices (l : List SerializedEdgeStratum) (r : StratumRegistry) :
    (l.foldl (fun r d => addEdge r (deserializeEdgeStratum d)) r).vertices = r.vertices := by
  induction l generalizing r with
  | nil => rfl
  | cons d l ih => rw [List.foldl_cons, ih, addEdge_vertices]

theorem JSONfaceFold_vertices (l : List SerializedFaceStratum) (r : StratumRegistry) :
    (l.foldl (fun r d => addFace r (deserializeFaceStratum d)) r).vertices = r.vertices := by
  induction l generalizing r with
  | nil => rfl
  | cons d l ih => rw [List.foldl_cons, ih, addFace_vertices]

/-- Round trip for any well-formed registry. -/
theorem fromJSON_toJSON_of_wf (r : StratumRegistry) (h : wfRegistry r) :
    fromJSON (toJSON r) = r := by
  obtain ⟨⟨hv1, hv2⟩, ⟨he1, he2⟩, ⟨hf1, hf2⟩⟩ := h
  have hVfold : (toJSON r).vertices.foldl
      (fun r d => addVertex r (deserializeVertexStratum d)) emptyRegistry =
      { emptyRegistry with vertices := r.vertices } := by
    show (r.vertices.map (fun kv => serializeVertexStratum kv.2)).foldl
      (fun r d => addVertex r (deserializeVertexStratum d)) emptyRegistry = _
    rw [List.foldl_map]
    rw [foldl_congr_mem _ _ (fun acc kv => addVertex acc kv.2) _
      (fun kv hkv x => by rw [deser_ser_vertex kv.2 (hv1 kv hkv).2])]
    rw [reconstructV r.vertices emptyRegistry (fun kv hkv => (hv1 kv hkv).1) hv2
      (fun kv _ hk => by obtain ⟨v, hv⟩ := hk; cases hv)]
    rfl
  have hEfold : (toJSON r).edges.foldl
      (fun r d => addEdge r (deserializeEdgeStratum d))
      ({ emptyRegistry with vertices := r.vertices }) =
      { emptyRegistry with vertices := r.vertices, edges := r.edges } := by
    show (r.edges.map (fun kv => serializeEdgeStratum kv.2)).foldl
      (fun r d => addEdge r (deserializeEdgeStratum d)) _ = _
    rw [List.foldl_map]
    rw [foldl_congr_mem _ _ (fun acc kv => addEdge acc kv.2) _
      (fun kv hkv x => by rw [deser_ser_edge kv.2 (he1 kv hkv).2])]
    rw [reconstructE r.edges _ (fun kv hkv => (he1 kv hkv).1) he2
      (fun kv _ hk => by obtain ⟨e, he⟩ := hk; cases he)]
    rfl
  have hFfold : (toJSON r).faces.foldl
      (fun r d => addFace r (deserializeFaceStratum d))
      ({ emptyRegistry with vertices := r.vertices, edges := r.edges }) =
      { emptyRegistry with vertices := r.vertices, edges := r.edges, faces := r.faces } := by
    show (r.faces.map (fun kv => serializeFaceStratum kv.2)).foldl
      (fun r d => addFace r (deserializeFaceStratum d)) _ = _
    rw [List.foldl_map]
    rw [foldl_congr_mem _ _ (fun acc kv => addFace acc kv.2) _
      (fun kv hkv x => by rw [deser_ser_face kv.2 (hf1 kv hkv).2])]
    rw [reconstructF r.faces _ (fun kv hkv => (hf1 kv hkv).1) hf2
      (fun kv _ hk => by obtain ⟨f, hf⟩ := hk; cases hf)]
    rfl
  show (toJSON r).faces.foldl (fun r d => addFace r (deserializeFaceStratum d))
      ((toJSON r).edges.foldl (fun r d => addEdge r (deserializeEdgeStratum d))
        ((toJSON r).vertices.foldl (fun r d => addVertex r (deserializeVertexStratum d))
          emptyRegistry)) = r
  rw [hVfold, hEfold, hFfold]

end TS

namespace TS

/-! Well-formedness of built registries. -/

theorem wfMap_mapSet {α : Type} (m : List (String × α)) (idOf : α → String) (P : α → Prop)
    (k : String) (v : α) (h : wfMap m idOf P) (hid : k = idOf v) (hP : P v) :
    wfMap (mapSet m k v) idOf P := by
  refine ⟨?_, nodup_keys_mapSet _ _ _ h.2⟩
  intro kv hkv
  rcases mem_mapSet _ _ _ _ hkv with hm | rfl
  · exact h.1 kv hm
  · exact ⟨hid, hP⟩

theorem wf_emptyRegistry : wfRegistry emptyRegistry :=
  ⟨⟨fun kv h => absurd h (List.not_mem_nil kv), List.nodup_nil⟩,
    ⟨fun kv h => absurd h (List.not_mem_nil kv), List.nodup_nil⟩,
    ⟨fun kv h => absurd h (List.not_mem_nil kv), List.nodup_nil⟩⟩

theorem vsNodup_mk (p : Pt) : vsNodup (mkVertexStratum p) := by
  refine ⟨List.nodup_singleton _, List.nodup_nil, List.nodup_nil, List.nodup_nil,
    List.nodup_nil⟩

theorem esNodup_mk (v1 v2 : Pt) : esNodup (mkEdgeStratum v1 v2) := by
  refine ⟨nodup_setOfList _, List.nodup_nil, List.nodup_nil,
    nodup_setAdd _ _ (nodup_setAdd _ _ List.nodup_nil), List.nodup_nil⟩

theorem wf_addVertex (r : StratumRegistry) (v : VertexStratum) (h : wfRegistry r)
    (hP : vsNodup v) : wfRegistry (addVertex r v) :=
  ⟨wfMap_mapSet _ _ _ _ _ h.1 rfl hP, h.2.1, h.2.2⟩

theorem wf_addEdge (r : StratumRegistry) (e : EdgeStratum) (h : wfRegistry r)
    (hP : esNodup e) : wfRegistry (addEdge r e) :=
  ⟨h.1, wfMap_mapSet _ _ _ _ _ h.2.1 rfl hP, h.2.2⟩

theorem wf_addFace (r : StratumRegistry) (f : FaceStratum) (h : wfRegistry r)
    (hP : fsNodup f) : wfRegistry (addFace r f) :=
  ⟨h.1, h.2.1, wfMap_mapSet _ _ _ _ _ h.2.2 rfl hP⟩

theorem wf_addVertexSuper (r : StratumRegistry) (vid sid : String) (h : wfRegistry r) :
    wfRegistry (addVertexSuper r vid sid) := by
  unfold addVertexSuper
  rcases hv : mapGet r.vertices vid with _ | v
  · exact h
  · have hwf := h.1.1 (vid, v) (mapGet_mem _ _ _ hv)
    obtain ⟨hnd1, hnd2, hnd3, hnd4, hnd5⟩ := hwf.2
    exact ⟨wfMap_mapSet _ _ _ _ _ h.1 hwf.1
      ⟨hnd1, hnd2, hnd3, hnd4, nodup_setAdd _ _ hnd5⟩, h.2.1, h.2.2⟩

theorem wf_addEdgeSuper (r : StratumRegistry) (eid sid : String) (h : wfRegistry r) :
    wfRegistry (addEdgeSuper r eid sid) := by
  unfold addEdgeSuper
  rcases he : mapGet r.edges eid with _ | e
  · exact h
  · have hwf := h.2.1.1 (eid, e) (mapGet_mem _ _ _ he)
    obtain ⟨hnd1, hnd2, hnd3, hnd4, hnd5⟩ := hwf.2
    exact ⟨h.1, wfMap_mapSet _ _ _ _ _ h.2.1 hwf.1
      ⟨hnd1, hnd2, hnd3, hnd4, nodup_setAdd _ _ hnd5⟩, h.2.2⟩

theorem wf_addFaceInterior (r : StratumRegistry) (fid key : String) (h : wfRegistry r) :
    wfRegistry (addFaceInterior r fid key) := by
  unfold addFaceInterior
  rcases hf : mapGet r.faces fid with _ | f
  · exact h
  · have hwf := h.2.2.1 (fid, f) (mapGet_mem _ _ _ hf)
    obtain ⟨hnd1, hnd2, hnd3, hnd4, hnd5⟩ := hwf.2
    exact ⟨h.1, h.2.1, wfMap_mapSet _ _ _ _ _ h.2.2 hwf.1
      ⟨hnd1, hnd2, nodup_setAdd _ _ hnd3, hnd4, hnd5⟩⟩

theorem wf_classifyEdgePoint (hull : List Pt) (r : StratumRegistry) (p : Pt)
    (h : wfRegistry r) : wfRegistry (classifyEdgePoint hull r p) := by
  rcases hfind : (cyclePairs hull).find? (fun pr => isPointOnSegment p pr.1 pr.2) with _ | pr
  · rw [classifyEdgePoint_eq_of_none hull r p hfind]
    exact h
  · rcases he : mapGet r.edges (edgeId pr.1 pr.2) with _ | e
    · rw [classifyEdgePoint_eq_of_miss hull r p pr hfind he]
      exact h
    · rw [classifyEdgePoint_eq_of_hit hull r p pr e hfind he]
      have hwf := h.2.1.1 (edgeId pr.1 pr.2, e) (mapGet_mem _ _ _ he)
      obtain ⟨hnd1, hnd2, hnd3, hnd4, hnd5⟩ := hwf.2
      exact ⟨h.1, wfMap_mapSet _ _ _ _ _ h.2.1 hwf.1
        ⟨hnd1, nodup_setAdd _ _ hnd2, hnd3, hnd4, hnd5⟩, h.2.2⟩

theorem wf_vertexFold (l : List Pt) (r0 : StratumRegistry) (h : wfRegistry r0) :
    wfRegistry (l.foldl (fun r p => addVertex r (mkVertexStratum p)) r0) := by
  induction l generalizing r0 with
  | nil => exact h
  | cons p l ih => exact ih _ (wf_addVertex _ _ h (vsNodup_mk p))

theorem wf_edgeFold (l : List (Pt × Pt)) (acc : StratumRegistry × List String)
    (h : wfRegistry acc.1) : wfRegistry ((l.foldl edgeStep acc)).1 := by
  induction l generalizing acc with
  | nil => exact h
  | cons pr l ih =>
    refine ih _ ?_
    show wfRegistry (addEdge _ _)
    exact wf_addEdge _ _ (wf_addVertexSuper _ _ _ (wf_addVertexSuper _ _ _ h))
      (esNodup_mk pr.1 pr.2)

theorem wf_classifyFold (hull : List Pt) (l : List Pt) (r : StratumRegistry)
    (h : wfRegistry r) : wfRegistry (l.foldl (classifyEdgePoint hull) r) := by
  induction l generalizing r with
  | nil => exact h
  | cons p l ih => exact ih _ (wf_classifyEdgePoint hull r p h)

theorem wf_ueFold (l : List String) (r : StratumRegistry) (h : wfRegistry r) :
    wfRegistry (l.foldl (fun r eid => addEdgeSuper r eid "f_0") r) := by
  induction l generalizing r with
  | nil => exact h
  | cons eid l ih => exact ih _ (wf_addEdgeSuper _ _ _ h)

theorem wf_uvFold (l : List Pt) (r : StratumRegistry) (h : wfRegistry r) :
    wfRegistry (l.foldl (fun r p => addVertexSuper r (vertexId p) "f_0") r) := by
  induction l generalizing r with
  | nil => exact h
  | cons p l ih => exact ih _ (wf_addVertexSuper _ _ _ h)

theorem wf_intFold (hull : List Pt) (l : List Pt) (r : StratumRegistry)
    (h : wfRegistry r) :
    wfRegistry (l.foldl (fun r p => if isPointInsidePolygon p hull then
      addFaceInterior r "f_0" (pointKey p.x p.y) else r) r) := by
  induction l generalizing r with
  | nil => exact h
  | cons p l ih =>
    refine ih _ ?_
    show wfRegistry (if isPointInsidePolygon p hull then
      addFaceInterior r "f_0" (pointKey p.x p.y) else r)
    by_cases hin : isPointInsidePolygon p hull
    · rw [if_pos hin]
      exact wf_addFaceInterior r _ _ h
    · rw [if_neg hin]
      exact h

theorem fsNodup_face (hullVerts : List String) (vm em : List String) (sub : List String) :
    fsNodup
      { id := "f_0"
        hullVertices := hullVerts
        vertexMonomials := setOfList vm
        edgeMonomials := setOfList em
        interiorMonomials := []
        substrata := sub.foldl setAdd []
        superstrata := [] } :=
  ⟨nodup_setOfList _, nodup_setOfList _, List.nodup_nil,
    nodup_foldl_setAdd _ _ List.nodup_nil, List.nodup_nil⟩

/-- Every registry produced by the builder is well-formed. -/
theorem wf_create (ps vs : List Pt) :
    wfRegistry (createStratificationFromPolytope ps vs) := by
  by_cases h1 : ps.length < 3
  · rw [show createStratificationFromPolytope ps vs = emptyRegistry by
      simp only [createStratificationFromPolytope, if_pos h1]]
    exact wf_emptyRegistry
  · by_cases h2 : (convexHull ps).length < 3
    · rw [show createStratificationFromPolytope ps vs = emptyRegistry by
        simp only [createStratificationFromPolytope, if_neg h1]
        rw [if_pos h2]]
      exact wf_emptyRegistry
    · simp only [createStratificationFromPolytope, if_neg h1, if_neg h2]
      exact wf_intFold _ _ _ (wf_addFace _ _
        (wf_uvFold _ _ (wf_ueFold _ _ (wf_classifyFold _ _ _ (wf_edgeFold _ _
          (wf_vertexFold _ _ wf_emptyRegistry)))))
        (fsNodup_face _ _ _ _))

end TS

namespace TS

/-- C3: for every registry built from a polytope, serializing and
deserializing yields a registry that is indistinguishable from the
original: in fact it is equal, so every query operation (`getTotalCount`,
`getStratum` — hence ids, dimensions and geometric payload —
`getSubstrata`, `getSuperstrata`, `getAllMonomials`) agrees. -/
theorem C3_serialization_roundtrip (ps vs : List Pt) :
    fromJSON (toJSON (createStratificationFromPolytope ps vs)) =
      createStratificationFromPolytope ps vs ∧
    getTotalCount (fromJSON (toJSON (createStratificationFromPolytope ps vs))) =
      getTotalCount (createStratificationFromPolytope ps vs) ∧
    (∀ id, getStratum (fromJSON (toJSON (createStratificationFromPolytope ps vs))) id =
      getStratum (createStratificationFromPolytope ps vs) id) ∧
    (∀ id, getSubstrata (fromJSON (toJSON (createStratificationFromPolytope ps vs))) id =
      getSubstrata (createStratificationFromPolytope ps vs) id) ∧
    (∀ id, getSuperstrata (fromJSON (toJSON (createStratificationFromPolytope ps vs))) id =
      getSuperstrata (createStratificationFromPolytope ps vs) id) ∧
    (∀ id, getAllMonomials (fromJSON (toJSON (createStratificationFromPolytope ps vs))) id =
      getAllMonomials (createStratificationFromPolytope ps vs) id) := by
  have heq := fromJSON_toJSON_of_wf _ (wf_create ps vs)
  exact ⟨heq, by rw [heq], fun id => by rw [heq], fun id => by rw [heq],
    fun id => by rw [heq], fun id => by rw [heq]⟩

end TS

namespace TS

/-! Cyclic indexing of polygons and the convex-position predicate. -/

theorem length_cyclePairs (H : List Pt) : (cyclePairs H).length = H.length := by
  simp [cyclePairs, List.length_zip, List.length_rotate]

theorem cget_eq_getElem (H : List Pt) (i : Nat) (h : i < H.length) :
    cget H i = H[i] := by
  unfold cget
  rw [Nat.mod_eq_of_lt h]
  exact List.getD_eq_getElem H default h

theorem cget_mod (H : List Pt) (i : Nat) : cget H (i % H.length) = cget H i := by
  unfold cget
  rw [Nat.mod_mod_of_dvd i dvd_rfl]

theorem cget_congr (H : List Pt) (i j : Nat) (h : i % H.length = j % H.length) :
    cget H i = cget H j := by
  unfold cget
  rw [h]

theorem cget_mem (H : List Pt) (hH : H ≠ []) (i : Nat) : cget H i ∈ H := by
  unfold cget
  have hlen : 0 < H.length := List.length_pos.mpr hH
  rw [List.getD_eq_getElem H default (Nat.mod_lt i hlen)]
  exact List.getElem_mem _

theorem cyclePairs_getElem (H : List Pt) (i : Nat) (h : i < (cyclePairs H).length) :
    (cyclePairs H)[i] = (cget H i, cget H (i + 1)) := by
  have hi : i < H.length := by rwa [length_cyclePairs] at h
  show (H.zip (H.rotate 1))[i] = _
  rw [List.getElem_zip]
  have hb1 : i < (H.rotate 1).length := by rwa [List.length_rotate]
  have hb2 : (i + 1) % H.length < H.length := Nat.mod_lt _ (by omega)
  have h1 : (H.rotate 1)[i] = H[(i + 1) % H.length] := List.getElem_rotate H 1 i hb1
  rw [h1, ← cget_eq_getElem H i hi, ← cget_eq_getElem H ((i + 1) % H.length) hb2, cget_mod]

theorem mem_cyclePairs_iff (H : List Pt) (pr : Pt × Pt) :
    pr ∈ cyclePairs H ↔ ∃ i < H.length, pr = (cget H i, cget H (i + 1)) := by
  rw [List.mem_iff_getElem]
  constructor
  · rintro ⟨i, hi, rfl⟩
    exact ⟨i, by rwa [length_cyclePairs] at hi, (cyclePairs_getElem H i hi)⟩
  · rintro ⟨i, hi, rfl⟩
    exact ⟨i, by rwa [length_cyclePairs], cyclePairs_getElem H i (by rwa [length_cyclePairs])⟩

theorem crossProduct_self_left (a b : Pt) : crossProduct a b a = 0 := by
  simp only [crossProduct]; ring

theorem crossProduct_self_right (a b : Pt) : crossProduct a b b = 0 := by
  simp only [crossProduct]; ring

theorem crossProduct_same (a c : Pt) : crossProduct a a c = 0 := by
  simp only [crossProduct]; ring

theorem hcp_cross (H : List Pt) (hcp : CCWConvexPosition H) (i j : Nat)
    (hi : i < H.length) (hj : j < H.length) (hji : j ≠ i) (hj1 : j ≠ (i + 1) % H.length) :
    0 < crossProduct (cget H i) (cget H (i + 1)) (cget H j) :=
  hcp.2 i hi j hj hji hj1

theorem hcp_edge_ne (H : List Pt) (hcp : CCWConvexPosition H) (i : Nat)
    (hi : i < H.length) : cget H i ≠ cget H (i + 1) := by
  have hn := hcp.1
  intro heq
  have hlen : 0 < H.length := by omega
  have ha : (i + 2 < H.length ∧ (i + 2) % H.length = i + 2) ∨
      (H.length ≤ i + 2 ∧ (i + 2) % H.length = i + 2 - H.length) := by
    rcases Nat.lt_or_ge (i + 2) H.length with hlt | hge
    · exact Or.inl ⟨hlt, Nat.mod_eq_of_lt hlt⟩
    · refine Or.inr ⟨hge, ?_⟩
      rw [Nat.mod_eq_sub_mod hge, Nat.mod_eq_of_lt (by omega)]
  have hb : (i + 1 < H.length ∧ (i + 1) % H.length = i + 1) ∨
      (H.length ≤ i + 1 ∧ (i + 1) % H.length = i + 1 - H.length) := by
    rcases Nat.lt_or_ge (i + 1) H.length with hlt | hge
    · exact Or.inl ⟨hlt, Nat.mod_eq_of_lt hlt⟩
    · refine Or.inr ⟨hge, ?_⟩
      rw [Nat.mod_eq_sub_mod hge, Nat.mod_eq_of_lt (by omega)]
  have h1 : (i + 2) % H.length ≠ i := by omega
  have h2 : (i + 2) % H.length ≠ (i + 1) % H.length := by omega
  have hpos := hcp_cross H hcp i ((i + 2) % H.length) hi (Nat.mod_lt _ hlen) h1 h2
  rw [← heq, crossProduct_same] at hpos
  exact lt_irrefl 0 hpos

end TS

namespace TS

/-! Arithmetic and membership helpers for the partition claim. -/

theorem mod_small_cases (n i : Nat) (h2 : i < 2 * n) :
    (i < n ∧ i % n = i) ∨ (n ≤ i ∧ i % n = i - n) := by
  rcases Nat.lt_or_ge i n with hlt | hge
  · exact Or.inl ⟨hlt, Nat.mod_eq_of_lt hlt⟩
  · refine Or.inr ⟨hge, ?_⟩
    rw [Nat.mod_eq_sub_mod hge, Nat.mod_eq_of_lt (by omega)]

theorem mem_cget_iff (H : List Pt) (p : Pt) :
    p ∈ H ↔ ∃ i < H.length, p = cget H i := by
  rw [List.mem_iff_getElem]
  constructor
  · rintro ⟨i, hi, rfl⟩
    exact ⟨i, hi, (cget_eq_getElem H i hi).symm⟩
  · rintro ⟨i, hi, rfl⟩
    exact ⟨i, hi, (cget_eq_getElem H i hi).symm⟩

theorem mem_edgePointsOfPolygon_iff (H : List Pt) (h2 : 2 ≤ H.length) (q : Pt) :
    q ∈ edgePointsOfPolygon H ↔
      ∃ i < H.length, q ∈ latticePointsOnSegment (cget H i) (cget H (i + 1)) := by
  unfold edgePointsOfPolygon
  rw [if_neg (by omega), List.mem_flatMap]
  constructor
  · rintro ⟨pr, hpr, hq⟩
    obtain ⟨i, hi, rfl⟩ := (mem_cyclePairs_iff H pr).mp hpr
    exact ⟨i, hi, hq⟩
  · rintro ⟨i, hi, hq⟩
    exact ⟨(cget H i, cget H (i + 1)), (mem_cyclePairs_iff H _).mpr ⟨i, hi, rfl⟩, hq⟩

theorem distSq_pos (a b : Pt) (hab : a ≠ b) : 0 < distSq a b := by
  have h : a.x ≠ b.x ∨ a.y ≠ b.y := by
    by_contra h
    push_neg at h
    exact hab (Pt.ext_xy a b h.1 h.2)
  unfold distSq
  rcases h with h | h
  · have h1 : 0 < (a.x - b.x) * (a.x - b.x) := mul_self_pos.mpr (sub_ne_zero.mpr h)
    nlinarith [mul_self_nonneg (a.y - b.y)]
  · have h1 : 0 < (a.y - b.y) * (a.y - b.y) := mul_self_pos.mpr (sub_ne_zero.mpr h)
    nlinarith [mul_self_nonneg (a.x - b.x)]

/-- A point collinear with the segment `a b` decomposes along the segment
direction: `|b-a|² · (q-a) = ⟨q-a, b-a⟩ · (b-a)` componentwise. -/
theorem collinear_decomp (a b q : Pt) (hc : crossProduct a b q = 0) :
    distSq a b * (q.x - a.x) =
        ((q.x - a.x) * (b.x - a.x) + (q.y - a.y) * (b.y - a.y)) * (b.x - a.x) ∧
      distSq a b * (q.y - a.y) =
        ((q.x - a.x) * (b.x - a.x) + (q.y - a.y) * (b.y - a.y)) * (b.y - a.y) := by
  simp only [crossProduct] at hc
  simp only [distSq]
  constructor
  · linear_combination (-(b.y - a.y)) * hc
  · linear_combination (b.x - a.x) * hc

/-- The cross product against any directed edge `(c, d)` is affine along a
segment: for `q` collinear with `a b`,
`|b-a|² · cross(c,d,q) = (|b-a|² - s) · cross(c,d,a) + s · cross(c,d,b)`
with `s = ⟨q-a, b-a⟩`. -/
theorem affine_cross (a b q c d : Pt) (hc : crossProduct a b q = 0) :
    distSq a b * crossProduct c d q =
      (distSq a b - ((q.x - a.x) * (b.x - a.x) + (q.y - a.y) * (b.y - a.y))) *
          crossProduct c d a +
        ((q.x - a.x) * (b.x - a.x) + (q.y - a.y) * (b.y - a.y)) * crossProduct c d b := by
  simp only [crossProduct, distSq] at hc ⊢
  linear_combination ((d.x - c.x) * (b.x - a.x) + (d.y - c.y) * (b.y - a.y)) * hc

/-- Every vertex of a convex-position polygon lies in its closed region. -/
theorem vertex_inClosure (H : List Pt) (hcp : CCWConvexPosition H) (j : Nat)
    (hj : j < H.length) : inClosureOf (cget H j) H := by
  intro pr hpr
  obtain ⟨i, hi, rfl⟩ := (mem_cyclePairs_iff H pr).mp hpr
  by_cases h1 : j = i
  · subst h1
    exact le_of_eq (crossProduct_self_left _ _).symm
  by_cases h2 : j = (i + 1) % H.length
  · subst h2
    rw [cget_mod]
    exact le_of_eq (crossProduct_self_right _ _).symm
  · exact le_of_lt (hcp.2 i hi j hj h1 h2)

/-- Any point with a vanishing cross product against some edge is not
strictly inside. -/
theorem not_inside_of_cross_zero (H : List Pt) (h3 : 3 ≤ H.length) (p : Pt)
    (i : Nat) (hi : i < H.length)
    (hc : crossProduct (cget H i) (cget H (i + 1)) p = 0) :
    isPointInsidePolygon p H = false := by
  unfold isPointInsidePolygon
  rw [if_neg (by omega), List.all_eq_false]
  refine ⟨(cget H i, cget H (i + 1)), (mem_cyclePairs_iff H _).mpr ⟨i, hi, rfl⟩, ?_⟩
  simp [hc]

/-- Strict interiority implies membership in the closed region. -/
theorem inside_inClosure (H : List Pt) (p : Pt)
    (hp : isPointInsidePolygon p H = true) : inClosureOf p H := by
  intro pr hpr
  unfold isPointInsidePolygon at hp
  by_cases h3 : H.length < 3
  · rw [if_pos h3] at hp
    cases hp
  · rw [if_neg h3, List.all_eq_true] at hp
    have h := hp pr hpr
    exact le_of_lt (by simpa using h)

/-- Every edge point produced by `edgePointsOfPolygon` lies strictly
between the endpoints of one of the polygon's edges. -/
theorem edgePoint_strictlyBetween (H : List Pt) (hcp : CCWConvexPosition H)
    (q : Pt) (hq : q ∈ edgePointsOfPolygon H) :
    ∃ i < H.length, StrictlyBetween (cget H i) (cget H (i + 1)) q := by
  obtain ⟨i, hi, hmem⟩ := (mem_edgePointsOfPolygon_iff H (by have := hcp.1; omega) q).mp hq
  exact ⟨i, hi, (mem_latticePointsOnSegment_iff _ _ (hcp_edge_ne H hcp i hi) q).mp hmem⟩

end TS

namespace TS

/-- No polygon vertex is ever reported as an edge lattice point. -/
theorem vertex_not_edgePoint (H : List Pt) (hcp : CCWConvexPosition H) (p : Pt)
    (hp : p ∈ H) : p ∉ edgePointsOfPolygon H := by
  intro hmem
  obtain ⟨i, hi, hsb⟩ := edgePoint_strictlyBetween H hcp p hmem
  obtain ⟨j, hj, rfl⟩ := (mem_cget_iff H p).mp hp
  obtain ⟨hc0, hs0, hsD⟩ := hsb
  by_cases h1 : j = i
  · subst h1
    simp [sub_self] at hs0
  by_cases h2 : j = (i + 1) % H.length
  · subst h2
    rw [cget_mod] at hs0 hsD hc0
    have hd : ((cget H (i + 1)).x - (cget H i).x) * ((cget H (i + 1)).x - (cget H i).x) +
        ((cget H (i + 1)).y - (cget H i).y) * ((cget H (i + 1)).y - (cget H i).y) =
        distSq (cget H i) (cget H (i + 1)) := by
      unfold distSq
      ring
    rw [hd] at hsD
    exact lt_irrefl _ hsD
  · have hpos := hcp.2 i hi j hj h1 h2
    rw [hc0] at hpos
    exact lt_irrefl 0 hpos

/-- A point strictly between two consecutive vertices lies in the closed
region of the polygon. -/
theorem strictlyBetween_inClosure (H : List Pt) (hcp : CCWConvexPosition H)
    (i : Nat) (hi : i < H.length) (q : Pt)
    (hsb : StrictlyBetween (cget H i) (cget H (i + 1)) q) : inClosureOf q H := by
  intro pr hpr
  obtain ⟨k, hk, rfl⟩ := (mem_cyclePairs_iff H pr).mp hpr
  obtain ⟨hc0, hs0, hsD⟩ := hsb
  have hab : cget H i ≠ cget H (i + 1) := hcp_edge_ne H hcp i hi
  have hD : 0 < distSq (cget H i) (cget H (i + 1)) := distSq_pos _ _ hab
  have haff := affine_cross (cget H i) (cget H (i + 1)) q (cget H k) (cget H (k + 1)) hc0
  have hca : 0 ≤ crossProduct (cget H k) (cget H (k + 1)) (cget H i) :=
    vertex_inClosure H hcp i hi _ hpr
  have hcb : 0 ≤ crossProduct (cget H k) (cget H (k + 1)) (cget H (i + 1)) := by
    have h := vertex_inClosure H hcp ((i + 1) % H.length)
      (Nat.mod_lt _ (by have := hcp.1; omega)) _ hpr
    rwa [cget_mod] at h
  have hDX : 0 ≤ distSq (cget H i) (cget H (i + 1)) *
      crossProduct (cget H k) (cget H (k + 1)) q := by
    rw [haff]
    exact add_nonneg (mul_nonneg (by linarith) hca) (mul_nonneg (by linarith) hcb)
  by_contra hneg
  push_neg at hneg
  have hlt := mul_neg_of_pos_of_neg hD hneg
  linarith

/-- Any visible point that is neither strictly inside nor outside the
closed region is a vertex or an edge lattice point. -/
theorem boundary_coverage (H : List Pt) (hcp : CCWConvexPosition H) (p : Pt)
    (hin : isPointInsidePolygon p H = false) (hcl : inClosureOf p H) :
    p ∈ H ∨ p ∈ edgePointsOfPolygon H := by
  have h3 := hcp.1
  have hne : H ≠ [] := List.length_pos.mp (by omega)
  unfold isPointInsidePolygon at hin
  rw [if_neg (by omega), List.all_eq_false] at hin
  obtain ⟨pr, hpr, hnp⟩ := hin
  obtain ⟨i, hi, rfl⟩ := (mem_cyclePairs_iff H pr).mp hpr
  have h0 : ¬ 0 < crossProduct (cget H i) (cget H (i + 1)) p := by simpa using hnp
  have hge : 0 ≤ crossProduct (cget H i) (cget H (i + 1)) p := hcl _ hpr
  have hc0 : crossProduct (cget H i) (cget H (i + 1)) p = 0 := by omega
  obtain ⟨hdx, hdy⟩ := collinear_decomp (cget H i) (cget H (i + 1)) p hc0
  have hab : cget H i ≠ cget H (i + 1) := hcp_edge_ne H hcp i hi
  have hD : 0 < distSq (cget H i) (cget H (i + 1)) := distSq_pos _ _ hab
  have hne2 : (i + 1) % H.length ≠ i := by
    have hb := mod_small_cases H.length (i + 1) (by omega)
    omega
  -- Lower bound on the projection parameter, via the incoming edge at i.
  have hjlt : (i + H.length - 1) % H.length < H.length := Nat.mod_lt _ (by omega)
  have hj1 : ((i + H.length - 1) % H.length + 1) % H.length = i := by
    have hb := mod_small_cases H.length (i + H.length - 1) (by omega)
    have hc := mod_small_cases H.length ((i + H.length - 1) % H.length + 1) (by omega)
    omega
  have hprev_pr : (cget H ((i + H.length - 1) % H.length),
      cget H ((i + H.length - 1) % H.length + 1)) ∈ cyclePairs H :=
    (mem_cyclePairs_iff H _).mpr ⟨_, hjlt, rfl⟩
  have hprev_ge := hcl _ hprev_pr
  have hjv : cget H ((i + H.length - 1) % H.length + 1) = cget H i := by
    have h := cget_mod H ((i + H.length - 1) % H.length + 1)
    rw [hj1] at h
    exact h.symm.trans rfl
  have hne1 : (i + 1) % H.length ≠ (i + H.length - 1) % H.length := by
    have ha := mod_small_cases H.length (i + 1) (by omega)
    have hb := mod_small_cases H.length (i + H.length - 1) (by omega)
    omega
  have hne1b : (i + 1) % H.length ≠ ((i + H.length - 1) % H.length + 1) % H.length := by
    rw [hj1]
    exact hne2
  have hcab : 0 < crossProduct (cget H ((i + H.length - 1) % H.length)) (cget H i)
      (cget H (i + 1)) := by
    have h := hcp.2 ((i + H.length - 1) % H.length) hjlt ((i + 1) % H.length)
      (Nat.mod_lt _ (by omega)) hne1 hne1b
    rwa [hjv, cget_mod H (i + 1)] at h
  have haff1 := affine_cross (cget H i) (cget H (i + 1)) p
    (cget H ((i + H.length - 1) % H.length)) (cget H i) hc0
  rw [crossProduct_self_right, mul_zero, zero_add] at haff1
  have hprev : 0 ≤ crossProduct (cget H ((i + H.length - 1) % H.length)) (cget H i) p := by
    have h' : 0 ≤ crossProduct (cget H ((i + H.length - 1) % H.length))
        (cget H ((i + H.length - 1) % H.length + 1)) p := hprev_ge
    rwa [hjv] at h'
  have hsnn : 0 ≤ (p.x - (cget H i).x) * ((cget H (i + 1)).x - (cget H i).x) +
      (p.y - (cget H i).y) * ((cget H (i + 1)).y - (cget H i).y) := by
    by_contra hneg
    push_neg at hneg
    have h1 : 0 ≤ distSq (cget H i) (cget H (i + 1)) *
        crossProduct (cget H ((i + H.length - 1) % H.length)) (cget H i) p :=
      mul_nonneg (le_of_lt hD) hprev
    rw [haff1] at h1
    have h2 := mul_neg_of_neg_of_pos hneg hcab
    linarith
  -- Upper bound on the projection parameter, via the outgoing edge at i+1.
  have hklt : (i + 1) % H.length < H.length := Nat.mod_lt _ (by omega)
  have hnext_pr : (cget H ((i + 1) % H.length), cget H ((i + 1) % H.length + 1)) ∈
      cyclePairs H := (mem_cyclePairs_iff H _).mpr ⟨_, hklt, rfl⟩
  have hnext_ge := hcl _ hnext_pr
  have hk1 : cget H ((i + 1) % H.length + 1) = cget H (i + 2) := by
    have h1 := mod_small_cases H.length (i + 1) (by omega)
    have h2 := mod_small_cases H.length ((i + 1) % H.length + 1) (by omega)
    have h3' := mod_small_cases H.length (i + 2) (by omega)
    exact cget_congr H _ _ (by omega)
  have hne3 : i ≠ (i + 1) % H.length := hne2.symm
  have hne4 : i ≠ ((i + 1) % H.length + 1) % H.length := by
    have h1 := mod_small_cases H.length (i + 1) (by omega)
    have h2 := mod_small_cases H.length ((i + 1) % H.length + 1) (by omega)
    omega
  have hbda : 0 < crossProduct (cget H (i + 1)) (cget H (i + 2)) (cget H i) := by
    have h := hcp.2 ((i + 1) % H.length) hklt i hi hne3 hne4
    rwa [cget_mod H (i + 1), hk1] at h
  have hnext : 0 ≤ crossProduct (cget H (i + 1)) (cget H (i + 2)) p := by
    have h' : 0 ≤ crossProduct (cget H ((i + 1) % H.length))
        (cget H ((i + 1) % H.length + 1)) p := hnext_ge
    rwa [cget_mod H (i + 1), hk1] at h'
  have haff2 := affine_cross (cget H i) (cget H (i + 1)) p
    (cget H (i + 1)) (cget H (i + 2)) hc0
  rw [crossProduct_self_left, mul_zero, add_zero] at haff2
  have hsub : (p.x - (cget H i).x) * ((cget H (i + 1)).x - (cget H i).x) +
      (p.y - (cget H i).y) * ((cget H (i + 1)).y - (cget H i).y) ≤
      distSq (cget H i) (cget H (i + 1)) := by
    by_contra hneg
    push_neg at hneg
    have h1 : 0 ≤ distSq (cget H i) (cget H (i + 1)) *
        crossProduct (cget H (i + 1)) (cget H (i + 2)) p :=
      mul_nonneg (le_of_lt hD) hnext
    rw [haff2] at h1
    have h2 : distSq (cget H i) (cget H (i + 1)) -
        ((p.x - (cget H i).x) * ((cget H (i + 1)).x - (cget H i).x) +
          (p.y - (cget H i).y) * ((cget H (i + 1)).y - (cget H i).y)) < 0 := by linarith
    have h3 := mul_neg_of_neg_of_pos h2 hbda
    linarith
  -- Trichotomy on the projection parameter.
  by_cases hs0 : (p.x - (cget H i).x) * ((cget H (i + 1)).x - (cget H i).x) +
      (p.y - (cget H i).y) * ((cget H (i + 1)).y - (cget H i).y) = 0
  · left
    rw [hs0, zero_mul] at hdx hdy
    have hx : p.x = (cget H i).x := by
      rcases mul_eq_zero.mp hdx with h | h
      · omega
      · omega
    have hy : p.y = (cget H i).y := by
      rcases mul_eq_zero.mp hdy with h | h
      · omega
      · omega
    have : p = cget H i := Pt.ext_xy p (cget H i) hx hy
    rw [this]
    exact cget_mem H hne i
  by_cases hsDeq : (p.x - (cget H i).x) * ((cget H (i + 1)).x - (cget H i).x) +
      (p.y - (cget H i).y) * ((cget H (i + 1)).y - (cget H i).y) =
      distSq (cget H i) (cget H (i + 1))
  · left
    rw [hsDeq] at hdx hdy
    have hx : p.x = (cget H (i + 1)).x := by
      have h := mul_left_cancel₀ (ne_of_gt hD) hdx
      omega
    have hy : p.y = (cget H (i + 1)).y := by
      have h := mul_left_cancel₀ (ne_of_gt hD) hdy
      omega
    have : p = cget H (i + 1) := Pt.ext_xy p (cget H (i + 1)) hx hy
    rw [this]
    exact cget_mem H hne (i + 1)
  · right
    have hsb : StrictlyBetween (cget H i) (cget H (i + 1)) p :=
      ⟨hc0, lt_of_le_of_ne hsnn (Ne.symm hs0), lt_of_le_of_ne hsub hsDeq⟩
    exact (mem_edgePointsOfPolygon_iff H (by omega) p).mpr
      ⟨i, hi, (mem_latticePointsOnSegment_iff _ _ hab p).mpr hsb⟩

end TS

namespace TS

/-- C4: for a non-degenerate hull `H` (at least 3 vertices in strictly
convex counter-clockwise position) and any visible window `W`, the hull
vertices, the points of `edgePointsOfPolygon H`, and the points satisfying
`isPointInsidePolygon` are pairwise disjoint; each of the three classes
lies in the closed region bounded by `H`; and every visible point is a
hull vertex, an edge lattice point, strictly inside, or outside the
closure — in particular a hull vertex is never classified as interior. -/
theorem C4_partition (H W : List Pt) (hcp : CCWConvexPosition H) :
    (∀ p ∈ H, isPointInsidePolygon p H = false ∧ p ∉ edgePointsOfPolygon H) ∧
    (∀ q ∈ edgePointsOfPolygon H, isPointInsidePolygon q H = false ∧ q ∉ H) ∧
    (∀ p ∈ H, inClosureOf p H) ∧
    (∀ q ∈ edgePointsOfPolygon H, inClosureOf q H) ∧
    (∀ p : Pt, isPointInsidePolygon p H = true → inClosureOf p H) ∧
    (∀ p ∈ W, p ∈ H ∨ p ∈ edgePointsOfPolygon H ∨
      isPointInsidePolygon p H = true ∨ ¬ inClosureOf p H) := by
  have h3 := hcp.1
  refine ⟨?_, ?_, ?_, ?_, ?_, ?_⟩
  · intro p hp
    obtain ⟨i, hi, rfl⟩ := (mem_cget_iff H p).mp hp
    refine ⟨?_, vertex_not_edgePoint H hcp _ hp⟩
    exact not_inside_of_cross_zero H h3 _ i hi (crossProduct_self_left _ _)
  · intro q hq
    obtain ⟨i, hi, hsb⟩ := edgePoint_strictlyBetween H hcp q hq
    refine ⟨not_inside_of_cross_zero H h3 q i hi hsb.1, ?_⟩
    intro hqH
    exact vertex_not_edgePoint H hcp q hqH hq
  · intro p hp
    obtain ⟨i, hi, rfl⟩ := (mem_cget_iff H p).mp hp
    exact vertex_inClosure H hcp i hi
  · intro q hq
    obtain ⟨i, hi, hsb⟩ := edgePoint_strictlyBetween H hcp q hq
    exact strictlyBetween_inClosure H hcp i hi q hsb
  · exact fun p => inside_inClosure H p
  · intro p _
    by_cases hin : isPointInsidePolygon p H = true
    · exact Or.inr (Or.inr (Or.inl hin))
    · by_cases hcl : inClosureOf p H
      · rcases boundary_coverage H hcp p (Bool.not_eq_true _ ▸ hin) hcl with h | h
        · exact Or.inl h
        · exact Or.inr (Or.inl h)
      · exact Or.inr (Or.inr (Or.inr hcl))

/-- Witness for C4 on the unit right triangle with a one-point window. -/
theorem C4_partition_witness :
    CCWConvexPosition [⟨0, 0⟩, ⟨1, 0⟩, ⟨0, 1⟩] ∧
    ((∀ p ∈ [(⟨0, 0⟩ : Pt), ⟨1, 0⟩, ⟨0, 1⟩],
        isPointInsidePolygon p [⟨0, 0⟩, ⟨1, 0⟩, ⟨0, 1⟩] = false ∧
          p ∉ edgePointsOfPolygon [⟨0, 0⟩, ⟨1, 0⟩, ⟨0, 1⟩]) ∧
    (∀ q ∈ edgePointsOfPolygon [(⟨0, 0⟩ : Pt), ⟨1, 0⟩, ⟨0, 1⟩],
        isPointInsidePolygon q [⟨0, 0⟩, ⟨1, 0⟩, ⟨0, 1⟩] = false ∧
          q ∉ [(⟨0, 0⟩ : Pt), ⟨1, 0⟩, ⟨0, 1⟩]) ∧
    (∀ p ∈ [(⟨0, 0⟩ : Pt), ⟨1, 0⟩, ⟨0, 1⟩], inClosureOf p [⟨0, 0⟩, ⟨1, 0⟩, ⟨0, 1⟩]) ∧
    (∀ q ∈ edgePointsOfPolygon [(⟨0, 0⟩ : Pt), ⟨1, 0⟩, ⟨0, 1⟩],
        inClosureOf q [⟨0, 0⟩, ⟨1, 0⟩, ⟨0, 1⟩]) ∧
    (∀ p : Pt, isPointInsidePolygon p [⟨0, 0⟩, ⟨1, 0⟩, ⟨0, 1⟩] = true →
        inClosureOf p [⟨0, 0⟩, ⟨1, 0⟩, ⟨0, 1⟩]) ∧
    (∀ p ∈ [(⟨0, 0⟩ : Pt)], p ∈ [(⟨0, 0⟩ : Pt), ⟨1, 0⟩, ⟨0, 1⟩] ∨
        p ∈ edgePointsOfPolygon [⟨0, 0⟩, ⟨1, 0⟩, ⟨0, 1⟩] ∨
        isPointInsidePolygon p [⟨0, 0⟩, ⟨1, 0⟩, ⟨0, 1⟩] = true ∨
        ¬ inClosureOf p [⟨0, 0⟩, ⟨1, 0⟩, ⟨0, 1⟩])) :=
  ⟨by decide, C4_partition [⟨0, 0⟩, ⟨1, 0⟩, ⟨0, 1⟩] [⟨0, 0⟩] (by decide)⟩

end TS

namespace TS

/-! The polar comparator is a total preorder; facts about `angClass`. -/

theorem crossV_identity (u v w : Pt) :
    crossV u w * v.y = crossV u v * w.y + crossV v w * u.y := by
  simp only [crossV]
  ring

theorem crossV_swap (u v : Pt) : crossV v u = -crossV u v := by
  simp only [crossV]
  ring

theorem angClass_cases (u : Pt) :
    angClass u = 0 ∧ u.y < 0 ∨
      angClass u = 1 ∧ u.y = 0 ∧ 0 ≤ u.x ∨
      angClass u = 2 ∧ 0 < u.y ∨
      angClass u = 3 ∧ u.y = 0 ∧ u.x < 0 := by
  unfold angClass
  split_ifs with h1 h2 h3
  · exact Or.inl ⟨rfl, h1⟩
  · exact Or.inr (Or.inl ⟨rfl, h2⟩)
  · exact Or.inr (Or.inr (Or.inl ⟨rfl, h3⟩))
  · refine Or.inr (Or.inr (Or.inr ⟨rfl, by omega, by omega⟩))

theorem sameClass_y (u v : Pt) (h : angClass u = angClass v) :
    u.y = 0 ∧ v.y = 0 ∨ 0 < u.y ∧ 0 < v.y ∨ u.y < 0 ∧ v.y < 0 := by
  rcases angClass_cases u with ⟨h1, h2⟩ | ⟨h1, h2, h3⟩ | ⟨h1, h2⟩ | ⟨h1, h2, h3⟩ <;>
    rcases angClass_cases v with ⟨g1, g2⟩ | ⟨g1, g2, g3⟩ | ⟨g1, g2⟩ | ⟨g1, g2, g3⟩ <;>
    omega

theorem sameClass_cross_y_zero (u v : Pt) (h : angClass u = angClass v)
    (hy : u.y = 0) : crossV u v = 0 := by
  rcases sameClass_y u v h with ⟨h1, h2⟩ | ⟨h1, h2⟩ | ⟨h1, h2⟩
  · simp [crossV, h1, h2]
  · omega
  · omega

theorem crossV_pos_nonneg_trans (u v w : Pt) (hc1 : angClass u = angClass v)
    (hc2 : angClass v = angClass w) (h1 : 0 < crossV u v) (h2 : 0 ≤ crossV v w) :
    0 < crossV u w := by
  have hid := crossV_identity u v w
  rcases sameClass_y u v hc1 with ⟨huy, hvy⟩ | ⟨huy, hvy⟩ | ⟨huy, hvy⟩
  · rw [sameClass_cross_y_zero u v hc1 huy] at h1
    exact absurd h1 (lt_irrefl 0)
  · have hwy : 0 < w.y := by
      rcases sameClass_y v w hc2 with ⟨g1, g2⟩ | ⟨g1, g2⟩ | ⟨g1, g2⟩ <;> omega
    have hA : 0 < crossV u v * w.y := mul_pos h1 hwy
    have hB : 0 ≤ crossV v w * u.y := mul_nonneg h2 huy.le
    have hP : 0 < crossV u w * v.y := by linarith
    rcases mul_pos_iff.mp hP with ⟨hp, _⟩ | ⟨_, hneg⟩
    · exact hp
    · omega
  · have hwy : w.y < 0 := by
      rcases sameClass_y v w hc2 with ⟨g1, g2⟩ | ⟨g1, g2⟩ | ⟨g1, g2⟩ <;> omega
    have hA : crossV u v * w.y < 0 := mul_neg_of_pos_of_neg h1 hwy
    have hB : crossV v w * u.y ≤ 0 := mul_nonpos_iff.mpr (Or.inl ⟨h2, huy.le⟩)
    have hP : crossV u w * v.y < 0 := by linarith
    rcases mul_neg_iff.mp hP with ⟨hp, _⟩ | ⟨_, hpos⟩
    · exact hp
    · omega

theorem crossV_nonneg_pos_trans (u v w : Pt) (hc1 : angClass u = angClass v)
    (hc2 : angClass v = angClass w) (h1 : 0 ≤ crossV u v) (h2 : 0 < crossV v w) :
    0 < crossV u w := by
  have hid := crossV_identity u v w
  rcases sameClass_y v w hc2 with ⟨hvy, hwy⟩ | ⟨hvy, hwy⟩ | ⟨hvy, hwy⟩
  · rw [sameClass_cross_y_zero v w hc2 hvy] at h2
    exact absurd h2 (lt_irrefl 0)
  · have huy : 0 < u.y := by
      rcases sameClass_y u v hc1 with ⟨g1, g2⟩ | ⟨g1, g2⟩ | ⟨g1, g2⟩ <;> omega
    have hA : 0 ≤ crossV u v * w.y := mul_nonneg h1 hwy.le
    have hB : 0 < crossV v w * u.y := mul_pos h2 huy
    have hP : 0 < crossV u w * v.y := by linarith
    rcases mul_pos_iff.mp hP with ⟨hp, _⟩ | ⟨_, hneg⟩
    · exact hp
    · omega
  · have huy : u.y < 0 := by
      rcases sameClass_y u v hc1 with ⟨g1, g2⟩ | ⟨g1, g2⟩ | ⟨g1, g2⟩ <;> omega
    have hA : crossV u v * w.y ≤ 0 := mul_nonpos_iff.mpr (Or.inl ⟨h1, hwy.le⟩)
    have hB : crossV v w * u.y < 0 := mul_neg_of_pos_of_neg h2 huy
    have hP : crossV u w * v.y < 0 := by linarith
    rcases mul_neg_iff.mp hP with ⟨hp, _⟩ | ⟨_, hpos⟩
    · exact hp
    · omega

theorem crossV_zero_zero_trans (u v w : Pt) (hc1 : angClass u = angClass v)
    (hc2 : angClass v = angClass w) (h1 : crossV u v = 0) (h2 : crossV v w = 0) :
    crossV u w = 0 := by
  have hid := crossV_identity u v w
  rcases sameClass_y u v hc1 with ⟨huy, hvy⟩ | ⟨huy, hvy⟩ | ⟨huy, hvy⟩
  · exact sameClass_cross_y_zero u w (hc1.trans hc2) huy
  · have h : crossV u w * v.y = 0 := by rw [hid, h1, h2]; ring
    rcases mul_eq_zero.mp h with h | h
    · exact h
    · omega
  · have h : crossV u w * v.y = 0 := by rw [hid, h1, h2]; ring
    rcases mul_eq_zero.mp h with h | h
    · exact h
    · omega

theorem angLt_trans (u v w : Pt) (h1 : angLt u v) (h2 : angLt v w) : angLt u w := by
  rcases h1 with h1 | ⟨hc1, hx1⟩
  · rcases h2 with h2 | ⟨hc2, hx2⟩
    · exact Or.inl (h1.trans h2)
    · exact Or.inl (by omega)
  · rcases h2 with h2 | ⟨hc2, hx2⟩
    · exact Or.inl (by omega)
    · exact Or.inr ⟨hc1.trans hc2, crossV_pos_nonneg_trans u v w hc1 hc2 hx1 hx2.le⟩

theorem angLt_angEq_trans (u v w : Pt) (h1 : angLt u v) (h2 : angEq v w) : angLt u w := by
  rcases h1 with h1 | ⟨hc1, hx1⟩
  · exact Or.inl (by have := h2.1; omega)
  · exact Or.inr ⟨hc1.trans h2.1, crossV_pos_nonneg_trans u v w hc1 h2.1 hx1 h2.2.ge⟩

theorem angEq_angLt_trans (u v w : Pt) (h1 : angEq u v) (h2 : angLt v w) : angLt u w := by
  rcases h2 with h2 | ⟨hc2, hx2⟩
  · exact Or.inl (by have := h1.1; omega)
  · exact Or.inr ⟨h1.1.trans hc2, crossV_nonneg_pos_trans u v w h1.1 hc2 h1.2.ge hx2⟩

theorem angEq_trans (u v w : Pt) (h1 : angEq u v) (h2 : angEq v w) : angEq u w :=
  ⟨h1.1.trans h2.1, crossV_zero_zero_trans u v w h1.1 h2.1 h1.2 h2.2⟩

theorem polarLe_trans (A : Pt) (a b c : Pt) (h1 : polarLe A a b) (h2 : polarLe A b c) :
    polarLe A a c := by
  rcases h1 with h1 | ⟨h1, hd1⟩
  · rcases h2 with h2 | ⟨h2, hd2⟩
    · exact Or.inl (angLt_trans _ _ _ h1 h2)
    · exact Or.inl (angLt_angEq_trans _ _ _ h1 h2)
  · rcases h2 with h2 | ⟨h2, hd2⟩
    · exact Or.inl (angEq_angLt_trans _ _ _ h1 h2)
    · exact Or.inr ⟨angEq_trans _ _ _ h1 h2, hd1.trans hd2⟩

theorem polarLe_total (A : Pt) (a b : Pt) : polarLe A a b ∨ polarLe A b a := by
  rcases Nat.lt_trichotomy (angClass (ptSub a A)) (angClass (ptSub b A)) with h | h | h
  · exact Or.inl (Or.inl (Or.inl h))
  · rcases lt_trichotomy 0 (crossV (ptSub a A) (ptSub b A)) with hx | hx | hx
    · exact Or.inl (Or.inl (Or.inr ⟨h, hx⟩))
    · rcases le_total (distSq A a) (distSq A b) with hd | hd
      · exact Or.inl (Or.inr ⟨⟨h, hx.symm⟩, hd⟩)
      · refine Or.inr (Or.inr ⟨⟨h.symm, ?_⟩, hd⟩)
        rw [crossV_swap, ← hx]
        ring
    · refine Or.inr (Or.inl (Or.inr ⟨h.symm, ?_⟩))
      rw [crossV_swap]
      omega
  · exact Or.inr (Or.inl (Or.inl h))

end TS

namespace TS

/-! The anchor scan returns a lexicographically minimal point. -/

theorem lexLe_trans (a b c : Pt) (h1 : lexLe a b) (h2 : lexLe b c) : lexLe a c := by
  unfold lexLe at *
  omega

theorem anchorStep_lexLe_left (acc p : Pt) : lexLe (anchorStep acc p) acc := by
  unfold anchorStep
  split_ifs with h
  · unfold lexLe
    omega
  · unfold lexLe
    omega

theorem anchorStep_lexLe_right (acc p : Pt) : lexLe (anchorStep acc p) p := by
  unfold anchorStep
  split_ifs with h
  · unfold lexLe
    omega
  · unfold lexLe
    omega

theorem foldl_anchorStep_min (l : List Pt) : ∀ acc : Pt,
    lexLe (l.foldl anchorStep acc) acc ∧ ∀ q ∈ l, lexLe (l.foldl anchorStep acc) q := by
  induction l with
  | nil =>
    intro acc
    exact ⟨Or.inr ⟨rfl, le_refl _⟩, by simp⟩
  | cons p rest ih =>
    intro acc
    rw [List.foldl_cons]
    obtain ⟨h1, h2⟩ := ih (anchorStep acc p)
    refine ⟨lexLe_trans _ _ _ h1 (anchorStep_lexLe_left acc p), ?_⟩
    intro q hq
    rcases List.mem_cons.mp hq with rfl | hq
    · exact lexLe_trans _ _ _ h1 (anchorStep_lexLe_right acc q)
    · exact h2 q hq

theorem findAnchor_min (ps : List Pt) (q : Pt) (hq : q ∈ ps) :
    lexLe (findAnchor ps) q :=
  (foldl_anchorStep_min ps ps.headI).2 q hq

theorem foldl_anchorStep_mem (l : List Pt) : ∀ acc : Pt,
    l.foldl anchorStep acc = acc ∨ l.foldl anchorStep acc ∈ l := by
  induction l with
  | nil => exact fun acc => Or.inl rfl
  | cons p rest ih =>
    intro acc
    rw [List.foldl_cons]
    rcases ih (anchorStep acc p) with h | h
    · rw [h]
      unfold anchorStep
      split_ifs with hc
      · exact Or.inr (List.mem_cons_self _ _)
      · exact Or.inl rfl
    · exact Or.inr (List.mem_cons_of_mem _ h)

theorem findAnchor_mem (ps : List Pt) (hps : ps ≠ []) : findAnchor ps ∈ ps := by
  rcases foldl_anchorStep_mem ps ps.headI with h | h
  · rw [findAnchor, h]
    cases ps with
    | nil => exact absurd rfl hps
    | cons p rest => exact List.mem_cons_self _ _
  · exact h

theorem upperVec_of_lexLe (A q : Pt) (h : lexLe A q) : UpperVec (ptSub q A) := by
  unfold lexLe at h
  unfold UpperVec ptSub
  constructor
  · simp only
    omega
  · simp only
    omega

/-! The fan decomposition of the shoelace area. -/

theorem path_fan (x : Pt) : ∀ (z : List Pt) (h : Pt),
    (((h :: z).zip (z ++ [x])).map fun pr => pr.1.x * pr.2.y - pr.1.y * pr.2.x).sum
      = fanSum x (h :: z) + (h.x * x.y - h.y * x.x) := by
  intro z
  induction z with
  | nil =>
    intro h
    simp [fanSum]
  | cons y zs ih =>
    intro h
    rw [show (h :: y :: zs).zip ((y :: zs) ++ [x]) =
      (h, y) :: ((y :: zs).zip (zs ++ [x])) by simp]
    rw [List.map_cons, List.sum_cons, ih y]
    show h.x * y.y - h.y * y.x + (fanSum x (y :: zs) + (y.x * x.y - y.y * x.x)) =
      crossProduct x h y + fanSum x (y :: zs) + (h.x * x.y - h.y * x.x)
    simp only [crossProduct]
    ring

theorem doubledSignedArea_cons (x : Pt) (ys : List Pt) :
    doubledSignedArea (x :: ys) = fanSum x (x :: ys) := by
  unfold doubledSignedArea cyclePairs
  have hrot : (x :: ys).rotate 1 = ys ++ [x] := by
    rw [List.rotate_eq_drop_append_take (by simp)]
    simp
  rw [hrot, path_fan x ys x]
  have : x.x * x.y - x.y * x.x = 0 := by ring
  rw [this, add_zero]

theorem fanSum_self_cons (x : Pt) (ys : List Pt) :
    fanSum x (x :: ys) = fanSum x ys := by
  cases ys with
  | nil => rfl
  | cons y zs =>
    show crossProduct x x y + fanSum x (y :: zs) = fanSum x (y :: zs)
    rw [crossProduct_same, zero_add]

theorem fanSum_nonneg (x : Pt) : ∀ ys : List Pt,
    List.Chain' (fun a b => 0 < crossProduct x a b) ys → 0 ≤ fanSum x ys := by
  intro ys
  induction ys with
  | nil => intro h; exact le_refl 0
  | cons y zs ih =>
    intro h
    cases zs with
    | nil => exact le_refl 0
    | cons z zs' =>
      have h1 : 0 < crossProduct x y z := (List.chain'_cons.mp h).1
      have h2 := ih (List.chain'_cons.mp h).2
      show 0 ≤ crossProduct x y z + fanSum x (z :: zs')
      exact add_nonneg h1.le h2

theorem fanSum_pos (x : Pt) (ys : List Pt)
    (hch : List.Chain' (fun a b => 0 < crossProduct x a b) ys)
    (hlen : 2 ≤ ys.length) : 0 < fanSum x ys := by
  cases ys with
  | nil => simp at hlen
  | cons y zs =>
    cases zs with
    | nil => simp at hlen
    | cons z zs' =>
      have h1 : 0 < crossProduct x y z := (List.chain'_cons.mp hch).1
      have h2 := fanSum_nonneg x (z :: zs') (List.chain'_cons.mp hch).2
      show 0 < crossProduct x y z + fanSum x (z :: zs')
      exact add_pos_of_pos_of_nonneg h1 h2

end TS

namespace TS

theorem UpperVec_angClass (v : Pt) (h : UpperVec v) :
    angClass v = 1 ∧ v.y = 0 ∧ 0 ≤ v.x ∨ angClass v = 2 ∧ 0 < v.y := by
  obtain ⟨h1, h2⟩ := h
  rcases angClass_cases v with ⟨g1, g2⟩ | ⟨g1, g2, g3⟩ | ⟨g1, g2⟩ | ⟨g1, g2, g3⟩
  · omega
  · exact Or.inl ⟨g1, g2, g3⟩
  · exact Or.inr ⟨g1, g2⟩
  · have := h2 g2
    omega

/-- The stop condition of the Graham-scan pop loop propagates to the
anchor: if `t` sits on the stack above a point `s` making a strict left
turn from the anchor, the incoming point `p` comes after `t` in the polar
order, and `(s, t, p)` is a strict left turn, then `(A, t, p)` is one
too. -/
theorem push_cross (A s t p : Pt) (hUt : UpperVec (ptSub t A))
    (hUp : UpperVec (ptSub p A)) (h1 : 0 < crossProduct A s t)
    (h2 : 0 < crossProduct s t p) (h3 : polarLe A t p) :
    0 < crossProduct A t p := by
  have h1' : 0 < (s.x - A.x) * (t.y - A.y) - (s.y - A.y) * (t.x - A.x) := h1
  have h2' : 0 < (t.x - s.x) * (p.y - s.y) - (t.y - s.y) * (p.x - s.x) := h2
  show 0 < (t.x - A.x) * (p.y - A.y) - (t.y - A.y) * (p.x - A.x)
  unfold polarLe angLt angEq at h3
  rcases h3 with h3 | ⟨⟨hceq, hcz⟩, hd⟩
  · rcases h3 with hclt | ⟨hceq, hcpos⟩
    · -- strict angle increase across half-plane classes
      rcases UpperVec_angClass _ hUt with ⟨hc1, huy, hux⟩ | ⟨hc2, huy⟩
      · rcases UpperVec_angClass _ hUp with ⟨hc1', hwy, hwx⟩ | ⟨hc2', hwy⟩
        · omega
        · have huy' : t.y - A.y = 0 := huy
          have hux' : 0 ≤ t.x - A.x := hux
          have hwy' : 0 < p.y - A.y := hwy
          have hz1 : (s.x - A.x) * (t.y - A.y) = 0 := by rw [huy']; ring
          have huxpos : 0 < t.x - A.x := by
            have hprod : (s.y - A.y) * (t.x - A.x) < 0 := by linarith
            rcases mul_neg_iff.mp hprod with ⟨q1, q2⟩ | ⟨q1, q2⟩
            · exfalso
              omega
            · exact q2
          have hz2 : (t.y - A.y) * (p.x - A.x) = 0 := by rw [huy']; ring
          linarith [mul_pos huxpos hwy']
      · rcases UpperVec_angClass _ hUp with ⟨hc1', hwy, hwx⟩ | ⟨hc2', hwy⟩
        · omega
        · omega
    · exact hcpos
  · -- polar tie: `p` lies on the ray from the anchor through `t`, at least
    -- as far out, so the pop condition could not have held
    exfalso
    have hcz' : (t.x - A.x) * (p.y - A.y) - (t.y - A.y) * (p.x - A.x) = 0 := hcz
    have hd' : (A.x - t.x) * (A.x - t.x) + (A.y - t.y) * (A.y - t.y) ≤
        (A.x - p.x) * (A.x - p.x) + (A.y - p.y) * (A.y - p.y) := hd
    rcases UpperVec_angClass _ hUt with ⟨hc1, huy, hux⟩ | ⟨hc2, huy⟩
    · -- both on the rightward horizontal ray
      have huy' : t.y - A.y = 0 := huy
      have hux' : 0 ≤ t.x - A.x := hux
      have hw1 : p.y - A.y = 0 ∧ 0 ≤ p.x - A.x := by
        rcases UpperVec_angClass _ hUp with ⟨g1, g2, g3⟩ | ⟨g1, g2⟩
        · exact ⟨g2, g3⟩
        · omega
      obtain ⟨hwy', hwx'⟩ := hw1
      have hz1 : (s.x - A.x) * (t.y - A.y) = 0 := by rw [huy']; ring
      have hsy : s.y - A.y < 0 ∧ 0 < t.x - A.x := by
        have hprod : (s.y - A.y) * (t.x - A.x) < 0 := by linarith
        rcases mul_neg_iff.mp hprod with ⟨q1, q2⟩ | ⟨q1, q2⟩
        · exfalso
          omega
        · exact ⟨q1, q2⟩
      have hxw : t.x - A.x ≤ p.x - A.x := by
        by_contra hcon
        push_neg at hcon
        have hsq := mul_self_lt_mul_self hwx' hcon
        nlinarith
      have hkey : (A.y - s.y) * (t.x - p.x) =
          (t.x - s.x) * (p.y - s.y) - (t.y - s.y) * (p.x - s.x) := by
        linear_combination (-(t.x - s.x)) * hwy' + (p.x - s.x) * huy'
      have hpos : 0 < (A.y - s.y) * (t.x - p.x) := by
        rw [hkey]
        exact h2'
      rcases mul_pos_iff.mp hpos with ⟨q1, q2⟩ | ⟨q1, q2⟩
      · linarith
      · linarith [hsy.1]
    · -- both strictly above the anchor line
      have huy' : 0 < t.y - A.y := huy
      have hwy' : 0 < p.y - A.y := by
        rcases UpperVec_angClass _ hUp with ⟨g1, g2, g3⟩ | ⟨g1, g2⟩
        · omega
        · exact g2
      have e0 : (p.y - A.y) * ((s.x - A.x) * (t.y - A.y) - (s.y - A.y) * (t.x - A.x)) =
          (t.y - A.y) * ((s.x - A.x) * (p.y - A.y) - (s.y - A.y) * (p.x - A.x)) := by
        linear_combination (-(s.y - A.y)) * hcz'
      have hcsw : 0 < (s.x - A.x) * (p.y - A.y) - (s.y - A.y) * (p.x - A.x) := by
        have hA := mul_pos hwy' h1'
        rw [e0] at hA
        rcases mul_pos_iff.mp hA with ⟨q1, q2⟩ | ⟨q1, q2⟩
        · exact q2
        · linarith
      have hdecomp : (t.x - s.x) * (p.y - s.y) - (t.y - s.y) * (p.x - s.x) =
          ((t.x - A.x) * (p.y - A.y) - (t.y - A.y) * (p.x - A.x)) +
            ((s.x - A.x) * (t.y - A.y) - (s.y - A.y) * (t.x - A.x)) -
            ((s.x - A.x) * (p.y - A.y) - (s.y - A.y) * (p.x - A.x)) := by
        ring
      have hdiff : 0 < ((s.x - A.x) * (t.y - A.y) - (s.y - A.y) * (t.x - A.x)) -
          ((s.x - A.x) * (p.y - A.y) - (s.y - A.y) * (p.x - A.x)) := by
        rw [hdecomp, hcz'] at h2'
        linarith
      have hstep3 : 0 < ((t.y - A.y) - (p.y - A.y)) *
          ((s.x - A.x) * (p.y - A.y) - (s.y - A.y) * (p.x - A.x)) := by
        have hmul := mul_pos hwy' hdiff
        linarith [e0, hmul]
      have huyw : (p.y - A.y) < (t.y - A.y) := by
        rcases mul_pos_iff.mp hstep3 with ⟨q1, q2⟩ | ⟨q1, q2⟩
        · linarith
        · linarith
      have e1 : (t.y - A.y) * (t.y - A.y) *
            ((p.x - A.x) * (p.x - A.x) + (p.y - A.y) * (p.y - A.y)) =
          ((t.x - A.x) * (t.x - A.x) + (t.y - A.y) * (t.y - A.y)) *
            ((p.y - A.y) * (p.y - A.y)) := by
        linear_combination (-((t.y - A.y) * (p.x - A.x) + (t.x - A.x) * (p.y - A.y))) * hcz'
      have hd2 : (t.x - A.x) * (t.x - A.x) + (t.y - A.y) * (t.y - A.y) ≤
          (p.x - A.x) * (p.x - A.x) + (p.y - A.y) * (p.y - A.y) := by linarith
      have hM : 0 < (p.x - A.x) * (p.x - A.x) + (p.y - A.y) * (p.y - A.y) := by
        linarith [mul_pos hwy' hwy', mul_self_nonneg (p.x - A.x)]
      have h5 : (t.y - A.y) * (t.y - A.y) *
            ((p.x - A.x) * (p.x - A.x) + (p.y - A.y) * (p.y - A.y)) ≤
          (p.y - A.y) * (p.y - A.y) *
            ((p.x - A.x) * (p.x - A.x) + (p.y - A.y) * (p.y - A.y)) := by
        linarith [e1, mul_le_mul_of_nonneg_right hd2 (mul_self_nonneg (p.y - A.y))]
      have h6 : (t.y - A.y) * (t.y - A.y) ≤ (p.y - A.y) * (p.y - A.y) :=
        le_of_mul_le_mul_right h5 hM
      have h7 : 0 < ((t.y - A.y) - (p.y - A.y)) * ((t.y - A.y) + (p.y - A.y)) :=
        mul_pos (by linarith) (by linarith)
      linarith [h6, h7]

end TS

namespace TS

theorem popStep_nil (p : Pt) : popStep p [] = [] := rfl

theorem popStep_single (p a : Pt) : popStep p [a] = [a] := rfl

theorem popStep_cons (p top secondTop : Pt) (rest : List Pt) :
    popStep p (top :: secondTop :: rest) =
      if crossProduct secondTop top p ≤ 0 then popStep p (secondTop :: rest)
      else top :: secondTop :: rest := rfl

/-- Behaviour of the pop loop on a stack `zs ++ [anchor]` whose non-anchor
part is a strict left-turn chain of points that all come before `p` in the
polar order: the loop pops a suffix, and if anything is left above the
anchor its top makes a strict left turn with `p` as seen from the
anchor. -/
theorem popStep_spec (A p : Pt) (hUp : UpperVec (ptSub p A)) :
    ∀ zs : List Pt,
      List.Chain' (fun x y => 0 < crossProduct A y x) zs →
      (∀ z ∈ zs, polarLe A z p) →
      (∀ z ∈ zs, UpperVec (ptSub z A)) →
      ∃ zs', popStep p (zs ++ [A]) = zs' ++ [A] ∧
        List.Chain' (fun x y => 0 < crossProduct A y x) zs' ∧
        (∀ z ∈ zs', z ∈ zs) ∧
        (zs' = [] ∨ ∃ t ts, zs' = t :: ts ∧ 0 < crossProduct A t p) := by
  intro zs
  induction zs with
  | nil =>
    intro _ _ _
    exact ⟨[], by simp [popStep_single], List.chain'_nil, by simp, Or.inl rfl⟩
  | cons t rest ih =>
    intro hchain hle hU
    cases rest with
    | nil =>
      simp only [List.cons_append, List.nil_append]
      rw [popStep_cons]
      by_cases hc : crossProduct A t p ≤ 0
      · rw [if_pos hc, popStep_single]
        exact ⟨[], rfl, List.chain'_nil, by simp, Or.inl rfl⟩
      · rw [if_neg hc]
        push_neg at hc
        exact ⟨[t], rfl, List.chain'_singleton t, by simp, Or.inr ⟨t, [], rfl, hc⟩⟩
    | cons s rest2 =>
      simp only [List.cons_append]
      rw [popStep_cons]
      by_cases hc : crossProduct s t p ≤ 0
      · rw [if_pos hc]
        obtain ⟨zs', he, hch, hsub, hhead⟩ := ih hchain.tail
          (fun z hz => hle z (List.mem_cons_of_mem _ hz))
          (fun z hz => hU z (List.mem_cons_of_mem _ hz))
        refine ⟨zs', ?_, hch, fun z hz => List.mem_cons_of_mem _ (hsub z hz), hhead⟩
        rw [← he]
        simp [List.cons_append]
      · rw [if_neg hc]
        push_neg at hc
        have h1 : 0 < crossProduct A s t := (List.chain'_cons.mp hchain).1
        have hcross := push_cross A s t p (hU t (List.mem_cons_self _ _)) hUp h1 hc
          (hle t (List.mem_cons_self _ _))
        exact ⟨t :: s :: rest2, by simp [List.cons_append], hchain, fun z hz => hz,
          Or.inr ⟨t, s :: rest2, rfl, hcross⟩⟩

/-- The Graham sweep keeps the stack in the form `zs ++ [anchor]` with the
non-anchor part a strict left-turn chain. -/
theorem scan_chain (A : Pt) : ∀ (l : List Pt) (zs : List Pt),
    List.Pairwise (polarLe A) l →
    (∀ q ∈ l, UpperVec (ptSub q A)) →
    List.Chain' (fun x y => 0 < crossProduct A y x) zs →
    (∀ z ∈ zs, UpperVec (ptSub z A)) →
    (∀ z ∈ zs, ∀ q ∈ l, polarLe A z q) →
    ∃ zs', l.foldl scanStep (zs ++ [A]) = zs' ++ [A] ∧
      List.Chain' (fun x y => 0 < crossProduct A y x) zs' := by
  intro l
  induction l with
  | nil =>
    intro zs _ _ hchain _ _
    exact ⟨zs, rfl, hchain⟩
  | cons p rest ih =>
    intro zs hpw hUq hchain hzU hle
    rw [List.foldl_cons]
    have hUp : UpperVec (ptSub p A) := hUq p (List.mem_cons_self _ _)
    obtain ⟨zs1, he, hch1, hsub1, hhead1⟩ := popStep_spec A p hUp zs hchain
      (fun z hz => hle z hz p (List.mem_cons_self _ _)) hzU
    have hscan : scanStep (zs ++ [A]) p = (p :: zs1) ++ [A] := by
      show p :: popStep p (zs ++ [A]) = (p :: zs1) ++ [A]
      rw [he]
      simp
    rw [hscan]
    refine ih (p :: zs1) (List.pairwise_cons.mp hpw).2
      (fun q hq => hUq q (List.mem_cons_of_mem _ hq)) ?_ ?_ ?_
    · refine List.chain'_cons'.mpr ⟨?_, hch1⟩
      intro y hy
      rcases hhead1 with rfl | ⟨t, ts, rfl, hcross⟩
      · simp at hy
      · simp only [List.head?_cons, Option.mem_def, Option.some.injEq] at hy
        rw [← hy]
        exact hcross
    · intro z hz
      rcases List.mem_cons.mp hz with rfl | hz
      · exact hUp
      · exact hzU z (hsub1 z hz)
    · intro z hz q hq
      rcases List.mem_cons.mp hz with rfl | hz
      · exact (List.pairwise_cons.mp hpw).1 q hq
      · exact hle z (hsub1 z hz) q (List.mem_cons_of_mem _ hq)

end TS

namespace TS

/-- C5: whenever `convexHull` returns at least 3 vertices, the returned
polygon has strictly positive doubled signed (shoelace) area, i.e. it is
listed in counter-clockwise order. -/
theorem C5_orientation (ps : List Pt) (h3 : 3 ≤ (convexHull ps).length) :
    0 < doubledSignedArea (convexHull ps) := by
  unfold convexHull at h3 ⊢
  by_cases hlen : ps.length < 3
  · rw [if_pos hlen] at h3
    exact absurd h3 (by omega)
  · rw [if_neg hlen] at h3 ⊢
    have h3' : 3 ≤ ((List.insertionSort (polarLe (findAnchor ps))
        (ps.erase (findAnchor ps))).foldl scanStep [findAnchor ps]).reverse.length := h3
    show 0 < doubledSignedArea ((List.insertionSort (polarLe (findAnchor ps))
        (ps.erase (findAnchor ps))).foldl scanStep [findAnchor ps]).reverse
    have hps_ne : ps ≠ [] := List.length_pos.mp (by omega)
    have hmem : ∀ q ∈ List.insertionSort (polarLe (findAnchor ps))
        (ps.erase (findAnchor ps)), q ∈ ps := by
      intro q hq
      exact List.erase_subset _ _
        ((List.perm_insertionSort (polarLe (findAnchor ps)) _).mem_iff.mp hq)
    have hUq : ∀ q ∈ List.insertionSort (polarLe (findAnchor ps))
        (ps.erase (findAnchor ps)), UpperVec (ptSub q (findAnchor ps)) :=
      fun q hq => upperVec_of_lexLe _ q (findAnchor_min ps q (hmem q hq))
    have hpw : List.Pairwise (polarLe (findAnchor ps))
        (List.insertionSort (polarLe (findAnchor ps)) (ps.erase (findAnchor ps))) := by
      haveI : IsTotal Pt (polarLe (findAnchor ps)) := ⟨polarLe_total _⟩
      haveI : IsTrans Pt (polarLe (findAnchor ps)) := ⟨polarLe_trans _⟩
      exact List.sorted_insertionSort (polarLe (findAnchor ps)) _
    obtain ⟨zs', he, hch⟩ := scan_chain (findAnchor ps)
      (List.insertionSort (polarLe (findAnchor ps)) (ps.erase (findAnchor ps))) []
      hpw hUq List.chain'_nil (by simp) (by simp)
    have he' : (List.insertionSort (polarLe (findAnchor ps))
          (ps.erase (findAnchor ps))).foldl scanStep [findAnchor ps] =
        zs' ++ [findAnchor ps] := he
    rw [he'] at h3' ⊢
    rw [List.reverse_append, List.reverse_singleton, List.singleton_append] at h3' ⊢
    rw [doubledSignedArea_cons, fanSum_self_cons]
    refine fanSum_pos (findAnchor ps) zs'.reverse ?_ ?_
    · exact List.chain'_reverse.mpr hch
    · simp only [List.length_cons, List.length_reverse] at h3'
      simp only [List.length_reverse]
      omega

/-- Witness for C5 on the unit right triangle. -/
theorem C5_orientation_witness :
    3 ≤ (convexHull [(⟨0, 0⟩ : Pt), ⟨1, 0⟩, ⟨0, 1⟩]).length ∧
      0 < doubledSignedArea (convexHull [(⟨0, 0⟩ : Pt), ⟨1, 0⟩, ⟨0, 1⟩]) :=
  ⟨by decide, C5_orientation [⟨0, 0⟩, ⟨1, 0⟩, ⟨0, 1⟩] (by decide)⟩

end TS

open TS hiding convexHull

/-! Rational convex-hull membership facts used for the hull-correctness
claim (stated outside the `TS` namespace so that `convexHull` refers to
Mathlib's convex hull; the program's function is `TS.convexHull`). -/

theorem toQ2_mem_q2Set (l : List Pt) (p : Pt) (hp : p ∈ l) : toQ2 p ∈ q2Set l :=
  ⟨p, hp, rfl⟩

theorem q2Set_subset (l l' : List Pt) (h : ∀ p ∈ l, p ∈ l') : q2Set l ⊆ q2Set l' := by
  rintro z ⟨p, hp, rfl⟩
  exact ⟨p, h p hp, rfl⟩

theorem distSq_nonneg (a b : Pt) : 0 ≤ distSq a b := by
  show 0 ≤ (a.x - b.x) * (a.x - b.x) + (a.y - b.y) * (a.y - b.y)
  exact add_nonneg (mul_self_nonneg _) (mul_self_nonneg _)

theorem distSq_eq_zero (a b : Pt) (h : distSq a b = 0) : a = b := by
  have h' : (a.x - b.x) * (a.x - b.x) + (a.y - b.y) * (a.y - b.y) = 0 := h
  have h1 : (a.x - b.x) * (a.x - b.x) = 0 := by
    nlinarith [mul_self_nonneg (a.x - b.x), mul_self_nonneg (a.y - b.y)]
  have h2 : (a.y - b.y) * (a.y - b.y) = 0 := by
    nlinarith [mul_self_nonneg (a.x - b.x), mul_self_nonneg (a.y - b.y)]
  have hx := mul_self_eq_zero.mp h1
  have hy := mul_self_eq_zero.mp h2
  exact Pt.ext_xy a b (by omega) (by omega)

/-- The polar order only moves counter-clockwise: a later point is never
strictly clockwise of an earlier one, seen from the anchor. -/
theorem polarLe_nonneg_cross (A t p : Pt) (hUt : UpperVec (ptSub t A))
    (hUp : UpperVec (ptSub p A)) (h : polarLe A t p) : 0 ≤ crossProduct A t p := by
  have hcross : crossProduct A t p = crossV (ptSub t A) (ptSub p A) := rfl
  rw [hcross]
  unfold polarLe angLt angEq at h
  rcases h with h | ⟨⟨hc, hz⟩, hd⟩
  · rcases h with hclt | ⟨hceq, hpos⟩
    · rcases UpperVec_angClass _ hUt with ⟨hc1, huy, hux⟩ | ⟨hc2, huy⟩
      · rcases UpperVec_angClass _ hUp with ⟨g1, g2, g3⟩ | ⟨g1, g2⟩
        · omega
        · have he : crossV (ptSub t A) (ptSub p A) = (ptSub t A).x * (ptSub p A).y := by
            simp only [crossV]
            rw [huy]
            ring
          rw [he]
          exact mul_nonneg hux g2.le
      · rcases UpperVec_angClass _ hUp with ⟨g1, g2, g3⟩ | ⟨g1, g2⟩ <;> omega
    · exact hpos.le
  · exact le_of_eq hz.symm

theorem toQ2_fst (p : Pt) : (toQ2 p).1 = (p.x : ℚ) := rfl

theorem toQ2_snd (p : Pt) : (toQ2 p).2 = (p.y : ℚ) := rfl

/-- Barycentric membership: a point whose coordinates satisfy a
three-term affine combination with nonnegative weights, at least one
strictly positive, lies in the convex hull of the three reference
points. -/
theorem bary3_mem (P Q R T : ℚ × ℚ) (a b c : ℚ)
    (ha0 : 0 ≤ a) (hb0 : 0 ≤ b) (hc0 : 0 < c)
    (hx : (a + b + c) * T.1 = a * P.1 + b * Q.1 + c * R.1)
    (hy : (a + b + c) * T.2 = a * P.2 + b * Q.2 + c * R.2) :
    T ∈ convexHull ℚ ({P, Q, R} : Set (ℚ × ℚ)) := by
  have hD : 0 < a + b + c := by linarith
  have hw0 : ∀ i ∈ (Finset.univ : Finset (Fin 3)), 0 ≤ (![a, b, c] : Fin 3 → ℚ) i := by
    intro i _
    fin_cases i
    · simpa using ha0
    · simpa using hb0
    · simpa using hc0.le
  have hws : 0 < ∑ i ∈ (Finset.univ : Finset (Fin 3)), (![a, b, c] : Fin 3 → ℚ) i := by
    simp [Fin.sum_univ_three]
    linarith
  have hz : ∀ i ∈ (Finset.univ : Finset (Fin 3)),
      (![P, Q, R] : Fin 3 → ℚ × ℚ) i ∈ ({P, Q, R} : Set (ℚ × ℚ)) := by
    intro i _
    fin_cases i <;> simp
  have hcm := Finset.centerMass_mem_convexHull _ hw0 hws hz
  have heq : (Finset.univ : Finset (Fin 3)).centerMass ![a, b, c] ![P, Q, R] = T := by
    rw [Finset.centerMass]
    simp only [Fin.sum_univ_three, Matrix.cons_val_zero, Matrix.cons_val_one,
      Matrix.head_cons, Matrix.cons_val_two, Matrix.tail_cons]
    rw [inv_smul_eq_iff₀ hD.ne']
    rw [Prod.ext_iff]
    constructor
    · simp only [Prod.fst_add, Prod.smul_fst, smul_eq_mul]
      linarith
    · simp only [Prod.snd_add, Prod.smul_snd, smul_eq_mul]
      linarith
  rw [heq] at hcm
  exact hcm

/-- A popped point lies in the triangle spanned by the anchor, the stack
point below it, and the incoming point. -/
theorem popped_mem_triangle (A s t p : Pt)
    (hw1 : 0 < crossProduct A s t) (hw2 : 0 ≤ crossProduct A t p)
    (hw3 : crossProduct s t p ≤ 0) :
    toQ2 t ∈ convexHull ℚ ({toQ2 A, toQ2 s, toQ2 p} : Set (ℚ × ℚ)) := by
  refine bary3_mem (toQ2 A) (toQ2 s) (toQ2 p) (toQ2 t)
    ((-(crossProduct s t p) : ℤ) : ℚ) ((crossProduct A t p : ℤ) : ℚ)
    ((crossProduct A s t : ℤ) : ℚ) ?_ ?_ ?_ ?_ ?_
  · exact_mod_cast neg_nonneg.mpr hw3
  · exact_mod_cast hw2
  · exact_mod_cast hw1
  · simp only [toQ2_fst]
    unfold TS.crossProduct
    push_cast
    ring
  · simp only [toQ2_snd]
    unfold TS.crossProduct
    push_cast
    ring

/-- Two-point variant of `bary3_mem`: segment membership from an affine
combination with nonnegative weights of positive sum. -/
theorem bary2_mem (P R T : ℚ × ℚ) (a c : ℚ)
    (ha0 : 0 ≤ a) (hc0 : 0 ≤ c) (hsum : 0 < a + c)
    (hx : (a + c) * T.1 = a * P.1 + c * R.1)
    (hy : (a + c) * T.2 = a * P.2 + c * R.2) :
    T ∈ convexHull ℚ ({P, R} : Set (ℚ × ℚ)) := by
  have hw0 : ∀ i ∈ (Finset.univ : Finset (Fin 2)), 0 ≤ (![a, c] : Fin 2 → ℚ) i := by
    intro i _
    fin_cases i
    · simpa using ha0
    · simpa using hc0
  have hws : 0 < ∑ i ∈ (Finset.univ : Finset (Fin 2)), (![a, c] : Fin 2 → ℚ) i := by
    simp [Fin.sum_univ_two]
    linarith
  have hz : ∀ i ∈ (Finset.univ : Finset (Fin 2)),
      (![P, R] : Fin 2 → ℚ × ℚ) i ∈ ({P, R} : Set (ℚ × ℚ)) := by
    intro i _
    fin_cases i <;> simp
  have hcm := Finset.centerMass_mem_convexHull _ hw0 hws hz
  have heq : (Finset.univ : Finset (Fin 2)).centerMass ![a, c] ![P, R] = T := by
    rw [Finset.centerMass]
    simp only [Fin.sum_univ_two, Matrix.cons_val_zero, Matrix.cons_val_one, Matrix.head_cons]
    rw [inv_smul_eq_iff₀ hsum.ne']
    rw [Prod.ext_iff]
    constructor
    · simp only [Prod.fst_add, Prod.smul_fst, smul_eq_mul]
      linarith
    · simp only [Prod.snd_add, Prod.smul_snd, smul_eq_mul]
      linarith
  rw [heq] at hcm
  exact hcm

/-- A point that ties in polar angle with a later point (exactly collinear
with the anchor, by the integer model of the tolerance) and is not farther
from the anchor lies on the rational segment between anchor and the later
point. -/
theorem tie_mem_segment (A t p : Pt) (hUt : UpperVec (ptSub t A))
    (hUp : UpperVec (ptSub p A)) (hord : polarLe A t p)
    (hcol : crossProduct A t p = 0) :
    toQ2 t ∈ convexHull ℚ ({toQ2 A, toQ2 p} : Set (ℚ × ℚ)) := by
  by_cases htA : t = A
  · rw [htA]
    exact subset_convexHull ℚ _ (by simp)
  by_cases hpA : p = A
  · exfalso
    rw [hpA] at hord
    have hA0 : angClass (ptSub A A) = 1 := by
      simp [angClass, ptSub]
    have hcv : crossV (ptSub t A) (ptSub A A) = 0 := by
      simp [crossV, ptSub]
    unfold polarLe angLt angEq at hord
    rcases hord with h | ⟨⟨hc, hz⟩, hd⟩
    · rcases h with hclt | ⟨hceq, hpos⟩
      · rcases UpperVec_angClass _ hUt with ⟨g1, g2, g3⟩ | ⟨g1, g2⟩ <;> omega
      · omega
    · have h0 : distSq A A = 0 := by
        simp [distSq]
      exact htA (distSq_eq_zero A t (le_antisymm (by omega) (distSq_nonneg A t))).symm
  have hcol' : (t.x - A.x) * (p.y - A.y) - (t.y - A.y) * (p.x - A.x) = 0 := hcol
  have hD : 0 < distSq A p := distSq_pos A p (fun h => hpA h.symm)
  have hd : distSq A t ≤ distSq A p := by
    unfold polarLe angLt angEq at hord
    rcases hord with h | ⟨_, hd⟩
    · exfalso
      rcases h with hclt | ⟨hceq, hpos⟩
      · rcases UpperVec_angClass _ hUt with ⟨g1, g2, g3⟩ | ⟨g1, g2⟩
        · rcases UpperVec_angClass _ hUp with ⟨k1, k2, k3⟩ | ⟨k1, k2⟩
          · omega
          · have g2' : t.y - A.y = 0 := g2
            have k2' : 0 < (p.y - A.y) := k2
            have hz : (t.y - A.y) * (p.x - A.x) = 0 := by rw [g2']; ring
            have hzz : (t.x - A.x) * (p.y - A.y) = 0 := by linarith
            rcases mul_eq_zero.mp hzz with h | h
            · exact htA (Pt.ext_xy t A (by omega) (by omega))
            · omega
        · rcases UpperVec_angClass _ hUp with ⟨k1, k2, k3⟩ | ⟨k1, k2⟩ <;> omega
      · have he : crossV (ptSub t A) (ptSub p A) = crossProduct A t p := rfl
        rw [he] at hpos
        omega
    · exact hd
  have hcol2 : crossProduct A p t = 0 := by
    show (p.x - A.x) * (t.y - A.y) - (p.y - A.y) * (t.x - A.x) = 0
    linarith
  obtain ⟨hdx, hdy⟩ := collinear_decomp A p t hcol2
  have hs_bounds : 0 ≤ (t.x - A.x) * (p.x - A.x) + (t.y - A.y) * (p.y - A.y) ∧
      (t.x - A.x) * (p.x - A.x) + (t.y - A.y) * (p.y - A.y) ≤ distSq A p := by
    rcases UpperVec_angClass _ hUt with ⟨g1, g2, g3⟩ | ⟨g1, g2⟩
    · -- t on the horizontal ray
      have g2' : t.y - A.y = 0 := g2
      have g3' : (0 : Int) ≤ t.x - A.x := g3
      have hx_pos : 0 < t.x - A.x := by
        rcases eq_or_lt_of_le g3' with h | h
        · exact absurd (Pt.ext_xy t A (by omega) (by omega)) htA
        · exact h
      have hz : (t.y - A.y) * (p.x - A.x) = 0 := by rw [g2']; ring
      have hzz : (t.x - A.x) * (p.y - A.y) = 0 := by linarith
      have hpy0 : p.y - A.y = 0 := by
        rcases mul_eq_zero.mp hzz with h | h
        · omega
        · exact h
      have hpx0 : (0 : Int) ≤ p.x - A.x := by
        have := hUp.2
        exact this hpy0
      have hpx_pos : 0 < p.x - A.x := by
        rcases eq_or_lt_of_le hpx0 with h | h
        · exact absurd (Pt.ext_xy p A (by omega) (by omega)) hpA
        · exact h
      have hyzero : (t.y - A.y) * (p.y - A.y) = 0 := by rw [g2']; ring
      have hd' : (A.x - t.x) * (A.x - t.x) + (A.y - t.y) * (A.y - t.y) ≤
          (A.x - p.x) * (A.x - p.x) + (A.y - p.y) * (A.y - p.y) := hd
      have hty0 : A.y - t.y = 0 := by omega
      have hpy0' : A.y - p.y = 0 := by omega
      have hty2 : (A.y - t.y) * (A.y - t.y) = 0 := by rw [hty0]; ring
      have hpy2 : (A.y - p.y) * (A.y - p.y) = 0 := by rw [hpy0']; ring
      have hle : t.x - A.x ≤ p.x - A.x := by
        by_contra hcon
        push_neg at hcon
        have hsq := mul_self_lt_mul_self (le_of_lt hpx_pos) hcon
        linarith [hty2, hpy2]
      constructor
      · linarith [mul_nonneg g3' hpx0, hyzero]
      · show (t.x - A.x) * (p.x - A.x) + (t.y - A.y) * (p.y - A.y) ≤
          (A.x - p.x) * (A.x - p.x) + (A.y - p.y) * (A.y - p.y)
        linarith [mul_le_mul_of_nonneg_right hle hpx0, hyzero, hpy2]
    · -- t strictly above the anchor line
      have g2' : 0 < t.y - A.y := g2
      have hpy : 0 < p.y - A.y := by
        rcases eq_or_lt_of_le hUp.1 with h | h
        · exfalso
          have hwy0 : p.y - A.y = 0 := h.symm
          have hz1 : (t.x - A.x) * (p.y - A.y) = 0 := by rw [hwy0]; ring
          have hz2 : (t.y - A.y) * (p.x - A.x) = 0 := by linarith
          rcases mul_eq_zero.mp hz2 with h' | h'
          · omega
          · exact hpA (Pt.ext_xy p A (by omega) (by omega))
        · exact h
      have e2 : ((t.x - A.x) * (p.x - A.x) + (t.y - A.y) * (p.y - A.y)) * (p.y - A.y) =
          (t.y - A.y) * distSq A p := by
        unfold distSq
        linear_combination (p.x - A.x) * hcol'
      have hs0 : 0 ≤ (t.x - A.x) * (p.x - A.x) + (t.y - A.y) * (p.y - A.y) := by
        have hpos : 0 < (t.y - A.y) * distSq A p := mul_pos g2' hD
        rw [← e2] at hpos
        rcases mul_pos_iff.mp hpos with ⟨q1, q2⟩ | ⟨q1, q2⟩
        · exact q1.le
        · omega
      have e1 : (t.y - A.y) * (t.y - A.y) * distSq A p =
          distSq A t * ((p.y - A.y) * (p.y - A.y)) := by
        unfold distSq
        linear_combination (-((t.x - A.x) * (p.y - A.y) + (t.y - A.y) * (p.x - A.x))) * hcol'
      have h5 : (t.y - A.y) * (t.y - A.y) * distSq A p ≤
          (p.y - A.y) * (p.y - A.y) * distSq A p := by
        linarith [e1, mul_le_mul_of_nonneg_right hd (mul_self_nonneg (p.y - A.y))]
      have h6 : (t.y - A.y) * (t.y - A.y) ≤ (p.y - A.y) * (p.y - A.y) :=
        le_of_mul_le_mul_right h5 hD
      have h7 : t.y - A.y ≤ p.y - A.y := by
        by_contra hcon
        push_neg at hcon
        have := mul_self_lt_mul_self (le_of_lt hpy) hcon
        linarith
      have h8 : ((t.x - A.x) * (p.x - A.x) + (t.y - A.y) * (p.y - A.y)) * (p.y - A.y) ≤
          distSq A p * (p.y - A.y) := by
        linarith [e2, mul_le_mul_of_nonneg_right h7 hD.le]
      exact ⟨hs0, le_of_mul_le_mul_right h8 hpy⟩
  obtain ⟨hs0, hsD⟩ := hs_bounds
  have hdxq : ((distSq A p : ℤ) : ℚ) * ((t.x : ℚ) - (A.x : ℚ)) =
      (((t.x - A.x) * (p.x - A.x) + (t.y - A.y) * (p.y - A.y) : ℤ) : ℚ) *
        ((p.x : ℚ) - (A.x : ℚ)) := by
    exact_mod_cast hdx
  have hdyq : ((distSq A p : ℤ) : ℚ) * ((t.y : ℚ) - (A.y : ℚ)) =
      (((t.x - A.x) * (p.x - A.x) + (t.y - A.y) * (p.y - A.y) : ℤ) : ℚ) *
        ((p.y : ℚ) - (A.y : ℚ)) := by
    exact_mod_cast hdy
  have hDq : (0 : ℚ) < ((distSq A p : ℤ) : ℚ) := by exact_mod_cast hD
  refine bary2_mem (toQ2 A) (toQ2 p) (toQ2 t)
    (((distSq A p - ((t.x - A.x) * (p.x - A.x) + (t.y - A.y) * (p.y - A.y)) : ℤ)) : ℚ)
    ((((t.x - A.x) * (p.x - A.x) + (t.y - A.y) * (p.y - A.y) : ℤ)) : ℚ) ?_ ?_ ?_ ?_ ?_
  · exact_mod_cast sub_nonneg.mpr hsD
  · exact_mod_cast hs0
  · push_cast
    push_cast at hDq
    linarith
  · simp only [toQ2_fst]
    push_cast
    push_cast at hdxq
    linarith
  · simp only [toQ2_snd]
    push_cast
    push_cast at hdyq
    linarith

/-- Popping preserves the rational convex hull of the stack: every stack
point stays in the hull of the stack after popping and pushing the
incoming point. -/
theorem popStep_hull (A p : Pt) (hUp : UpperVec (ptSub p A)) :
    ∀ zs : List Pt,
      List.Chain' (fun x y => 0 < crossProduct A y x) zs →
      (∀ z ∈ zs, polarLe A z p) →
      (∀ z ∈ zs, UpperVec (ptSub z A)) →
      ∀ q ∈ zs ++ [A], toQ2 q ∈ convexHull ℚ (q2Set (p :: popStep p (zs ++ [A]))) := by
  intro zs
  induction zs with
  | nil =>
    intro _ _ _ q hq
    simp only [List.nil_append, List.mem_singleton] at hq
    subst hq
    exact subset_convexHull ℚ _ (toQ2_mem_q2Set _ q (by simp [popStep_single]))
  | cons t rest ih =>
    intro hchain hle hU
    cases rest with
    | nil =>
      intro q hq
      simp only [List.cons_append, List.nil_append] at hq ⊢
      rw [popStep_cons]
      by_cases hc : crossProduct A t p ≤ 0
      · rw [if_pos hc, popStep_single]
        rcases List.mem_cons.mp hq with rfl | hq2
        · -- the single stack point is popped: it ties with `p` and lies on
          -- the segment from the anchor to `p`
          have hge : 0 ≤ crossProduct A q p :=
            polarLe_nonneg_cross A q p (hU q (List.mem_cons_self _ _)) hUp
              (hle q (List.mem_cons_self _ _))
          have hc0 : crossProduct A q p = 0 := le_antisymm hc hge
          have hseg := tie_mem_segment A q p (hU q (List.mem_cons_self _ _)) hUp
            (hle q (List.mem_cons_self _ _)) hc0
          refine Set.mem_of_mem_of_subset hseg (convexHull_mono ?_)
          intro z hz
          simp only [Set.mem_insert_iff, Set.mem_singleton_iff] at hz
          rcases hz with rfl | rfl
          · exact toQ2_mem_q2Set _ A (by simp)
          · exact toQ2_mem_q2Set _ p (by simp)
        · simp only [List.mem_singleton] at hq2
          subst hq2
          exact subset_convexHull ℚ _ (toQ2_mem_q2Set _ q (by simp))
      · rw [if_neg hc]
        refine subset_convexHull ℚ _ (toQ2_mem_q2Set _ q ?_)
        simp only [List.mem_cons, List.mem_singleton] at hq ⊢
        tauto
    | cons s rest2 =>
      intro q hq
      simp only [List.cons_append] at hq ⊢
      rw [popStep_cons]
      by_cases hc : crossProduct s t p ≤ 0
      · rw [if_pos hc]
        have ihs := ih hchain.tail
          (fun z hz => hle z (List.mem_cons_of_mem _ hz))
          (fun z hz => hU z (List.mem_cons_of_mem _ hz))
        rcases List.mem_cons.mp hq with rfl | hq2
        · -- the popped point lies in the triangle (anchor, s, p)
          have h1 : 0 < crossProduct A s q := (List.chain'_cons.mp hchain).1
          have hge : 0 ≤ crossProduct A q p :=
            polarLe_nonneg_cross A q p (hU q (List.mem_cons_self _ _)) hUp
              (hle q (List.mem_cons_self _ _))
          have htri := popped_mem_triangle A s q p h1 hge hc
          refine Set.mem_of_mem_of_subset htri (convexHull_min ?_ (convex_convexHull ℚ _))
          intro z hz
          simp only [Set.mem_insert_iff, Set.mem_singleton_iff] at hz
          rcases hz with rfl | rfl | rfl
          · exact ihs A (by simp)
          · exact ihs s (by simp)
          · exact subset_convexHull ℚ _ (toQ2_mem_q2Set _ p (by simp))
        · exact ihs q hq2
      · rw [if_neg hc]
        refine subset_convexHull ℚ _ (toQ2_mem_q2Set _ q ?_)
        simp only [List.mem_cons] at hq ⊢
        tauto

/-- Through the whole Graham sweep, every processed point and every point
of the current stack lies in the rational convex hull of the final
stack. -/
theorem scan_hull (A : Pt) : ∀ (l : List Pt) (zs : List Pt),
    List.Pairwise (polarLe A) l →
    (∀ q ∈ l, UpperVec (ptSub q A)) →
    List.Chain' (fun x y => 0 < crossProduct A y x) zs →
    (∀ z ∈ zs, UpperVec (ptSub z A)) →
    (∀ z ∈ zs, ∀ q ∈ l, polarLe A z q) →
    ∀ q ∈ l ++ (zs ++ [A]),
      toQ2 q ∈ convexHull ℚ (q2Set (l.foldl scanStep (zs ++ [A]))) := by
  intro l
  induction l with
  | nil =>
    intro zs _ _ _ _ _ q hq
    simp only [List.nil_append] at hq
    exact subset_convexHull ℚ _ (toQ2_mem_q2Set _ q hq)
  | cons p rest ih =>
    intro zs hpw hUq hchain hzU hle q hq
    rw [List.foldl_cons]
    have hUp : UpperVec (ptSub p A) := hUq p (List.mem_cons_self _ _)
    obtain ⟨zs1, he, hch1, hsub1, hhead1⟩ := popStep_spec A p hUp zs hchain
      (fun z hz => hle z hz p (List.mem_cons_self _ _)) hzU
    have hscan : scanStep (zs ++ [A]) p = (p :: zs1) ++ [A] := by
      show p :: popStep p (zs ++ [A]) = (p :: zs1) ++ [A]
      rw [he]
      simp
    rw [hscan]
    have hnext := ih (p :: zs1) (List.pairwise_cons.mp hpw).2
      (fun q' hq' => hUq q' (List.mem_cons_of_mem _ hq'))
      (by
        refine List.chain'_cons'.mpr ⟨?_, hch1⟩
        intro y hy
        rcases hhead1 with rfl | ⟨t, ts, rfl, hcross⟩
        · simp at hy
        · simp only [List.head?_cons, Option.mem_def, Option.some.injEq] at hy
          rw [← hy]
          exact hcross)
      (by
        intro z hz
        rcases List.mem_cons.mp hz with rfl | hz
        · exact hUp
        · exact hzU z (hsub1 z hz))
      (by
        intro z hz q' hq'
        rcases List.mem_cons.mp hz with rfl | hz
        · exact (List.pairwise_cons.mp hpw).1 q' hq'
        · exact hle z (hsub1 z hz) q' (List.mem_cons_of_mem _ hq'))
    rcases List.mem_append.mp hq with hq1 | hq2
    · rcases List.mem_cons.mp hq1 with rfl | hq1
      · exact hnext q (by simp)
      · exact hnext q (List.mem_append.mpr (Or.inl hq1))
    · -- old stack points: first into the hull of the new stack, then into
      -- the hull of the final stack
      have hpop := popStep_hull A p hUp zs hchain
        (fun z hz => hle z hz p (List.mem_cons_self _ _)) hzU q hq2
      have hlist : p :: popStep p (zs ++ [A]) = (p :: zs1) ++ [A] := by
        rw [he]
        simp
      rw [hlist] at hpop
      refine Set.mem_of_mem_of_subset hpop
        (convexHull_min ?_ (convex_convexHull ℚ _))
      rintro z ⟨q', hq', rfl⟩
      exact hnext q' (List.mem_append.mpr (Or.inr hq'))

theorem q2Set_reverse (l : List Pt) : q2Set l.reverse = q2Set l := by
  apply Set.Subset.antisymm
  · exact q2Set_subset _ _ (fun p hp => List.mem_reverse.mp hp)
  · exact q2Set_subset _ _ (fun p hp => List.mem_reverse.mpr hp)

/-- C1: every input point lies in the rational convex hull of the point
set returned by `convexHull` — no input point falls strictly outside the
claimed hull.  (A point that appears in the returned list is in this hull
trivially, so this subsumes the stated disjunction.) -/
theorem C1_hull_correctness (ps : List Pt) (p : Pt) (hp : p ∈ ps) :
    toQ2 p ∈ convexHull ℚ (q2Set (TS.convexHull ps)) := by
  unfold TS.convexHull
  by_cases hlen : ps.length < 3
  · rw [if_pos hlen]
    exact subset_convexHull ℚ _ (toQ2_mem_q2Set _ p hp)
  · rw [if_neg hlen]
    show toQ2 p ∈ convexHull ℚ (q2Set ((List.insertionSort (polarLe (findAnchor ps))
        (ps.erase (findAnchor ps))).foldl scanStep [findAnchor ps]).reverse)
    rw [q2Set_reverse]
    have hmem : ∀ q ∈ List.insertionSort (polarLe (findAnchor ps))
        (ps.erase (findAnchor ps)), q ∈ ps := by
      intro q hq
      exact List.erase_subset _ _
        ((List.perm_insertionSort (polarLe (findAnchor ps)) _).mem_iff.mp hq)
    have hUq : ∀ q ∈ List.insertionSort (polarLe (findAnchor ps))
        (ps.erase (findAnchor ps)), UpperVec (ptSub q (findAnchor ps)) :=
      fun q hq => upperVec_of_lexLe _ q (findAnchor_min ps q (hmem q hq))
    have hpw : List.Pairwise (polarLe (findAnchor ps))
        (List.insertionSort (polarLe (findAnchor ps)) (ps.erase (findAnchor ps))) := by
      haveI : IsTotal Pt (polarLe (findAnchor ps)) := ⟨polarLe_total _⟩
      haveI : IsTrans Pt (polarLe (findAnchor ps)) := ⟨polarLe_trans _⟩
      exact List.sorted_insertionSort (polarLe (findAnchor ps)) _
    have hmain := scan_hull (findAnchor ps)
      (List.insertionSort (polarLe (findAnchor ps)) (ps.erase (findAnchor ps))) []
      hpw hUq List.chain'_nil (by simp) (by simp)
    by_cases hpe : p ∈ ps.erase (findAnchor ps)
    · have hpl : p ∈ List.insertionSort (polarLe (findAnchor ps))
          (ps.erase (findAnchor ps)) :=
        (List.perm_insertionSort (polarLe (findAnchor ps)) _).mem_iff.mpr hpe
      exact hmain p (List.mem_append.mpr (Or.inl hpl))
    · have hpA : p = findAnchor ps := by
        by_contra hne
        exact hpe ((List.mem_erase_of_ne hne).mpr hp)
      rw [hpA]
      exact hmain (findAnchor ps) (List.mem_append.mpr (Or.inr (by simp)))

/-- Witness for C1 on an input whose point `(1,1)` is dropped by the scan:
it still lies in the rational hull of the returned vertices. -/
theorem C1_hull_correctness_witness :
    (⟨1, 1⟩ : Pt) ∈ [(⟨0, 0⟩ : Pt), ⟨2, 0⟩, ⟨0, 2⟩, ⟨1, 1⟩] ∧
      toQ2 ⟨1, 1⟩ ∈ convexHull ℚ (q2Set (TS.convexHull [⟨0, 0⟩, ⟨2, 0⟩, ⟨0, 2⟩, ⟨1, 1⟩])) :=
  ⟨by decide, C1_hull_correctness [⟨0, 0⟩, ⟨2, 0⟩, ⟨0, 2⟩, ⟨1, 1⟩] ⟨1, 1⟩ (by decide)⟩
